import Mathlib

/-!
Shallow embedding of the algorithmic core of the `chunkdup` repository
(files `src/chunkdup/dire.py`, `diff.py`, `differ.py`, `utils.py`,
`blueprint.py`, `sums.py`, `chunkdup.py`), together with proofs about the
embedded code.

Conventions used throughout:
* chunk hashes, file content hashes and file paths are modelled as naturals
  (the Python code only compares them for equality, and sorts pairs of
  hashes; any countable totally ordered carrier is faithful);
* Python `dict`s are modelled as insertion-ordered association lists with
  in-place replacement on existing keys, exactly mirroring CPython
  semantics;
* fallible Python code (raising `ZeroDivisionError`, `KeyError` or
  `IndexError`) is modelled in `Option`, `none` marking the raise;
* the float expression `ceil(size * (width / total))` of the bar layout is
  modelled by exact rational arithmetic, `(size * width + total - 1) / total`
  over naturals;
* Python's bounded loops are written with an explicit fuel parameter that is
  provably sufficient, so every definition is executable.
-/

namespace Chunkdup

/-- Tokens compared by the sequence matcher: chunk hashes, modelled as `Nat`. -/
abbrev Tok := Nat

/-! ### difflib.SequenceMatcher (CPython implementation).
`dire.py` / `diff.py` / `chunkdup.py` construct the matcher with the
defaults `isjunk=None, autojunk=True`, so `__chain_b` purges *popular*
elements from `b2j` when `len(b) >= 200`, while `bjunk` stays empty
(autojunk fills `bpopular`, not `bjunk`), so the second pair of
junk-extension while loops in `find_longest_match` never fires. -/

/-- The autojunk popularity test of `SequenceMatcher.__chain_b`: with
`n = len(b)` and `autojunk` on, when `n >= 200` an element whose position
list is longer than `ntest = n // 100 + 1` is popular and is deleted from
`b2j`. -/
def popular (b : List Tok) (x : Tok) : Prop :=
  200 ≤ b.length ∧
    b.length / 100 + 1 < ((List.range b.length).filter (fun j => b.getD j 0 = x)).length

instance (b : List Tok) (x : Tok) : Decidable (popular b x) :=
  inferInstanceAs (Decidable (200 ≤ b.length ∧
    b.length / 100 + 1 <
      ((List.range b.length).filter (fun j => b.getD j 0 = x)).length))

/-- `b2j[x]`: the ascending list of positions of token `x` in `b`
(difflib builds it by appending positions in increasing order), with the
autojunk purge of `__chain_b`: a popular element is deleted from the
dictionary, so its lookup falls back to the empty list. -/
def b2j (b : List Tok) (x : Tok) : List Nat :=
  if popular b x then []
  else (List.range b.length).filter (fun j => b.getD j 0 = x)

/-- Length of the maximal run of consecutive non-popular positions of `a`
ending at `r` (a proof-side gauge: when `a` is matched against itself it
is the exact value of the diagonal `j2len` entry of row `r`). -/
def trailNP (a : List Tok) : Nat → Nat
  | 0 => if popular a (a.getD 0 0) then 0 else 1
  | r + 1 => if popular a (a.getD (r + 1) 0) then 0 else trailNP a r + 1

/-- Update of the `j2len` dictionary (total function with default 0). -/
def jupd (f : Nat → Nat) (j v : Nat) : Nat → Nat :=
  fun x => if x = j then v else f x

/-- Inner loop of `find_longest_match` over the ascending position list
`js = b2j[a[i]]` for row `i`.  `j2len` is the previous row's dictionary,
`new` the dictionary being built for this row, `best = (besti, bestj, bestsize)`.
Mirrors: `if j < blo: continue`, `if j >= bhi: break`,
`k = newj2len[j] = j2len.get(j-1, 0) + 1`, `if k > bestsize: ...`. -/
def flmInner (blo bhi i : Nat) (j2len : Nat → Nat) :
    List Nat → (Nat → Nat) → Nat × Nat × Nat → (Nat → Nat) × (Nat × Nat × Nat)
  | [], new, best => (new, best)
  | j :: js, new, best =>
    if j < blo then flmInner blo bhi i j2len js new best
    else if bhi ≤ j then (new, best)
    else
      let k := (if j = 0 then 0 else j2len (j - 1)) + 1
      let new' := jupd new j k
      -- Python's `i - k + 1`; here written `i + 1 - k`, which agrees since
      -- `k` is the length of a match run ending at `(i, j)`, so `k ≤ i + 1`.
      let best' := if best.2.2 < k then (i + 1 - k, j + 1 - k, k) else best
      flmInner blo bhi i j2len js new' best'

/-- Row loop of `find_longest_match`: `for i in range(alo, ahi)`. -/
def flmRows (a b : List Tok) (blo bhi : Nat) :
    List Nat → (Nat → Nat) → Nat × Nat × Nat → Nat × Nat × Nat
  | [], _, best => best
  | i :: is, j2len, best =>
    let r := flmInner blo bhi i j2len (b2j b (a.getD i 0)) (fun _ => 0) best
    flmRows a b blo bhi is r.1 r.2

/-- Backward extension loop of `find_longest_match` (`bjunk` is empty with
`isjunk=None`, so the second pair of while loops in CPython never fires).
The fuel `besti` is exactly sufficient: when it reaches 0 the guard
`alo < besti` is false. -/
def flmExtBack (a b : List Tok) (alo blo : Nat) :
    Nat → Nat × Nat × Nat → Nat × Nat × Nat
  | 0, best => best
  | fuel + 1, (i, j, k) =>
    if alo < i ∧ blo < j ∧ a.getD (i - 1) 0 = b.getD (j - 1) 0 then
      flmExtBack a b alo blo fuel (i - 1, j - 1, k + 1)
    else (i, j, k)

/-- Forward extension loop of `find_longest_match`.  The fuel
`ahi - (besti + bestsize)` is exactly sufficient. -/
def flmExtFwd (a b : List Tok) (ahi bhi : Nat) :
    Nat → Nat × Nat × Nat → Nat × Nat × Nat
  | 0, best => best
  | fuel + 1, (i, j, k) =>
    if i + k < ahi ∧ j + k < bhi ∧ a.getD (i + k) 0 = b.getD (j + k) 0 then
      flmExtFwd a b ahi bhi fuel (i, j, k + 1)
    else (i, j, k)

/-- `SequenceMatcher.find_longest_match(alo, ahi, blo, bhi)`. -/
def findLongestMatch (a b : List Tok) (alo ahi blo bhi : Nat) : Nat × Nat × Nat :=
  let best := flmRows a b blo bhi (List.range' alo (ahi - alo)) (fun _ => 0) (alo, blo, 0)
  let best := flmExtBack a b alo blo best.1 best
  flmExtFwd a b ahi bhi (ahi - (best.1 + best.2.2)) best

/-- The recursive block collection of `get_matching_blocks`.  CPython drives
a LIFO queue of windows and sorts the collected triples afterwards; the
windows form a recursion tree whose subproblems are independent, and the
first components of blocks found in the left window are strictly below `i`,
those in the right window strictly above, so the sorted queue output equals
this in-order traversal of the same tree.  The window size
`(ahi - alo) + (bhi - blo)` strictly decreases on each recursive call, so a
fuel of `a.length + b.length` is sufficient. -/
def matchingBlocksRec (a b : List Tok) :
    Nat → Nat → Nat → Nat → Nat → List (Nat × Nat × Nat)
  | 0, _, _, _, _ => []
  | fuel + 1, alo, ahi, blo, bhi =>
    let r := findLongestMatch a b alo ahi blo bhi
    let i := r.1
    let j := r.2.1
    let k := r.2.2
    if k = 0 then []
    else
      (if alo < i ∧ blo < j then matchingBlocksRec a b fuel alo i blo j else []) ++
        (i, j, k) ::
          (if i + k < ahi ∧ j + k < bhi then matchingBlocksRec a b fuel (i + k) ahi (j + k) bhi
           else [])

/-- The adjacent-block merging fold at the end of `get_matching_blocks`
(accumulator `(i1, j1, k1)` starts at `(0, 0, 0)`). -/
def mergeAdjacent : Nat × Nat × Nat → List (Nat × Nat × Nat) → List (Nat × Nat × Nat)
  | (i1, j1, k1), [] => if k1 ≠ 0 then [(i1, j1, k1)] else []
  | (i1, j1, k1), (i2, j2, k2) :: rest =>
    if i1 + k1 = i2 ∧ j1 + k1 = j2 then mergeAdjacent (i1, j1, k1 + k2) rest
    else if k1 ≠ 0 then (i1, j1, k1) :: mergeAdjacent (i2, j2, k2) rest
    else mergeAdjacent (i2, j2, k2) rest

/-- `SequenceMatcher.get_matching_blocks`, including the terminal sentinel
`(len(a), len(b), 0)`. -/
def getMatchingBlocks (a b : List Tok) : List (Nat × Nat × Nat) :=
  mergeAdjacent (0, 0, 0)
      (matchingBlocksRec a b (a.length + b.length) 0 a.length 0 b.length) ++
    [(a.length, b.length, 0)]

/-- The four opcode tags of difflib (and of `dire.DiffType`). -/
inductive DiffTag where
  | delete
  | insert
  | replace
  | equal
deriving DecidableEq, Repr

/-- One opcode `(tag, i1, i2, j1, j2)` of `SequenceMatcher.get_opcodes`. -/
structure Opcode where
  tag : DiffTag
  i1 : Nat
  i2 : Nat
  j1 : Nat
  j2 : Nat
deriving DecidableEq, Repr

/-- The opcode emission walk of `get_opcodes` over the matching blocks. -/
def getOpcodesGo : Nat → Nat → List (Nat × Nat × Nat) → List Opcode
  | _, _, [] => []
  | i, j, (ai, bj, k) :: rest =>
    (if i < ai ∧ j < bj then [⟨DiffTag.replace, i, ai, j, bj⟩]
     else if i < ai then [⟨DiffTag.delete, i, ai, j, bj⟩]
     else if j < bj then [⟨DiffTag.insert, i, ai, j, bj⟩]
     else []) ++
      (if k ≠ 0 then [⟨DiffTag.equal, ai, ai + k, bj, bj + k⟩] else []) ++
        getOpcodesGo (ai + k) (bj + k) rest

/-- `SequenceMatcher.get_opcodes()`. -/
def getOpcodes (a b : List Tok) : List Opcode :=
  getOpcodesGo 0 0 (getMatchingBlocks a b)

/-! ### dire.py -/

/-- `dire.DiffItem` (with reduced, i.e. summed, values). -/
structure DiffItem where
  type : DiffTag
  a : Nat
  b : Nat
deriving DecidableEq, Repr

/-- `DiffItem.value`: `a` for DELETE/REPLACE/EQUAL, `b` for INSERT
(the `A_VALUABLE` table of dire.py). -/
def DiffItem.value (d : DiffItem) : Nat :=
  match d.type with
  | DiffTag.insert => d.b
  | _ => d.a

/-- First symbol of `TYPE_SYMBLES` for a diff item. -/
def DiffItem.ca (d : DiffItem) : Char :=
  match d.type with
  | DiffTag.delete => '-'
  | DiffTag.insert => ' '
  | DiffTag.replace => '-'
  | DiffTag.equal => '='

/-- Second symbol of `TYPE_SYMBLES` for a diff item. -/
def DiffItem.cb (d : DiffItem) : Char :=
  match d.type with
  | DiffTag.delete => ' '
  | DiffTag.insert => '+'
  | DiffTag.replace => '+'
  | DiffTag.equal => '='

/-- `sum(values[i:j])` for a Python slice of a size list. -/
def sliceSum (s : List Nat) (i j : Nat) : Nat :=
  ((s.take j).drop i).sum

/-- `Dire.get(a, b, a_value, b_value)` with `reduce=True`: one `DiffItem`
per opcode, carrying the summed sizes of the two slices. -/
def direGet (a b : List Tok) (av bv : List Nat) : List DiffItem :=
  (getOpcodes a b).map fun op => ⟨op.tag, sliceSum av op.i1 op.i2, sliceSum bv op.j1 op.j2⟩

/-! ### differ.py: `Differ._compare` -/

/-- `total = sum(x.value for x in dire)` in `Differ._compare`. -/
def direTotal (ds : List DiffItem) : Nat :=
  (ds.map DiffItem.value).sum

/-- `matches = sum(x.value for x in dire if x.type.name == "EQUAL")`. -/
def direMatches (ds : List DiffItem) : Nat :=
  ((ds.filter fun d => d.type = DiffTag.equal).map DiffItem.value).sum

/-- `ratio = (2 * matches) / (file1.size + file2.size)` of `Differ._compare`
(`diff.find_diff` computes the same expression).  A zero denominator raises
`ZeroDivisionError` in Python, modelled by `none`; there is no special case
in the code. -/
def compareRatio (a b : List Tok) (av bv : List Nat) : Option ℚ :=
  if av.sum + bv.sum = 0 then none
  else some ((2 * (direMatches (direGet a b av bv) : ℚ)) / ((av.sum : ℚ) + (bv.sum : ℚ)))

/-! ### utils.py: `get_order_indexes` and `iter_steps` -/

/-- Stable descending comparison used by `get_order_indexes`:
`sorted([[v, i] ...], reverse=True, key=lambda x: x[0])` orders by value
descending and, being stable on an index-ascending input, by index ascending
on ties. -/
def ordRel (p q : Nat × Nat) : Prop :=
  q.1 < p.1 ∨ (p.1 = q.1 ∧ p.2 ≤ q.2)

instance : DecidableRel ordRel := fun p q => by
  unfold ordRel; exact instDecidableOr

instance : IsTotal (Nat × Nat) ordRel := by
  constructor
  intro a b
  obtain ⟨a1, a2⟩ := a
  obtain ⟨b1, b2⟩ := b
  unfold ordRel
  omega

instance : IsTrans (Nat × Nat) ordRel := by
  constructor
  intro a b c
  obtain ⟨a1, a2⟩ := a
  obtain ⟨b1, b2⟩ := b
  obtain ⟨c1, c2⟩ := c
  unfold ordRel
  omega

/-- `[[v, i] for i, v in enumerate(list)]`. -/
def pairsOf (s : List Nat) : List (Nat × Nat) :=
  (List.range s.length).map fun i => (s.getD i 0, i)

/-- `utils.get_order_indexes(list)`: indices sorted by value descending,
stable (hence index ascending on ties). -/
def getOrderIndexes (s : List Nat) : List Nat :=
  ((pairsOf s).insertionSort ordRel).map fun p => p.2

/-- One pass of the generator `iter_steps` over the fixed `order` list:
`for i in order: if steps[i] == 0: break; steps[i] -= 1; yield i`.
Returns the yielded indices of this pass and the updated `steps`. -/
def passOnce : List Nat → List Nat → List Nat × List Nat
  | [], steps => ([], steps)
  | i :: rest, steps =>
    if steps.getD i 0 = 0 then ([], steps)
    else
      let r := passOnce rest (steps.set i (steps.getD i 0 - 1))
      (i :: r.1, r.2)

/-- The `while steps[order[0]] > 0` loop of `iter_steps`, with fuel.
Each iteration with a positive head decrements the head, so a fuel of
`stairs.sum` is sufficient. -/
def iterStepsLoop : Nat → List Nat → List Nat → List Nat
  | 0, _, _ => []
  | fuel + 1, order, steps =>
    match order with
    | [] => []
    | o :: _ =>
      if steps.getD o 0 = 0 then []
      else
        let r := passOnce order steps
        r.1 ++ iterStepsLoop fuel order r.2

/-- `utils.iter_steps(stairs)`: the full (finite) sequence produced by the
generator. -/
def iterSteps (stairs : List Nat) : List Nat :=
  iterStepsLoop stairs.sum (getOrderIndexes stairs) stairs

/-! ### differ.py `fill_line` / blueprint.py: the render plan -/

/-- `ceil(x / y)` over naturals (exact-rational model of
`math.ceil(size * (bar_width / total))`). -/
def cdiv (x y : Nat) : Nat :=
  (x + y - 1) / y

/-- Step 1 of the layout: `w1 = ceil(di.a * zoom), w2 = ceil(di.b * zoom)`
for each diff item (`fill_line` in differ.py, `Blueprint._prepare_bp`). -/
def prepareBp (width total : Nat) (dire : List DiffItem) : List (Nat × Nat) :=
  dire.map fun di => (cdiv (di.a * width) total, cdiv (di.b * width) total)

/-- `real_width = sum(max(x1, x2) for x1, x2 in blueprint)`. -/
def realWidth (bp : List (Nat × Nat)) : Nat :=
  (bp.map fun p => max p.1 p.2).sum

/-- Step 2: `adjust_space[i] = (maxw - 1) if maxw > 1 else 0`, which equals
`maxw - 1` in truncated subtraction (`Blueprint._prepare_adj`). -/
def adjustSpace (bp : List (Nat × Nat)) : List Nat :=
  bp.map fun p => max p.1 p.2 - 1

/-- `Blueprint._shrink` / the local `shrink` of `fill_line`: decrement each
positive component of `blueprint[index]` by one. -/
def shrinkAt (bp : List (Nat × Nat)) (i : Nat) : List (Nat × Nat) :=
  bp.set i ((bp.getD i (0, 0)).1 - 1, (bp.getD i (0, 0)).2 - 1)

/-- `for index in islice(iter_steps(adjust_space), shrink_target): shrink(index)`. -/
def applyShrinks (bp : List (Nat × Nat)) (idxs : List Nat) : List (Nat × Nat) :=
  idxs.foldl shrinkAt bp

/-- The complete width-apportionment plan of `fill_line` (differ.py;
`Blueprint._adjust` plus `Blueprint._ellipsis` are the same algorithm).
Returns the final blueprint together with the elided index range
`[lo, hi)`: Python marks `blueprint[left:-right]` with `-1`s, which is the
range `[left, n - right)` for `right ≥ 1` and the empty range for
`right = 0` (a slice `[left:0]`); an empty range means no ellipsis.
`left = ceil((w-3)/2) = (w-2)/2` and `right = int((w-3)/2) = (w-3)/2` in
natural division (model restricted to `w ≥ 3`, negative widths never reach
this code with a sensible CLI). -/
def fillLinePlan (width total : Nat) (dire : List DiffItem) :
    List (Nat × Nat) × Nat × Nat :=
  let bp := prepareBp width total dire
  let rw := realWidth bp
  if rw = width then (bp, 0, 0)
  else
    let space := adjustSpace bp
    let starget := rw - width
    let bp' := applyShrinks bp ((iterSteps space).take starget)
    if space.sum < starget then
      let rgt := (width - 3) / 2
      (bp', (width - 2) / 2, if rgt = 0 then 0 else bp'.length - rgt)
    else (bp', 0, 0)

/-- A segment appended to a rendered line: a run of one character, or the
`"..."` ellipsis token.  The Python code appends strings; the run characters
are drawn from `- = + ' '` so a run never equals `"..."` and the two
representations are in bijection. -/
inductive Seg where
  | chars (c : Char) (n : Nat)
  | dots
deriving DecidableEq, Repr

/-- `char_bar`: append `char * width` if `width` is non-zero. -/
def charBar (c : Char) (w : Nat) (line : List Seg) : List Seg :=
  if w ≠ 0 then line ++ [Seg.chars c w] else line

/-- `padding_bar`: append `" " * (max_width - width)` if positive. -/
def paddingBar (w maxw : Nat) (line : List Seg) : List Seg :=
  if maxw - w ≠ 0 then line ++ [Seg.chars ' ' (maxw - w)] else line

/-- The rendering loop of `fill_line`: elided positions (marked `-1` in
Python, here `lo ≤ i < hi`) emit a single `"..."` unless the previous
segment already is one; `line1[-1]` on an empty line raises `IndexError`,
modelled by `none`. -/
def renderGo (lo hi : Nat) :
    Nat → List (DiffItem × Nat × Nat) → List Seg → List Seg → Option (List Seg × List Seg)
  | _, [], l1, l2 => some (l1, l2)
  | i, (di, w1, w2) :: rest, l1, l2 =>
    if lo ≤ i ∧ i < hi then
      match l1.getLast? with
      | none => none
      | some s =>
        if s = Seg.dots then renderGo lo hi (i + 1) rest l1 l2
        else renderGo lo hi (i + 1) rest (l1 ++ [Seg.dots]) (l2 ++ [Seg.dots])
    else
      let w := max w1 w2
      renderGo lo hi (i + 1) rest (paddingBar w1 w (charBar di.ca w1 l1))
        (paddingBar w2 w (charBar di.cb w2 l2))

/-- `differ.fill_line(bar_width, total, dire)`. -/
def fillLine (width total : Nat) (dire : List DiffItem) : Option (List Seg × List Seg) :=
  let plan := fillLinePlan width total dire
  renderGo plan.2.1 plan.2.2 0 (List.zip dire plan.1) [] []

/-! ### Python dict model: insertion-ordered association lists -/

/-- `d[k] = v`: replace in place if the key exists, else append. -/
def dictInsert {κ ν : Type} [DecidableEq κ] (d : List (κ × ν)) (k : κ) (v : ν) :
    List (κ × ν) :=
  if d.any fun p => p.1 = k then d.map fun p => if p.1 = k then (k, v) else p
  else d ++ [(k, v)]

/-- `d.get(k)` / `d[k]` lookup. -/
def dictLookup {κ ν : Type} [DecidableEq κ] (d : List (κ × ν)) (k : κ) : Option ν :=
  (d.find? fun p => p.1 = k).map fun p => p.2

/-- `d.setdefault(k, []).append(v)`. -/
def dictAppend {κ ν : Type} [DecidableEq κ] (d : List (κ × List ν)) (k : κ) (v : ν) :
    List (κ × List ν) :=
  if d.any fun p => p.1 = k then
    d.map fun p => if p.1 = k then (p.1, p.2 ++ [v]) else p
  else d ++ [(k, [v])]

/-- `d.get(k, [])`. -/
def dictGetD {κ ν : Type} [DecidableEq κ] (d : List (κ × List ν)) (k : κ) : List ν :=
  match dictLookup d k with
  | some l => l
  | none => []

/-! ### chunkdup.py: `CheckSumIndex` and `find_dup_files` candidate pairs -/

/-- The `chunk2file_id` build of `CheckSumIndex.__init__`: file ids are
assigned by position (`file_id = 0; ...; file_id += 1`), and every chunk
hash of file `fid` appends `fid` to its entry. -/
def c2fBuild (acc : List (Tok × List Nat)) (fid : Nat) :
    List (List Tok) → List (Tok × List Nat)
  | [] => acc
  | cs :: rest => c2fBuild (cs.foldl (fun a c => dictAppend a c fid) acc) (fid + 1) rest

/-- `CheckSumIndex.chunk2file_id`, from the per-file chunk hash lists. -/
def chunk2FileId (files : List (List Tok)) : List (Tok × List Nat) :=
  c2fBuild [] 0 files

/-- The candidate-pair discovery of `chunkdup.find_dup_files`:
intersect the chunk key sets, cross-join the owner lists per shared chunk,
deduplicate (`list(set(file_id_pairs))`). -/
def findDupPairs (files1 files2 : List (List Tok)) : List (Nat × Nat) :=
  let chunks1 := chunk2FileId files1
  let chunks2 := chunk2FileId files2
  let sameChunks := (chunks1.map fun p => p.1).filter fun c =>
    (chunks2.map fun p => p.1).contains c
  (sameChunks.flatMap fun c =>
    (dictGetD chunks1 c).flatMap fun x => (dictGetD chunks2 c).map fun y => (x, y)).dedup

/-! ### sums.py: `File`, `Chunksums` and differ.py: `Differ` -/

/-- `sums.File`: content hash, path, and the chunk list (hash, size). -/
structure SFile where
  hash : Tok
  path : Nat
  chunks : List (Tok × Nat)
deriving DecidableEq, Repr

/-- `File.hashes` (first components of the chunks). -/
def SFile.hashes (f : SFile) : List Tok :=
  f.chunks.map fun c => c.1

/-- `File.sizes` (second components of the chunks). -/
def SFile.sizes (f : SFile) : List Nat :=
  f.chunks.map fun c => c.2

/-- `File.size = sum(sizes)`. -/
def SFile.size (f : SFile) : Nat :=
  f.sizes.sum

/-- `sums.Chunksums`: the dict `hashes` (checksum → File) and the dict
`files` (path → checksum). -/
structure Chunksums where
  hashes : List (Tok × SFile)
  files : List (Nat × Tok)
deriving DecidableEq, Repr

/-- `Chunksums.parse` at the level of already-parsed `File` records:
`cs.hashes[f.hash] = f; cs.files[f.path] = f.hash` per line, in order. -/
def chunksumsParse (ls : List SFile) : Chunksums :=
  ls.foldl
    (fun cs f =>
      ⟨dictInsert cs.hashes f.hash f, dictInsert cs.files f.path f.hash⟩)
    ⟨[], []⟩

/-- `Chunksums.chunk2file_id`: for each `(chunksum, file)` of `hashes`, for
each chunk `(hash, size)` of the file, append `chunksum` to the entry of
that chunk pair. -/
def csChunk2FileId (cs : Chunksums) : List ((Tok × Nat) × List Tok) :=
  cs.hashes.foldl
    (fun acc p => p.2.chunks.foldl (fun a c => dictAppend a c p.1) acc)
    []

/-- Lexicographic order on hash pairs, as used by `sorted(set(file_id_pairs))`. -/
def pairLe (x y : Nat × Nat) : Prop :=
  x.1 < y.1 ∨ (x.1 = y.1 ∧ x.2 ≤ y.2)

instance : DecidableRel pairLe := fun p q => by
  unfold pairLe; exact instDecidableOr

instance : IsTotal (Nat × Nat) pairLe := by
  constructor
  intro a b
  obtain ⟨a1, a2⟩ := a
  obtain ⟨b1, b2⟩ := b
  simp only [pairLe]
  omega

instance : IsTrans (Nat × Nat) pairLe := by
  constructor
  intro a b c
  obtain ⟨a1, a2⟩ := a
  obtain ⟨b1, b2⟩ := b
  obtain ⟨c1, c2⟩ := c
  simp only [pairLe]
  omega

/-- `Differ._pairs`: cross-join the owners of every shared chunk pair,
then `sorted(set(...))`. -/
def differPairs (cs1 cs2 : Chunksums) : List (Tok × Tok) :=
  let chunks1 := csChunk2FileId cs1
  let chunks2 := csChunk2FileId cs2
  let sameChunks := (chunks1.map fun p => p.1).filter fun c =>
    (chunks2.map fun p => p.1).contains c
  ((sameChunks.flatMap fun c =>
      (dictGetD chunks1 c).flatMap fun x => (dictGetD chunks2 c).map fun y => (x, y)).dedup).insertionSort
    pairLe

/-- The result of `Differ._compare`: the two files and the ratio (the
`total` and `dire` fields are not needed by the duplicate report). -/
structure CompareResult where
  file1 : SFile
  file2 : SFile
  ratio : ℚ
deriving DecidableEq, Repr

/-- `Differ._compare(file1, file2)`; `none` models the `ZeroDivisionError`
on two zero-sized files. -/
def compareFiles (f1 f2 : SFile) : Option CompareResult :=
  (compareRatio f1.hashes f2.hashes f1.sizes f2.sizes).map fun r => ⟨f1, f2, r⟩

/-- The accumulation loop of `Differ.dups` over the sorted pairs, with the
`dups` dict keyed by `(f1.size, f1.path, f2.size, f2.path)`; a pair is
skipped if the reversed key is already present, and an exact self-match
(`f1.path == f2.path and cr.ratio == 1.0`) is never stored. -/
def dupsGo (cs1 cs2 : Chunksums) :
    List (Tok × Tok) → List ((Nat × Nat × Nat × Nat) × CompareResult) →
      Option (List ((Nat × Nat × Nat × Nat) × CompareResult))
  | [], acc => some acc
  | (h1, h2) :: rest, acc =>
    match dictLookup cs1.hashes h1, dictLookup cs2.hashes h2 with
    | some f1, some f2 =>
      if acc.any fun p => p.1 = (f2.size, f2.path, f1.size, f1.path) then
        dupsGo cs1 cs2 rest acc
      else
        match compareFiles f1 f2 with
        | none => none
        | some cr =>
          if f1.path = f2.path ∧ cr.ratio = 1 then dupsGo cs1 cs2 rest acc
          else dupsGo cs1 cs2 rest (dictInsert acc (f1.size, f1.path, f2.size, f2.path) cr)
    | _, _ => none

/-- `Differ.dups`: the stored compare results, in insertion order. -/
def differDups (cs1 cs2 : Chunksums) : Option (List CompareResult) :=
  (dupsGo cs1 cs2 (differPairs cs1 cs2) []).map fun l => l.map fun p => p.2

/-- The chunk-repeat fixture `aa:1,aa:1,aa:1,bb:2` (hash `aa` coded 0,
`bb` coded 1, checksum `sum1` coded 3) under path `/A/1` coded 0. -/
def fixtureA : SFile := ⟨3, 0, [(0, 1), (0, 1), (0, 1), (1, 2)]⟩

/-- The same chunk content (checksum coded 4) under path `/A/2` coded 1. -/
def fixtureB : SFile := ⟨4, 1, [(0, 1), (0, 1), (0, 1), (1, 2)]⟩

/-- The parsed two-line catalog holding `fixtureA` and `fixtureB`. -/
def fixtureCS : Chunksums := chunksumsParse [fixtureA, fixtureB]

/-- The reduced diff of the `fill_line` doctests,
`Dire.loads('R10 E20 R10 D5 I5 E10 R10 E5 R5 E10')` (a DELETE keeps only
its `a` value, an INSERT only its `b` value). -/
def direFix : List DiffItem :=
  [⟨DiffTag.replace, 10, 10⟩, ⟨DiffTag.equal, 20, 20⟩, ⟨DiffTag.replace, 10, 10⟩,
   ⟨DiffTag.delete, 5, 0⟩, ⟨DiffTag.insert, 0, 5⟩, ⟨DiffTag.equal, 10, 10⟩,
   ⟨DiffTag.replace, 10, 10⟩, ⟨DiffTag.equal, 5, 5⟩, ⟨DiffTag.replace, 5, 5⟩,
   ⟨DiffTag.equal, 10, 10⟩]

/-! ### Specification-side model of the shrink order (for the round-robin
refinement claim).  The spec describes Step 3 as: repeatedly scan ops in
descending order of *remaining* budget (largest-budget-first round-robin),
decrementing each scanned op with positive remaining budget, until the
budgets are exhausted.  Ties are broken stably, i.e. by op index.  The only
difference from `iterSteps` is that the scan order is recomputed from the
remaining budgets before every pass. -/

/-- One pass of the spec's round-robin: recompute the descending order of
the remaining budgets, then scan exactly as `iter_steps` does. -/
def specRoundRobinLoop : Nat → List Nat → List Nat
  | 0, _ => []
  | fuel + 1, steps =>
    match getOrderIndexes steps with
    | [] => []
    | o :: rest =>
      if steps.getD o 0 = 0 then []
      else
        let r := passOnce (o :: rest) steps
        r.1 ++ specRoundRobinLoop fuel r.2

/-- The spec's largest-remaining-budget-first round-robin sequence. -/
def specRoundRobin (stairs : List Nat) : List Nat :=
  specRoundRobinLoop stairs.sum stairs

/-! ### Invariant predicates used by the proofs -/

/-- A sound match candidate inside the window `[alo, ahi) × [blo, bhi)`:
the triple `(i, j, k)` points at `k` pairwise equal tokens. -/
def GoodBest (a b : List Tok) (alo ahi blo bhi : Nat) (t : Nat × Nat × Nat) : Prop :=
  alo ≤ t.1 ∧ blo ≤ t.2.1 ∧ t.1 + t.2.2 ≤ ahi ∧ t.2.1 + t.2.2 ≤ bhi ∧
    ∀ s < t.2.2, a.get? (t.1 + s) = b.get? (t.2.1 + s)

/-- A match run of length `k ≥ 1` ending at positions `(i, j)`, lying inside
the window that starts at `(alo, blo)`. -/
def RunEnd (a b : List Tok) (alo blo i j k : Nat) : Prop :=
  1 ≤ k ∧ alo + k ≤ i + 1 ∧ blo + k ≤ j + 1 ∧
    ∀ t < k, a.get? (i + 1 - k + t) = b.get? (j + 1 - k + t)

/-- Invariant of a `j2len` row function for row `i`. -/
def RowInv (a b : List Tok) (alo blo bhi i : Nat) (f : Nat → Nat) : Prop :=
  ∀ j, f j ≠ 0 → blo ≤ j ∧ j < bhi ∧ RunEnd a b alo blo i j (f j)

/-- The matching blocks form a monotone chain starting from `(i, j)`:
every block starts at or after the current position and advances it. -/
def Chain : Nat → Nat → List (Nat × Nat × Nat) → Prop
  | _, _, [] => True
  | i, j, (ai, bj, k) :: rest => i ≤ ai ∧ j ≤ bj ∧ Chain (ai + k) (bj + k) rest

/-- The position reached after walking a block list from `(i, j)`. -/
def chainEnd : Nat × Nat → List (Nat × Nat × Nat) → Nat × Nat
  | p, [] => p
  | _, (ai, bj, k) :: rest => chainEnd (ai + k, bj + k) rest

/-- All blocks of the list are sound matches of `a` against `b`. -/
def BlocksSound (a b : List Tok) (l : List (Nat × Nat × Nat)) : Prop :=
  ∀ blk ∈ l, ∀ t < blk.2.2, a.get? (blk.1 + t) = b.get? (blk.2.1 + t)

/-- All blocks end within `(E1, E2)`. -/
def BlocksBounded (E1 E2 : Nat) (l : List (Nat × Nat × Nat)) : Prop :=
  ∀ blk ∈ l, blk.1 + blk.2.2 ≤ E1 ∧ blk.2.1 + blk.2.2 ≤ E2

/-- Well-formedness of one emitted opcode. -/
def OpWf (a b : List Tok) (op : Opcode) : Prop :=
  op.i1 ≤ op.i2 ∧ op.j1 ≤ op.j2 ∧ op.i2 ≤ a.length ∧ op.j2 ≤ b.length ∧
    (op.tag = DiffTag.insert → op.i1 = op.i2 ∧ op.j1 < op.j2) ∧
    (op.tag = DiffTag.delete → op.j1 = op.j2 ∧ op.i1 < op.i2) ∧
    (op.tag = DiffTag.replace → op.i1 < op.i2 ∧ op.j1 < op.j2) ∧
    (op.tag = DiffTag.equal → op.i2 - op.i1 = op.j2 - op.j1 ∧
      ∀ t, t < op.i2 - op.i1 → a.get? (op.i1 + t) = b.get? (op.j1 + t))

/-! ## Lemmas: the sequence matcher finds genuine matches -/

theorem get?_eq_some_getD {α : Type} (l : List α) (d : α) (i : Nat) (h : i < l.length) :
    l.get? i = some (l.getD i d) := by
  rw [List.getD_eq_getElem?_getD, List.get?_eq_getElem?, List.getElem?_eq_getElem h]
  rfl

theorem mem_b2j {b : List Tok} {x : Tok} {j : Nat} :
    j ∈ b2j b x ↔ ¬ popular b x ∧ j < b.length ∧ b.getD j 0 = x := by
  unfold b2j
  by_cases h : popular b x
  · rw [if_pos h]
    simp [h]
  · rw [if_neg h]
    simp [h, List.mem_filter, List.mem_range]

theorem b2j_popular {b : List Tok} {x : Tok} (h : popular b x) : b2j b x = [] := by
  unfold b2j
  rw [if_pos h]

theorem b2j_nodup (b : List Tok) (x : Tok) : (b2j b x).Nodup := by
  unfold b2j
  split
  · exact List.nodup_nil
  · exact (List.nodup_range _).filter _

theorem b2j_get? {b : List Tok} {x : Tok} {j : Nat} (h : j ∈ b2j b x) :
    b.get? j = some x := by
  rw [mem_b2j] at h
  rw [get?_eq_some_getD b 0 j h.2.1, h.2.2]

theorem runEnd_one {a b : List Tok} {alo blo i j : Nat} {x : Tok}
    (halo : alo ≤ i) (hblo : blo ≤ j)
    (hax : a.get? i = some x) (hbj : b.get? j = some x) :
    RunEnd a b alo blo i j 1 := by
  refine ⟨le_refl 1, by omega, by omega, ?_⟩
  intro t ht
  have h0 : t = 0 := by omega
  subst h0
  have e1 : i + 1 - 1 + 0 = i := by omega
  have e2 : j + 1 - 1 + 0 = j := by omega
  rw [e1, e2, hax, hbj]

theorem runEnd_step {a b : List Tok} {alo blo i j m : Nat} {x : Tok}
    (hm : RunEnd a b alo blo (i - 1) (j - 1) m) (hi : 1 ≤ i) (hj : 1 ≤ j)
    (hax : a.get? i = some x) (hbj : b.get? j = some x) :
    RunEnd a b alo blo i j (m + 1) := by
  obtain ⟨h1, h2, h3, hrun⟩ := hm
  refine ⟨by omega, by omega, by omega, ?_⟩
  intro t ht
  by_cases htm : t < m
  · have e1 : i + 1 - (m + 1) + t = i - 1 + 1 - m + t := by omega
    have e2 : j + 1 - (m + 1) + t = j - 1 + 1 - m + t := by omega
    rw [e1, e2]
    exact hrun t htm
  · have h0 : t = m := by omega
    have e1 : i + 1 - (m + 1) + t = i := by omega
    have e2 : j + 1 - (m + 1) + t = j := by omega
    rw [e1, e2, hax, hbj]

theorem goodBest_of_runEnd {a b : List Tok} {alo ahi blo bhi i j k : Nat}
    (hiahi : i < ahi) (hjbhi : j < bhi) (hr : RunEnd a b alo blo i j k) :
    GoodBest a b alo ahi blo bhi (i + 1 - k, j + 1 - k, k) := by
  obtain ⟨h1, h2, h3, hrun⟩ := hr
  refine ⟨by show alo ≤ i + 1 - k; omega, by show blo ≤ j + 1 - k; omega,
    by show i + 1 - k + k ≤ ahi; omega, by show j + 1 - k + k ≤ bhi; omega, ?_⟩
  intro s hs
  exact hrun s hs

theorem flmInner_inv {a b : List Tok} {alo ahi blo bhi i : Nat} {x : Tok}
    (halo : alo ≤ i) (hiahi : i < ahi) (hbhi : bhi ≤ b.length)
    (hax : a.get? i = some x) :
    ∀ (js : List Nat) (j2len new : Nat → Nat) (best : Nat × Nat × Nat),
      (∀ j ∈ js, b.get? j = some x) →
      (∀ j, j2len j ≠ 0 → 1 ≤ i) →
      RowInv a b alo blo bhi (i - 1) j2len →
      RowInv a b alo blo bhi i new →
      GoodBest a b alo ahi blo bhi best →
      RowInv a b alo blo bhi i (flmInner blo bhi i j2len js new best).1 ∧
        GoodBest a b alo ahi blo bhi (flmInner blo bhi i j2len js new best).2
  | [], j2len, new, best, _, _, _, hnew, hbest => by
    simpa [flmInner] using ⟨hnew, hbest⟩
  | j :: js, j2len, new, best, hjs, hpos, hprev, hnew, hbest => by
    by_cases hlo : j < blo
    · rw [show flmInner blo bhi i j2len (j :: js) new best
          = flmInner blo bhi i j2len js new best by simp [flmInner, hlo]]
      exact flmInner_inv halo hiahi hbhi hax js j2len new best
        (fun j' hj' => hjs j' (List.mem_cons_of_mem j hj')) hpos hprev hnew hbest
    · by_cases hhi : bhi ≤ j
      · rw [show flmInner blo bhi i j2len (j :: js) new best = (new, best) by
          simp [flmInner, hlo, hhi]]
        exact ⟨hnew, hbest⟩
      · have hbj : b.get? j = some x := hjs j (List.mem_cons_self j js)
        have hkrun : RunEnd a b alo blo i j ((if j = 0 then 0 else j2len (j - 1)) + 1) := by
          by_cases hj0 : j = 0
          · subst hj0
            simpa using runEnd_one halo (by omega) hax hbj
          · by_cases hz : j2len (j - 1) = 0
            · rw [if_neg hj0, hz]
              exact runEnd_one halo (by omega) hax hbj
            · rw [if_neg hj0]
              obtain ⟨hb1, hb2, hb3⟩ := hprev (j - 1) hz
              exact runEnd_step hb3 (hpos (j - 1) hz) (by omega) hax hbj
        have hnew' : RowInv a b alo blo bhi i
            (jupd new j ((if j = 0 then 0 else j2len (j - 1)) + 1)) := by
          intro j' hj'
          by_cases hjj : j' = j
          · subst hjj
            rw [show jupd new j' ((if j' = 0 then 0 else j2len (j' - 1)) + 1) j'
                = (if j' = 0 then 0 else j2len (j' - 1)) + 1 by simp [jupd]]
            exact ⟨by omega, by omega, hkrun⟩
          · rw [show jupd new j ((if j = 0 then 0 else j2len (j - 1)) + 1) j' = new j' by
              simp [jupd, hjj]] at hj' ⊢
            exact hnew j' hj'
        have hbest' : GoodBest a b alo ahi blo bhi
            (if best.2.2 < (if j = 0 then 0 else j2len (j - 1)) + 1 then
              (i + 1 - ((if j = 0 then 0 else j2len (j - 1)) + 1),
                j + 1 - ((if j = 0 then 0 else j2len (j - 1)) + 1),
                (if j = 0 then 0 else j2len (j - 1)) + 1)
            else best) := by
          by_cases hlt : best.2.2 < (if j = 0 then 0 else j2len (j - 1)) + 1
          · rw [if_pos hlt]
            exact goodBest_of_runEnd hiahi (by omega) hkrun
          · rw [if_neg hlt]
            exact hbest
        rw [show flmInner blo bhi i j2len (j :: js) new best
            = flmInner blo bhi i j2len js
                (jupd new j ((if j = 0 then 0 else j2len (j - 1)) + 1))
                (if best.2.2 < (if j = 0 then 0 else j2len (j - 1)) + 1 then
                  (i + 1 - ((if j = 0 then 0 else j2len (j - 1)) + 1),
                    j + 1 - ((if j = 0 then 0 else j2len (j - 1)) + 1),
                    (if j = 0 then 0 else j2len (j - 1)) + 1)
                else best) by
          simp [flmInner, hlo, hhi]]
        exact flmInner_inv halo hiahi hbhi hax js j2len _ _
          (fun j' hj' => hjs j' (List.mem_cons_of_mem j hj')) hpos hprev hnew' hbest'

theorem flmRows_inv {a b : List Tok} {alo ahi blo bhi : Nat}
    (hahi : ahi ≤ a.length) (hbhi : bhi ≤ b.length) :
    ∀ (n i : Nat) (j2len : Nat → Nat) (best : Nat × Nat × Nat),
      alo ≤ i → i + n = ahi →
      (∀ j, j2len j ≠ 0 → 1 ≤ i) →
      RowInv a b alo blo bhi (i - 1) j2len →
      GoodBest a b alo ahi blo bhi best →
      GoodBest a b alo ahi blo bhi
        (flmRows a b blo bhi (List.range' i n) j2len best)
  | 0, i, j2len, best, _, _, _, _, hbest => by
    simpa [flmRows] using hbest
  | n + 1, i, j2len, best, halo, hn, hpos, hprev, hbest => by
    rw [List.range'_succ]
    have hiahi : i < ahi := by omega
    have hila : i < a.length := by omega
    have hax : a.get? i = some (a.getD i 0) := get?_eq_some_getD a 0 i hila
    have hjs : ∀ j ∈ b2j b (a.getD i 0), b.get? j = some (a.getD i 0) :=
      fun j hj => b2j_get? hj
    have hr := flmInner_inv halo hiahi hbhi hax (b2j b (a.getD i 0)) j2len
      (fun _ => 0) best hjs hpos hprev (fun j hj => absurd rfl hj) hbest
    rw [show flmRows a b blo bhi (i :: List.range' (i + 1) n) j2len best
        = flmRows a b blo bhi (List.range' (i + 1) n)
            (flmInner blo bhi i j2len (b2j b (a.getD i 0)) (fun _ => 0) best).1
            (flmInner blo bhi i j2len (b2j b (a.getD i 0)) (fun _ => 0) best).2 by
      simp [flmRows]]
    exact flmRows_inv hahi hbhi n (i + 1) _ _ (by omega) (by omega)
      (fun j _ => by omega)
      (by simpa using hr.1)
      hr.2

theorem flmExtBack_good {a b : List Tok} {alo ahi blo bhi : Nat}
    (hahi : ahi ≤ a.length) (hbhi : bhi ≤ b.length) :
    ∀ (fuel : Nat) (t : Nat × Nat × Nat),
      GoodBest a b alo ahi blo bhi t →
      GoodBest a b alo ahi blo bhi (flmExtBack a b alo blo fuel t)
  | 0, t, h => by simpa [flmExtBack] using h
  | fuel + 1, (i, j, k), h => by
    have h1 : alo ≤ i := h.1
    have h2 : blo ≤ j := h.2.1
    have h3 : i + k ≤ ahi := h.2.2.1
    have h4 : j + k ≤ bhi := h.2.2.2.1
    have hrun : ∀ s, s < k → a.get? (i + s) = b.get? (j + s) := fun s hs => h.2.2.2.2 s hs
    by_cases hc : alo < i ∧ blo < j ∧ a.getD (i - 1) 0 = b.getD (j - 1) 0
    · rw [show flmExtBack a b alo blo (fuel + 1) (i, j, k)
          = flmExtBack a b alo blo fuel (i - 1, j - 1, k + 1) by
        simp only [flmExtBack]
        rw [if_pos hc]]
      apply flmExtBack_good hahi hbhi fuel
      have hia : i - 1 < a.length := by omega
      have hjb : j - 1 < b.length := by omega
      have hget : a.get? (i - 1) = b.get? (j - 1) := by
        rw [get?_eq_some_getD a 0 (i - 1) hia, get?_eq_some_getD b 0 (j - 1) hjb, hc.2.2]
      refine ⟨by show alo ≤ i - 1; omega, by show blo ≤ j - 1; omega,
        by show i - 1 + (k + 1) ≤ ahi; omega,
        by show j - 1 + (k + 1) ≤ bhi; omega, ?_⟩
      intro s hs
      show a.get? (i - 1 + s) = b.get? (j - 1 + s)
      have hs' : s < k + 1 := hs
      rcases Nat.eq_zero_or_pos s with hs0 | hs0
      · subst hs0
        simpa using hget
      · have e1 : i - 1 + s = i + (s - 1) := by omega
        have e2 : j - 1 + s = j + (s - 1) := by omega
        rw [e1, e2]
        exact hrun (s - 1) (by omega)
    · rw [show flmExtBack a b alo blo (fuel + 1) (i, j, k) = (i, j, k) by
        simp only [flmExtBack]
        rw [if_neg hc]]
      exact h

theorem flmExtFwd_good {a b : List Tok} {alo ahi blo bhi : Nat}
    (hahi : ahi ≤ a.length) (hbhi : bhi ≤ b.length) :
    ∀ (fuel : Nat) (t : Nat × Nat × Nat),
      GoodBest a b alo ahi blo bhi t →
      GoodBest a b alo ahi blo bhi (flmExtFwd a b ahi bhi fuel t)
  | 0, t, h => by simpa [flmExtFwd] using h
  | fuel + 1, (i, j, k), h => by
    have h1 : alo ≤ i := h.1
    have h2 : blo ≤ j := h.2.1
    have h3 : i + k ≤ ahi := h.2.2.1
    have h4 : j + k ≤ bhi := h.2.2.2.1
    have hrun : ∀ s, s < k → a.get? (i + s) = b.get? (j + s) := fun s hs => h.2.2.2.2 s hs
    by_cases hc : i + k < ahi ∧ j + k < bhi ∧ a.getD (i + k) 0 = b.getD (j + k) 0
    · rw [show flmExtFwd a b ahi bhi (fuel + 1) (i, j, k)
          = flmExtFwd a b ahi bhi fuel (i, j, k + 1) by
        simp only [flmExtFwd]
        rw [if_pos hc]]
      apply flmExtFwd_good hahi hbhi fuel
      have hia : i + k < a.length := by omega
      have hjb : j + k < b.length := by omega
      have hget : a.get? (i + k) = b.get? (j + k) := by
        rw [get?_eq_some_getD a 0 (i + k) hia, get?_eq_some_getD b 0 (j + k) hjb, hc.2.2]
      refine ⟨by show alo ≤ i; omega, by show blo ≤ j; omega,
        by show i + (k + 1) ≤ ahi; omega, by show j + (k + 1) ≤ bhi; omega, ?_⟩
      intro s hs
      show a.get? (i + s) = b.get? (j + s)
      have hs' : s < k + 1 := hs
      by_cases hsk : s < k
      · exact hrun s hsk
      · have e : s = k := by omega
        subst e
        exact hget
    · rw [show flmExtFwd a b ahi bhi (fuel + 1) (i, j, k) = (i, j, k) by
        simp only [flmExtFwd]
        rw [if_neg hc]]
      exact h

theorem findLongestMatch_good {a b : List Tok} {alo ahi blo bhi : Nat}
    (h1 : alo ≤ ahi) (h2 : blo ≤ bhi) (hahi : ahi ≤ a.length) (hbhi : bhi ≤ b.length) :
    GoodBest a b alo ahi blo bhi (findLongestMatch a b alo ahi blo bhi) := by
  have hinit : GoodBest a b alo ahi blo bhi (alo, blo, 0) := by
    refine ⟨by show alo ≤ alo; omega, by show blo ≤ blo; omega,
      by show alo + 0 ≤ ahi; omega, by show blo + 0 ≤ bhi; omega, ?_⟩
    intro s hs
    exact absurd hs (by simp)
  have hrows := flmRows_inv hahi hbhi (ahi - alo) alo (fun _ => 0) (alo, blo, 0)
    (le_refl alo) (by omega) (fun j hj => absurd rfl hj)
    (fun j hj => absurd rfl hj) hinit
  unfold findLongestMatch
  exact flmExtFwd_good hahi hbhi _ _ (flmExtBack_good hahi hbhi _ _ hrows)

/-! ## Lemmas: the matching blocks form a sound monotone chain -/

theorem chain_mono : ∀ {l : List (Nat × Nat × Nat)} {i j i' j' : Nat},
    Chain i j l → i' ≤ i → j' ≤ j → Chain i' j' l
  | [], _, _, _, _, _, _, _ => trivial
  | (ai, bj, k) :: rest, i, j, i', j', h, hi, hj =>
    ⟨le_trans hi h.1, le_trans hj h.2.1, h.2.2⟩

theorem chainEnd_append : ∀ (l₁ l₂ : List (Nat × Nat × Nat)) (p : Nat × Nat),
    chainEnd p (l₁ ++ l₂) = chainEnd (chainEnd p l₁) l₂
  | [], l₂, p => rfl
  | (ai, bj, k) :: rest, l₂, p => by
    rw [List.cons_append]
    show chainEnd (ai + k, bj + k) (rest ++ l₂) = _
    rw [chainEnd_append rest l₂ (ai + k, bj + k)]
    rfl

theorem chain_append : ∀ {l₁ l₂ : List (Nat × Nat × Nat)} {i j : Nat},
    Chain i j l₁ →
    Chain (chainEnd (i, j) l₁).1 (chainEnd (i, j) l₁).2 l₂ →
    Chain i j (l₁ ++ l₂)
  | [], l₂, i, j, _, h₂ => h₂
  | (ai, bj, k) :: rest, l₂, i, j, h₁, h₂ =>
    ⟨h₁.1, h₁.2.1, chain_append h₁.2.2 h₂⟩

theorem chain_ge : ∀ {l : List (Nat × Nat × Nat)} {i j : Nat},
    Chain i j l → i ≤ (chainEnd (i, j) l).1 ∧ j ≤ (chainEnd (i, j) l).2
  | [], i, j, _ => ⟨le_refl i, le_refl j⟩
  | (ai, bj, k) :: rest, i, j, h => by
    have hr := chain_ge h.2.2
    constructor
    · exact le_trans h.1 (le_trans (Nat.le_add_right ai k) hr.1)
    · exact le_trans h.2.1 (le_trans (Nat.le_add_right bj k) hr.2)

theorem matchingBlocksRec_good {a b : List Tok} :
    ∀ (fuel alo ahi blo bhi : Nat), alo ≤ ahi → blo ≤ bhi →
      ahi ≤ a.length → bhi ≤ b.length →
      Chain alo blo (matchingBlocksRec a b fuel alo ahi blo bhi) ∧
        (chainEnd (alo, blo) (matchingBlocksRec a b fuel alo ahi blo bhi)).1 ≤ ahi ∧
        (chainEnd (alo, blo) (matchingBlocksRec a b fuel alo ahi blo bhi)).2 ≤ bhi ∧
        BlocksSound a b (matchingBlocksRec a b fuel alo ahi blo bhi) ∧
        BlocksBounded ahi bhi (matchingBlocksRec a b fuel alo ahi blo bhi)
  | 0, alo, ahi, blo, bhi, h1, h2, h3, h4 => by
    refine ⟨trivial, ?_, ?_, ?_, ?_⟩
    · show alo ≤ ahi; exact h1
    · show blo ≤ bhi; exact h2
    · intro blk hblk; exact absurd hblk (by simp [matchingBlocksRec])
    · intro blk hblk; exact absurd hblk (by simp [matchingBlocksRec])
  | fuel + 1, alo, ahi, blo, bhi, h1, h2, h3, h4 => by
    rcases hEq : findLongestMatch a b alo ahi blo bhi with ⟨i, j, k⟩
    have hg := findLongestMatch_good h1 h2 h3 h4
    rw [hEq] at hg
    have hg1 : alo ≤ i := hg.1
    have hg2 : blo ≤ j := hg.2.1
    have hg3 : i + k ≤ ahi := hg.2.2.1
    have hg4 : j + k ≤ bhi := hg.2.2.2.1
    have hgr : ∀ s, s < k → a.get? (i + s) = b.get? (j + s) := fun s hs => hg.2.2.2.2 s hs
    have hunf : matchingBlocksRec a b (fuel + 1) alo ahi blo bhi
        = if k = 0 then []
          else
            (if alo < i ∧ blo < j then matchingBlocksRec a b fuel alo i blo j else []) ++
              (i, j, k) ::
                (if i + k < ahi ∧ j + k < bhi then
                  matchingBlocksRec a b fuel (i + k) ahi (j + k) bhi
                 else []) := by
      simp only [matchingBlocksRec, hEq]
    by_cases hk : k = 0
    · rw [hunf, if_pos hk]
      refine ⟨trivial, ?_, ?_, ?_, ?_⟩
      · show alo ≤ ahi; exact h1
      · show blo ≤ bhi; exact h2
      · intro blk hblk; exact absurd hblk (by simp)
      · intro blk hblk; exact absurd hblk (by simp)
    · rw [hunf, if_neg hk]
      have hleft : Chain alo blo
            (if alo < i ∧ blo < j then matchingBlocksRec a b fuel alo i blo j else []) ∧
          (chainEnd (alo, blo)
              (if alo < i ∧ blo < j then matchingBlocksRec a b fuel alo i blo j else [])).1 ≤ i ∧
          (chainEnd (alo, blo)
              (if alo < i ∧ blo < j then matchingBlocksRec a b fuel alo i blo j else [])).2 ≤ j ∧
          BlocksSound a b
            (if alo < i ∧ blo < j then matchingBlocksRec a b fuel alo i blo j else []) ∧
          BlocksBounded i j
            (if alo < i ∧ blo < j then matchingBlocksRec a b fuel alo i blo j else []) := by
        by_cases hc : alo < i ∧ blo < j
        · rw [if_pos hc]
          exact matchingBlocksRec_good fuel alo i blo j (by omega) (by omega)
            (by omega) (by omega)
        · rw [if_neg hc]
          refine ⟨trivial, ?_, ?_, ?_, ?_⟩
          · show alo ≤ i; exact hg1
          · show blo ≤ j; exact hg2
          · intro blk hblk; exact absurd hblk (by simp)
          · intro blk hblk; exact absurd hblk (by simp)
      have hright : Chain (i + k) (j + k)
            (if i + k < ahi ∧ j + k < bhi then
              matchingBlocksRec a b fuel (i + k) ahi (j + k) bhi else []) ∧
          (chainEnd (i + k, j + k)
              (if i + k < ahi ∧ j + k < bhi then
                matchingBlocksRec a b fuel (i + k) ahi (j + k) bhi else [])).1 ≤ ahi ∧
          (chainEnd (i + k, j + k)
              (if i + k < ahi ∧ j + k < bhi then
                matchingBlocksRec a b fuel (i + k) ahi (j + k) bhi else [])).2 ≤ bhi ∧
          BlocksSound a b
            (if i + k < ahi ∧ j + k < bhi then
              matchingBlocksRec a b fuel (i + k) ahi (j + k) bhi else []) ∧
          BlocksBounded ahi bhi
            (if i + k < ahi ∧ j + k < bhi then
              matchingBlocksRec a b fuel (i + k) ahi (j + k) bhi else []) := by
        by_cases hc : i + k < ahi ∧ j + k < bhi
        · rw [if_pos hc]
          exact matchingBlocksRec_good fuel (i + k) ahi (j + k) bhi (by omega) (by omega)
            h3 h4
        · rw [if_neg hc]
          refine ⟨trivial, ?_, ?_, ?_, ?_⟩
          · show i + k ≤ ahi; exact hg3
          · show j + k ≤ bhi; exact hg4
          · intro blk hblk; exact absurd hblk (by simp)
          · intro blk hblk; exact absurd hblk (by simp)
      obtain ⟨hlc, hle1, hle2, hls, hlb⟩ := hleft
      obtain ⟨hrc, hre1, hre2, hrs, hrb⟩ := hright
      constructor
      · apply chain_append hlc
        exact ⟨hle1, hle2, hrc⟩
      constructor
      · rw [chainEnd_append]
        rw [show chainEnd (chainEnd (alo, blo)
              (if alo < i ∧ blo < j then matchingBlocksRec a b fuel alo i blo j else []))
              ((i, j, k) :: (if i + k < ahi ∧ j + k < bhi then
                matchingBlocksRec a b fuel (i + k) ahi (j + k) bhi else []))
            = chainEnd (i + k, j + k) (if i + k < ahi ∧ j + k < bhi then
                matchingBlocksRec a b fuel (i + k) ahi (j + k) bhi else []) from rfl]
        exact hre1
      constructor
      · rw [chainEnd_append]
        rw [show chainEnd (chainEnd (alo, blo)
              (if alo < i ∧ blo < j then matchingBlocksRec a b fuel alo i blo j else []))
              ((i, j, k) :: (if i + k < ahi ∧ j + k < bhi then
                matchingBlocksRec a b fuel (i + k) ahi (j + k) bhi else []))
            = chainEnd (i + k, j + k) (if i + k < ahi ∧ j + k < bhi then
                matchingBlocksRec a b fuel (i + k) ahi (j + k) bhi else []) from rfl]
        exact hre2
      constructor
      · intro blk hblk
        rcases List.mem_append.mp hblk with hm | hm
        · exact hls blk hm
        · rcases List.mem_cons.mp hm with hm' | hm'
          · subst hm'
            exact hgr
          · exact hrs blk hm'
      · intro blk hblk
        rcases List.mem_append.mp hblk with hm | hm
        · obtain ⟨hb1, hb2⟩ := hlb blk hm
          exact ⟨by omega, by omega⟩
        · rcases List.mem_cons.mp hm with hm' | hm'
          · subst hm'
            exact ⟨hg3, hg4⟩
          · exact hrb blk hm'

theorem mergeAdjacent_good {a b : List Tok} {E1 E2 : Nat} :
    ∀ (l : List (Nat × Nat × Nat)) (i1 j1 k1 i0 j0 : Nat),
      i0 ≤ i1 → j0 ≤ j1 →
      (∀ t, t < k1 → a.get? (i1 + t) = b.get? (j1 + t)) →
      i1 + k1 ≤ E1 → j1 + k1 ≤ E2 →
      Chain (i1 + k1) (j1 + k1) l →
      BlocksSound a b l → BlocksBounded E1 E2 l →
      Chain i0 j0 (mergeAdjacent (i1, j1, k1) l) ∧
        (chainEnd (i0, j0) (mergeAdjacent (i1, j1, k1) l)).1 ≤ E1 ∧
        (chainEnd (i0, j0) (mergeAdjacent (i1, j1, k1) l)).2 ≤ E2 ∧
        BlocksSound a b (mergeAdjacent (i1, j1, k1) l) ∧
        BlocksBounded E1 E2 (mergeAdjacent (i1, j1, k1) l)
  | [], i1, j1, k1, i0, j0, hi0, hj0, hrun, hb1, hb2, _, _, _ => by
    by_cases hk : k1 ≠ 0
    · rw [show mergeAdjacent (i1, j1, k1) [] = [(i1, j1, k1)] by simp [mergeAdjacent, hk]]
      refine ⟨⟨hi0, hj0, trivial⟩, ?_, ?_, ?_, ?_⟩
      · show i1 + k1 ≤ E1; exact hb1
      · show j1 + k1 ≤ E2; exact hb2
      · intro blk hblk
        rcases List.mem_singleton.mp hblk with rfl
        exact hrun
      · intro blk hblk
        rcases List.mem_singleton.mp hblk with rfl
        exact ⟨hb1, hb2⟩
    · rw [show mergeAdjacent (i1, j1, k1) [] = [] by simp [mergeAdjacent, hk]]
      refine ⟨trivial, ?_, ?_, ?_, ?_⟩
      · show i0 ≤ E1; omega
      · show j0 ≤ E2; omega
      · intro blk hblk; exact absurd hblk (by simp)
      · intro blk hblk; exact absurd hblk (by simp)
  | (i2, j2, k2) :: rest, i1, j1, k1, i0, j0, hi0, hj0, hrun, hb1, hb2, hch, hsd, hbd => by
    have hl1 : i1 + k1 ≤ i2 := hch.1
    have hl2 : j1 + k1 ≤ j2 := hch.2.1
    have hch' : Chain (i2 + k2) (j2 + k2) rest := hch.2.2
    have hhead_run : ∀ t, t < k2 → a.get? (i2 + t) = b.get? (j2 + t) :=
      fun t ht => hsd (i2, j2, k2) (List.mem_cons_self _ _) t ht
    have hhead_b1 : i2 + k2 ≤ E1 := (hbd (i2, j2, k2) (List.mem_cons_self _ _)).1
    have hhead_b2 : j2 + k2 ≤ E2 := (hbd (i2, j2, k2) (List.mem_cons_self _ _)).2
    have hsd' : BlocksSound a b rest := fun blk hblk => hsd blk (List.mem_cons_of_mem _ hblk)
    have hbd' : BlocksBounded E1 E2 rest := fun blk hblk => hbd blk (List.mem_cons_of_mem _ hblk)
    by_cases hadj : i1 + k1 = i2 ∧ j1 + k1 = j2
    · rw [show mergeAdjacent (i1, j1, k1) ((i2, j2, k2) :: rest)
          = mergeAdjacent (i1, j1, k1 + k2) rest by simp [mergeAdjacent, hadj]]
      have hrun' : ∀ t, t < k1 + k2 → a.get? (i1 + t) = b.get? (j1 + t) := by
        intro t ht
        by_cases htk : t < k1
        · exact hrun t htk
        · have e1 : i1 + t = i2 + (t - k1) := by omega
          have e2 : j1 + t = j2 + (t - k1) := by omega
          rw [e1, e2]
          exact hhead_run (t - k1) (by omega)
      exact mergeAdjacent_good rest i1 j1 (k1 + k2) i0 j0 hi0 hj0 hrun'
        (by omega) (by omega)
        (by rw [show i1 + (k1 + k2) = i2 + k2 by omega, show j1 + (k1 + k2) = j2 + k2 by omega]
            exact hch')
        hsd' hbd'
    · by_cases hk : k1 ≠ 0
      · rw [show mergeAdjacent (i1, j1, k1) ((i2, j2, k2) :: rest)
            = (i1, j1, k1) :: mergeAdjacent (i2, j2, k2) rest by
          simp [mergeAdjacent, hadj, hk]]
        obtain ⟨hc, he1, he2, hs, hb⟩ := mergeAdjacent_good rest i2 j2 k2 (i1 + k1) (j1 + k1)
          hl1 hl2 hhead_run hhead_b1 hhead_b2 hch' hsd' hbd'
        refine ⟨⟨hi0, hj0, hc⟩, ?_, ?_, ?_, ?_⟩
        · rw [show chainEnd (i0, j0) ((i1, j1, k1) :: mergeAdjacent (i2, j2, k2) rest)
              = chainEnd (i1 + k1, j1 + k1) (mergeAdjacent (i2, j2, k2) rest) from rfl]
          exact he1
        · rw [show chainEnd (i0, j0) ((i1, j1, k1) :: mergeAdjacent (i2, j2, k2) rest)
              = chainEnd (i1 + k1, j1 + k1) (mergeAdjacent (i2, j2, k2) rest) from rfl]
          exact he2
        · intro blk hblk
          rcases List.mem_cons.mp hblk with hm | hm
          · subst hm
            exact hrun
          · exact hs blk hm
        · intro blk hblk
          rcases List.mem_cons.mp hblk with hm | hm
          · subst hm
            exact ⟨hb1, hb2⟩
          · exact hb blk hm
      · rw [show mergeAdjacent (i1, j1, k1) ((i2, j2, k2) :: rest)
            = mergeAdjacent (i2, j2, k2) rest by simp [mergeAdjacent, hadj, hk]]
        exact mergeAdjacent_good rest i2 j2 k2 i0 j0 (by omega) (by omega)
          hhead_run hhead_b1 hhead_b2 hch' hsd' hbd'

theorem getMatchingBlocks_props (a b : List Tok) :
    Chain 0 0 (getMatchingBlocks a b) ∧
      chainEnd (0, 0) (getMatchingBlocks a b) = (a.length, b.length) ∧
      BlocksSound a b (getMatchingBlocks a b) ∧
      BlocksBounded a.length b.length (getMatchingBlocks a b) := by
  obtain ⟨hc, he1, he2, hs, hb⟩ := @matchingBlocksRec_good a b
    (a.length + b.length) 0 a.length 0 b.length (Nat.zero_le _) (Nat.zero_le _)
    (le_refl _) (le_refl _)
  obtain ⟨hmc, hme1, hme2, hms, hmb⟩ := mergeAdjacent_good
    (matchingBlocksRec a b (a.length + b.length) 0 a.length 0 b.length)
    0 0 0 0 0 (le_refl 0) (le_refl 0) (fun t ht => absurd ht (by omega))
    (by omega) (by omega) (by simpa using hc) hs hb
  unfold getMatchingBlocks
  refine ⟨?_, ?_, ?_, ?_⟩
  · apply chain_append hmc
    exact ⟨hme1, hme2, trivial⟩
  · rw [chainEnd_append]
    rfl
  · intro blk hblk
    rcases List.mem_append.mp hblk with hm | hm
    · exact hms blk hm
    · rcases List.mem_singleton.mp hm with rfl
      intro t ht
      have ht' : t < 0 := ht
      exact absurd ht' (by omega)
  · intro blk hblk
    rcases List.mem_append.mp hblk with hm | hm
    · exact hmb blk hm
    · rcases List.mem_singleton.mp hm with rfl
      exact ⟨by show a.length + 0 ≤ a.length; omega,
        by show b.length + 0 ≤ b.length; omega⟩

/-! ## Lemmas: slice sums and opcode well-formedness -/

theorem take_sum_add_sliceSum (s : List Nat) {i j : Nat} (h : i ≤ j) :
    (s.take i).sum + sliceSum s i j = (s.take j).sum := by
  have h2 := List.sum_take_add_sum_drop (s.take j) i
  rw [List.take_take, min_eq_left h] at h2
  exact h2

theorem sliceSum_split (s : List Nat) {i m j : Nat} (h1 : i ≤ m) (h2 : m ≤ j) :
    sliceSum s i m + sliceSum s m j = sliceSum s i j := by
  have a1 := take_sum_add_sliceSum s h1
  have a2 := take_sum_add_sliceSum s h2
  have a3 := take_sum_add_sliceSum s (le_trans h1 h2)
  omega

theorem sliceSum_same (s : List Nat) (i : Nat) : sliceSum s i i = 0 := by
  have a1 := take_sum_add_sliceSum s (le_refl i)
  omega

theorem sliceSum_zero_length (s : List Nat) (h : s.length ≤ 0 + s.length) :
    sliceSum s 0 s.length = s.sum := by
  unfold sliceSum
  rw [List.take_length, List.drop_zero]

theorem opWf_mk {a b : List Tok} {tg : DiffTag} {i1 i2 j1 j2 : Nat}
    (h1 : i1 ≤ i2) (h2 : j1 ≤ j2) (h3 : i2 ≤ a.length) (h4 : j2 ≤ b.length)
    (h5 : tg = DiffTag.insert → i1 = i2 ∧ j1 < j2)
    (h6 : tg = DiffTag.delete → j1 = j2 ∧ i1 < i2)
    (h7 : tg = DiffTag.replace → i1 < i2 ∧ j1 < j2)
    (h8 : tg = DiffTag.equal → i2 - i1 = j2 - j1 ∧
      ∀ t, t < i2 - i1 → a.get? (i1 + t) = b.get? (j1 + t)) :
    OpWf a b ⟨tg, i1, i2, j1, j2⟩ :=
  ⟨h1, h2, h3, h4, h5, h6, h7, h8⟩

theorem getOpcodesGo_wf {a b : List Tok} :
    ∀ (blocks : List (Nat × Nat × Nat)) (i j : Nat),
      Chain i j blocks → BlocksSound a b blocks →
      BlocksBounded a.length b.length blocks →
      ∀ op ∈ getOpcodesGo i j blocks, OpWf a b op
  | [], _, _, _, _, _ => by
    intro op hop
    exact absurd hop (by simp [getOpcodesGo])
  | (ai, bj, k) :: rest, i, j, hch, hsd, hbd => by
    intro op hop
    have hia : i ≤ ai := hch.1
    have hjb : j ≤ bj := hch.2.1
    have hch' : Chain (ai + k) (bj + k) rest := hch.2.2
    have hb1 : ai + k ≤ a.length := (hbd (ai, bj, k) (List.mem_cons_self _ _)).1
    have hb2 : bj + k ≤ b.length := (hbd (ai, bj, k) (List.mem_cons_self _ _)).2
    have hrun : ∀ t, t < k → a.get? (ai + t) = b.get? (bj + t) :=
      fun t ht => hsd (ai, bj, k) (List.mem_cons_self _ _) t ht
    have hsd' : BlocksSound a b rest := fun blk hblk => hsd blk (List.mem_cons_of_mem _ hblk)
    have hbd' : BlocksBounded a.length b.length rest :=
      fun blk hblk => hbd blk (List.mem_cons_of_mem _ hblk)
    rw [show getOpcodesGo i j ((ai, bj, k) :: rest)
        = (if i < ai ∧ j < bj then [⟨DiffTag.replace, i, ai, j, bj⟩]
           else if i < ai then [⟨DiffTag.delete, i, ai, j, bj⟩]
           else if j < bj then [⟨DiffTag.insert, i, ai, j, bj⟩]
           else []) ++
            (if k ≠ 0 then [⟨DiffTag.equal, ai, ai + k, bj, bj + k⟩] else []) ++
              getOpcodesGo (ai + k) (bj + k) rest from rfl] at hop
    rcases List.mem_append.mp hop with hm | hm
    · rcases List.mem_append.mp hm with hg | he
      · by_cases hc1 : i < ai ∧ j < bj
        · rw [if_pos hc1] at hg
          rcases List.mem_singleton.mp hg with rfl
          exact opWf_mk (by omega) (by omega) (by omega) (by omega)
            (fun htag => absurd htag (by simp))
            (fun htag => absurd htag (by simp))
            (fun _ => ⟨by omega, by omega⟩)
            (fun htag => absurd htag (by simp))
        · rw [if_neg hc1] at hg
          by_cases hc2 : i < ai
          · rw [if_pos hc2] at hg
            rcases List.mem_singleton.mp hg with rfl
            have hjeq : j = bj := by omega
            exact opWf_mk (by omega) (by omega) (by omega) (by omega)
              (fun htag => absurd htag (by simp))
              (fun _ => ⟨by omega, by omega⟩)
              (fun htag => absurd htag (by simp))
              (fun htag => absurd htag (by simp))
          · rw [if_neg hc2] at hg
            by_cases hc3 : j < bj
            · rw [if_pos hc3] at hg
              rcases List.mem_singleton.mp hg with rfl
              have hieq : i = ai := by omega
              exact opWf_mk (by omega) (by omega) (by omega) (by omega)
                (fun _ => ⟨by omega, by omega⟩)
                (fun htag => absurd htag (by simp))
                (fun htag => absurd htag (by simp))
                (fun htag => absurd htag (by simp))
            · rw [if_neg hc3] at hg
              exact absurd hg (by simp)
      · by_cases hk : k ≠ 0
        · rw [if_pos hk] at he
          rcases List.mem_singleton.mp he with rfl
          refine opWf_mk (by omega) (by omega) (by omega) (by omega)
            (fun htag => absurd htag (by simp))
            (fun htag => absurd htag (by simp))
            (fun htag => absurd htag (by simp))
            (fun _ => ⟨by omega, ?_⟩)
          intro t ht
          exact hrun t (by omega)
        · rw [if_neg hk] at he
          exact absurd he (by simp)
    · exact getOpcodesGo_wf rest (ai + k) (bj + k) hch' hsd' hbd' op hm

theorem getOpcodesGo_sliceSumA (s : List Nat) :
    ∀ (blocks : List (Nat × Nat × Nat)) (i j : Nat), Chain i j blocks →
      ((getOpcodesGo i j blocks).map fun op => sliceSum s op.i1 op.i2).sum
        = sliceSum s i (chainEnd (i, j) blocks).1
  | [], i, j, _ => by
    rw [show getOpcodesGo i j [] = [] from rfl]
    rw [show chainEnd (i, j) [] = (i, j) from rfl]
    simp [sliceSum_same]
  | (ai, bj, k) :: rest, i, j, hch => by
    have hia : i ≤ ai := hch.1
    have hch' : Chain (ai + k) (bj + k) rest := hch.2.2
    have hend := chain_ge hch'
    have hrec := getOpcodesGo_sliceSumA s rest (ai + k) (bj + k) hch'
    rw [show getOpcodesGo i j ((ai, bj, k) :: rest)
        = (if i < ai ∧ j < bj then [⟨DiffTag.replace, i, ai, j, bj⟩]
           else if i < ai then [⟨DiffTag.delete, i, ai, j, bj⟩]
           else if j < bj then [⟨DiffTag.insert, i, ai, j, bj⟩]
           else []) ++
            (if k ≠ 0 then [⟨DiffTag.equal, ai, ai + k, bj, bj + k⟩] else []) ++
              getOpcodesGo (ai + k) (bj + k) rest from rfl]
    rw [show chainEnd (i, j) ((ai, bj, k) :: rest) = chainEnd (ai + k, bj + k) rest from rfl]
    rw [List.map_append, List.map_append, List.sum_append, List.sum_append]
    have hgap : ((if i < ai ∧ j < bj then [⟨DiffTag.replace, i, ai, j, bj⟩]
        else if i < ai then [⟨DiffTag.delete, i, ai, j, bj⟩]
        else if j < bj then [⟨DiffTag.insert, i, ai, j, bj⟩]
        else []).map (fun op : Opcode => sliceSum s op.i1 op.i2)).sum = sliceSum s i ai := by
      by_cases hc1 : i < ai ∧ j < bj
      · rw [if_pos hc1]; simp
      · rw [if_neg hc1]
        by_cases hc2 : i < ai
        · rw [if_pos hc2]; simp
        · rw [if_neg hc2]
          have hieq : i = ai := by omega
          by_cases hc3 : j < bj
          · rw [if_pos hc3]
            simp [hieq]
          · rw [if_neg hc3]
            simp [hieq, sliceSum_same]
    have heqs : ((if k ≠ 0 then [⟨DiffTag.equal, ai, ai + k, bj, bj + k⟩] else []).map
        (fun op : Opcode => sliceSum s op.i1 op.i2)).sum = sliceSum s ai (ai + k) := by
      by_cases hk : k ≠ 0
      · rw [if_pos hk]; simp
      · rw [if_neg hk]
        have hk0 : k = 0 := by omega
        simp [hk0, sliceSum_same]
    rw [hgap, heqs, hrec]
    have s1 := sliceSum_split s hia (Nat.le_add_right ai k)
    have s2 := sliceSum_split s (le_trans hia (Nat.le_add_right ai k)) hend.1
    omega

theorem getOpcodesGo_sliceSumB (s : List Nat) :
    ∀ (blocks : List (Nat × Nat × Nat)) (i j : Nat), Chain i j blocks →
      ((getOpcodesGo i j blocks).map fun op => sliceSum s op.j1 op.j2).sum
        = sliceSum s j (chainEnd (i, j) blocks).2
  | [], i, j, _ => by
    rw [show getOpcodesGo i j [] = [] from rfl]
    rw [show chainEnd (i, j) [] = (i, j) from rfl]
    simp [sliceSum_same]
  | (ai, bj, k) :: rest, i, j, hch => by
    have hjb : j ≤ bj := hch.2.1
    have hch' : Chain (ai + k) (bj + k) rest := hch.2.2
    have hend := chain_ge hch'
    have hrec := getOpcodesGo_sliceSumB s rest (ai + k) (bj + k) hch'
    rw [show getOpcodesGo i j ((ai, bj, k) :: rest)
        = (if i < ai ∧ j < bj then [⟨DiffTag.replace, i, ai, j, bj⟩]
           else if i < ai then [⟨DiffTag.delete, i, ai, j, bj⟩]
           else if j < bj then [⟨DiffTag.insert, i, ai, j, bj⟩]
           else []) ++
            (if k ≠ 0 then [⟨DiffTag.equal, ai, ai + k, bj, bj + k⟩] else []) ++
              getOpcodesGo (ai + k) (bj + k) rest from rfl]
    rw [show chainEnd (i, j) ((ai, bj, k) :: rest) = chainEnd (ai + k, bj + k) rest from rfl]
    rw [List.map_append, List.map_append, List.sum_append, List.sum_append]
    have hgap : ((if i < ai ∧ j < bj then [⟨DiffTag.replace, i, ai, j, bj⟩]
        else if i < ai then [⟨DiffTag.delete, i, ai, j, bj⟩]
        else if j < bj then [⟨DiffTag.insert, i, ai, j, bj⟩]
        else []).map (fun op : Opcode => sliceSum s op.j1 op.j2)).sum = sliceSum s j bj := by
      by_cases hc1 : i < ai ∧ j < bj
      · rw [if_pos hc1]; simp
      · rw [if_neg hc1]
        by_cases hc2 : i < ai
        · rw [if_pos hc2]
          have hjeq : j = bj := by omega
          simp [hjeq, sliceSum_same]
        · rw [if_neg hc2]
          by_cases hc3 : j < bj
          · rw [if_pos hc3]; simp
          · rw [if_neg hc3]
            have hjeq : j = bj := by omega
            simp [hjeq, sliceSum_same]
    have heqs : ((if k ≠ 0 then [⟨DiffTag.equal, ai, ai + k, bj, bj + k⟩] else []).map
        (fun op : Opcode => sliceSum s op.j1 op.j2)).sum = sliceSum s bj (bj + k) := by
      by_cases hk : k ≠ 0
      · rw [if_pos hk]; simp
      · rw [if_neg hk]
        have hk0 : k = 0 := by omega
        simp [hk0, sliceSum_same]
    rw [hgap, heqs, hrec]
    have s1 := sliceSum_split s hjb (Nat.le_add_right bj k)
    have s2 := sliceSum_split s (le_trans hjb (Nat.le_add_right bj k)) hend.2
    omega

theorem getOpcodes_wf {a b : List Tok} :
    ∀ op ∈ getOpcodes a b, OpWf a b op := by
  obtain ⟨hc, _, hs, hb⟩ := getMatchingBlocks_props a b
  exact getOpcodesGo_wf (getMatchingBlocks a b) 0 0 hc hs hb

theorem getOpcodes_sliceSumA {a b : List Tok} (s : List Nat) (hs : s.length = a.length) :
    ((getOpcodes a b).map fun op => sliceSum s op.i1 op.i2).sum = s.sum := by
  obtain ⟨hc, he, _, _⟩ := getMatchingBlocks_props a b
  unfold getOpcodes
  rw [getOpcodesGo_sliceSumA s (getMatchingBlocks a b) 0 0 hc, he]
  show sliceSum s 0 a.length = s.sum
  rw [← hs]
  unfold sliceSum
  rw [List.take_length, List.drop_zero]

theorem getOpcodes_sliceSumB {a b : List Tok} (s : List Nat) (hs : s.length = b.length) :
    ((getOpcodes a b).map fun op => sliceSum s op.j1 op.j2).sum = s.sum := by
  obtain ⟨hc, he, _, _⟩ := getMatchingBlocks_props a b
  unfold getOpcodes
  rw [getOpcodesGo_sliceSumB s (getMatchingBlocks a b) 0 0 hc, he]
  show sliceSum s 0 b.length = s.sum
  rw [← hs]
  unfold sliceSum
  rw [List.take_length, List.drop_zero]

/-! ## Lemmas: comparing a sequence with itself gives one full match
(completeness of the matcher on the diagonal) -/

theorem b2j_split (a : List Tok) (i : Nat) (hi : i < a.length)
    (hnp : ¬ popular a (a.getD i 0)) :
    ∃ l₁ l₂, b2j a (a.getD i 0) = l₁ ++ i :: l₂ ∧
      (∀ j ∈ l₁, j < i) ∧ (∀ j ∈ l₂, i < j ∧ j < a.length) := by
  have hsplit : List.range a.length
      = List.range' 0 i ++ i :: List.range' (i + 1) (a.length - i - 1) := by
    rw [List.range_eq_range']
    have h1 := List.range'_append 0 i (a.length - i) 1
    rw [show 0 + 1 * i = i from by omega,
      show (a.length - i) + i = a.length from by omega] at h1
    rw [← h1]
    congr 1
    rw [show a.length - i = (a.length - i - 1) + 1 from by omega, List.range'_succ]
    rw [show a.length - i - 1 + 1 - 1 = a.length - i - 1 from by omega]
  refine ⟨(List.range' 0 i).filter (fun j => a.getD j 0 = a.getD i 0),
    (List.range' (i + 1) (a.length - i - 1)).filter (fun j => a.getD j 0 = a.getD i 0),
    ?_, ?_, ?_⟩
  · unfold b2j
    rw [if_neg hnp]
    rw [hsplit, List.filter_append]
    congr 1
    rw [List.filter_cons]
    rw [if_pos (by simp)]
  · intro j hj
    have := (List.mem_filter.mp hj).1
    rw [List.mem_range'] at this
    omega
  · intro j hj
    have := (List.mem_filter.mp hj).1
    rw [List.mem_range'] at this
    omega

theorem flmInner_append {blo bhi i : Nat} {f : Nat → Nat} :
    ∀ (js₁ js₂ : List Nat) (new : Nat → Nat) (best : Nat × Nat × Nat),
      (∀ j ∈ js₁, j < bhi) →
      flmInner blo bhi i f (js₁ ++ js₂) new best
        = flmInner blo bhi i f js₂ (flmInner blo bhi i f js₁ new best).1
            (flmInner blo bhi i f js₁ new best).2
  | [], js₂, new, best, _ => by
    rw [show flmInner blo bhi i f [] new best = (new, best) from rfl]
    rfl
  | j :: js₁, js₂, new, best, hjs => by
    have hjb : j < bhi := hjs j (List.mem_cons_self _ _)
    have hjs' : ∀ j' ∈ js₁, j' < bhi := fun j' hj' => hjs j' (List.mem_cons_of_mem _ hj')
    by_cases hlo : j < blo
    · rw [show flmInner blo bhi i f ((j :: js₁) ++ js₂) new best
          = flmInner blo bhi i f (js₁ ++ js₂) new best by simp [flmInner, hlo]]
      rw [show flmInner blo bhi i f (j :: js₁) new best
          = flmInner blo bhi i f js₁ new best by simp [flmInner, hlo]]
      exact flmInner_append js₁ js₂ new best hjs'
    · have hhi : ¬ bhi ≤ j := by omega
      rw [show flmInner blo bhi i f ((j :: js₁) ++ js₂) new best
          = flmInner blo bhi i f (js₁ ++ js₂)
              (jupd new j ((if j = 0 then 0 else f (j - 1)) + 1))
              (if best.2.2 < (if j = 0 then 0 else f (j - 1)) + 1 then
                (i + 1 - ((if j = 0 then 0 else f (j - 1)) + 1),
                  j + 1 - ((if j = 0 then 0 else f (j - 1)) + 1),
                  (if j = 0 then 0 else f (j - 1)) + 1)
              else best) by simp [flmInner, hlo, hhi]]
      rw [show flmInner blo bhi i f (j :: js₁) new best
          = flmInner blo bhi i f js₁
              (jupd new j ((if j = 0 then 0 else f (j - 1)) + 1))
              (if best.2.2 < (if j = 0 then 0 else f (j - 1)) + 1 then
                (i + 1 - ((if j = 0 then 0 else f (j - 1)) + 1),
                  j + 1 - ((if j = 0 then 0 else f (j - 1)) + 1),
                  (if j = 0 then 0 else f (j - 1)) + 1)
              else best) by simp [flmInner, hlo, hhi]]
      exact flmInner_append js₁ js₂ _ _ hjs'

theorem flmInner_writes {blo bhi i : Nat} {f : Nat → Nat} :
    ∀ (js : List Nat) (new : Nat → Nat) (best : Nat × Nat × Nat) (j' : Nat),
      (flmInner blo bhi i f js new best).1 j' ≠ new j' → j' ∈ js
  | [], new, best, j', h => by
    rw [show flmInner blo bhi i f [] new best = (new, best) from rfl] at h
    exact absurd rfl h
  | j :: js, new, best, j', h => by
    by_cases hlo : j < blo
    · rw [show flmInner blo bhi i f (j :: js) new best
          = flmInner blo bhi i f js new best by simp [flmInner, hlo]] at h
      exact List.mem_cons_of_mem _ (flmInner_writes js new best j' h)
    · by_cases hhi : bhi ≤ j
      · rw [show flmInner blo bhi i f (j :: js) new best = (new, best) by
          simp [flmInner, hlo, hhi]] at h
        exact absurd rfl h
      · rw [show flmInner blo bhi i f (j :: js) new best
            = flmInner blo bhi i f js
                (jupd new j ((if j = 0 then 0 else f (j - 1)) + 1))
                (if best.2.2 < (if j = 0 then 0 else f (j - 1)) + 1 then
                  (i + 1 - ((if j = 0 then 0 else f (j - 1)) + 1),
                    j + 1 - ((if j = 0 then 0 else f (j - 1)) + 1),
                    (if j = 0 then 0 else f (j - 1)) + 1)
                else best) by simp [flmInner, hlo, hhi]] at h
        by_cases hjj : j' = j
        · exact hjj ▸ List.mem_cons_self _ _
        · apply List.mem_cons_of_mem
          apply flmInner_writes js _ _ j'
          intro hc
          apply h
          rw [hc]
          simp [jupd, hjj]

theorem flmInner_noupdate {bhi i : Nat} {f : Nat → Nat} {B : Nat} :
    ∀ (js : List Nat) (new : Nat → Nat),
      (∀ j ∈ js, (if j = 0 then 0 else f (j - 1)) + 1 ≤ B) →
      ∀ p q, (flmInner 0 bhi i f js new (p, q, B)).2 = (p, q, B)
  | [], new, _, p, q => by simp [flmInner]
  | j :: js, new, hk, p, q => by
    have hkj : (if j = 0 then 0 else f (j - 1)) + 1 ≤ B := hk j (List.mem_cons_self _ _)
    have hk' : ∀ j' ∈ js, (if j' = 0 then 0 else f (j' - 1)) + 1 ≤ B :=
      fun j' hj' => hk j' (List.mem_cons_of_mem _ hj')
    by_cases hhi : bhi ≤ j
    · rw [show flmInner 0 bhi i f (j :: js) new (p, q, B) = (new, (p, q, B)) by
        simp [flmInner, hhi]]
    · have hnup : ¬ (p, q, B).2.2 < (if j = 0 then 0 else f (j - 1)) + 1 := by
        show ¬ B < (if j = 0 then 0 else f (j - 1)) + 1
        omega
      rw [show flmInner 0 bhi i f (j :: js) new (p, q, B)
          = flmInner 0 bhi i f js
              (jupd new j ((if j = 0 then 0 else f (j - 1)) + 1)) (p, q, B) by
        simp only [flmInner]
        rw [if_neg (by omega), if_neg hhi, if_neg hnup]]
      exact flmInner_noupdate js _ hk' p q

theorem trailNP_le (a : List Tok) : ∀ r, trailNP a r ≤ r + 1
  | 0 => by
    simp only [trailNP]
    split <;> omega
  | r + 1 => by
    simp only [trailNP]
    have := trailNP_le a r
    split <;> omega

theorem trailNP_popular {a : List Tok} {r : Nat} (h : popular a (a.getD r 0)) :
    trailNP a r = 0 := by
  cases r with
  | zero =>
    simp only [trailNP]
    rw [if_pos h]
  | succ n =>
    simp only [trailNP]
    rw [if_pos h]

theorem trailNP_np {a : List Tok} {r : Nat} (h : ¬ popular a (a.getD r 0)) :
    trailNP a r = (if r = 0 then 0 else trailNP a (r - 1)) + 1 := by
  cases r with
  | zero =>
    simp only [trailNP]
    rw [if_neg h]
    simp
  | succ n =>
    simp only [trailNP]
    rw [if_neg h, if_neg (by omega : ¬ n + 1 = 0), Nat.add_sub_cancel]

theorem flmInner_val {blo bhi i : Nat} {f : Nat → Nat} :
    ∀ (js : List Nat) (new : Nat → Nat) (best : Nat × Nat × Nat) (j' : Nat),
      (flmInner blo bhi i f js new best).1 j' = new j'
        ∨ ((flmInner blo bhi i f js new best).1 j'
              = (if j' = 0 then 0 else f (j' - 1)) + 1 ∧ j' ∈ js)
  | [], new, best, j' => by
    rw [show flmInner blo bhi i f [] new best = (new, best) from rfl]
    exact Or.inl rfl
  | j :: js, new, best, j' => by
    by_cases hlo : j < blo
    · rw [show flmInner blo bhi i f (j :: js) new best
          = flmInner blo bhi i f js new best by simp [flmInner, hlo]]
      rcases flmInner_val js new best j' with h | h
      · exact Or.inl h
      · exact Or.inr ⟨h.1, List.mem_cons_of_mem _ h.2⟩
    · by_cases hhi : bhi ≤ j
      · rw [show flmInner blo bhi i f (j :: js) new best = (new, best) by
          simp [flmInner, hlo, hhi]]
        exact Or.inl rfl
      · rw [show flmInner blo bhi i f (j :: js) new best
            = flmInner blo bhi i f js
                (jupd new j ((if j = 0 then 0 else f (j - 1)) + 1))
                (if best.2.2 < (if j = 0 then 0 else f (j - 1)) + 1 then
                  (i + 1 - ((if j = 0 then 0 else f (j - 1)) + 1),
                    j + 1 - ((if j = 0 then 0 else f (j - 1)) + 1),
                    (if j = 0 then 0 else f (j - 1)) + 1)
                else best) by simp [flmInner, hlo, hhi]]
        rcases flmInner_val js
            (jupd new j ((if j = 0 then 0 else f (j - 1)) + 1))
            (if best.2.2 < (if j = 0 then 0 else f (j - 1)) + 1 then
              (i + 1 - ((if j = 0 then 0 else f (j - 1)) + 1),
                j + 1 - ((if j = 0 then 0 else f (j - 1)) + 1),
                (if j = 0 then 0 else f (j - 1)) + 1)
            else best) j' with h | h
        · rw [h]
          by_cases hjj : j' = j
          · refine Or.inr ⟨?_, ?_⟩
            · rw [hjj]
              simp [jupd]
            · rw [hjj]
              exact List.mem_cons_self _ _
          · exact Or.inl (by simp [jupd, hjj])
        · exact Or.inr ⟨h.1, List.mem_cons_of_mem _ h.2⟩

theorem flmInner_val_mem {blo bhi i : Nat} {f : Nat → Nat} :
    ∀ (js : List Nat) (new : Nat → Nat) (best : Nat × Nat × Nat) (j' : Nat),
      js.Nodup → j' ∈ js → ¬ j' < blo → (∀ x ∈ js, x < bhi) →
      (flmInner blo bhi i f js new best).1 j'
        = (if j' = 0 then 0 else f (j' - 1)) + 1
  | [], _, _, j', _, hmem, _, _ => absurd hmem (List.not_mem_nil j')
  | j :: js, new, best, j', hnd, hmem, hblo, hbhi => by
    have hjbhi : j < bhi := hbhi j (List.mem_cons_self _ _)
    by_cases hjj : j' = j
    · have hjblo : ¬ j < blo := by
        rw [← hjj]
        exact hblo
      have hjhi : ¬ bhi ≤ j := by omega
      rw [show flmInner blo bhi i f (j :: js) new best
          = flmInner blo bhi i f js
              (jupd new j ((if j = 0 then 0 else f (j - 1)) + 1))
              (if best.2.2 < (if j = 0 then 0 else f (j - 1)) + 1 then
                (i + 1 - ((if j = 0 then 0 else f (j - 1)) + 1),
                  j + 1 - ((if j = 0 then 0 else f (j - 1)) + 1),
                  (if j = 0 then 0 else f (j - 1)) + 1)
              else best) by simp [flmInner, hjblo, hjhi]]
      rcases flmInner_val js
          (jupd new j ((if j = 0 then 0 else f (j - 1)) + 1))
          (if best.2.2 < (if j = 0 then 0 else f (j - 1)) + 1 then
            (i + 1 - ((if j = 0 then 0 else f (j - 1)) + 1),
              j + 1 - ((if j = 0 then 0 else f (j - 1)) + 1),
              (if j = 0 then 0 else f (j - 1)) + 1)
          else best) j' with h | h
      · rw [h, hjj]
        simp [jupd]
      · have h2 := h.2
        rw [hjj] at h2
        exact absurd h2 (List.nodup_cons.mp hnd).1
    · have hmem' : j' ∈ js := by
        rcases List.mem_cons.mp hmem with h | h
        · exact absurd h hjj
        · exact h
      have hnd' := (List.nodup_cons.mp hnd).2
      have hbhi' : ∀ x ∈ js, x < bhi := fun x hx => hbhi x (List.mem_cons_of_mem _ hx)
      by_cases hlo : j < blo
      · rw [show flmInner blo bhi i f (j :: js) new best
            = flmInner blo bhi i f js new best by simp [flmInner, hlo]]
        exact flmInner_val_mem js new best j' hnd' hmem' hblo hbhi'
      · have hjhi : ¬ bhi ≤ j := by omega
        rw [show flmInner blo bhi i f (j :: js) new best
            = flmInner blo bhi i f js
                (jupd new j ((if j = 0 then 0 else f (j - 1)) + 1))
                (if best.2.2 < (if j = 0 then 0 else f (j - 1)) + 1 then
                  (i + 1 - ((if j = 0 then 0 else f (j - 1)) + 1),
                    j + 1 - ((if j = 0 then 0 else f (j - 1)) + 1),
                    (if j = 0 then 0 else f (j - 1)) + 1)
                else best) by simp [flmInner, hlo, hjhi]]
        exact flmInner_val_mem js _ _ j' hnd' hmem' hblo hbhi'

theorem flmRows_diag (a : List Tok) :
    ∀ (nrows i bi B : Nat) (f : Nat → Nat),
      i + nrows = a.length →
      (∀ j, f j ≤ trailNP a j) →
      (∀ j, f j ≤ (if i = 0 then 0 else trailNP a (i - 1))) →
      (1 ≤ i → f (i - 1) = trailNP a (i - 1)) →
      (∀ r, r < i → trailNP a r ≤ B) →
      bi + B ≤ i →
      ∃ bi' B', flmRows a a 0 a.length (List.range' i nrows) f (bi, bi, B)
          = (bi', bi', B') ∧ bi' + B' ≤ a.length
  | 0, i, bi, B, f, hn, _, _, _, _, hbd => by
    rw [show List.range' i 0 = [] from rfl]
    rw [show flmRows a a 0 a.length [] f (bi, bi, B) = (bi, bi, B) from rfl]
    exact ⟨bi, B, rfl, by omega⟩
  | nrows + 1, i, bi, B, f, hn, h1, h3, h4, h5, hbd => by
    have hi : i < a.length := by omega
    rw [List.range'_succ]
    rw [show flmRows a a 0 a.length (i :: List.range' (i + 1) nrows) f (bi, bi, B)
        = flmRows a a 0 a.length (List.range' (i + 1) nrows)
            (flmInner 0 a.length i f (b2j a (a.getD i 0)) (fun _ => 0) (bi, bi, B)).1
            (flmInner 0 a.length i f (b2j a (a.getD i 0)) (fun _ => 0) (bi, bi, B)).2 by
      simp [flmRows]]
    by_cases hP : popular a (a.getD i 0)
    · -- a popular row: its position list is purged, so the row is a no-op
      rw [b2j_popular hP]
      rw [show flmInner 0 a.length i f [] (fun _ => 0) (bi, bi, B)
          = ((fun _ => (0 : Nat)), (bi, bi, B)) from rfl]
      exact flmRows_diag a nrows (i + 1) bi B (fun _ => 0) (by omega)
        (fun j => Nat.zero_le _) (fun j => Nat.zero_le _)
        (fun _ => by
          show (0 : Nat) = trailNP a (i + 1 - 1)
          rw [Nat.add_sub_cancel]
          exact (trailNP_popular hP).symm)
        (fun r hr => by
          by_cases hri : r < i
          · exact h5 r hri
          · rw [show r = i from by omega, trailNP_popular hP]
            exact Nat.zero_le _)
        (by omega)
    · -- a non-popular row: stage the inner loop over the split of its
      -- position list around the diagonal, tracking the trailing-run gauge
      obtain ⟨l₁, l₂, hsplit, hl₁, hl₂⟩ := b2j_split a i hi hP
      have hjsmem : ∀ j ∈ b2j a (a.getD i 0), j < a.length ∧ a.getD j 0 = a.getD i 0 :=
        fun j hj => ⟨(mem_b2j.mp hj).2.1, (mem_b2j.mp hj).2.2⟩
      have hTi : trailNP a i = (if i = 0 then 0 else trailNP a (i - 1)) + 1 :=
        trailNP_np hP
      have hkval : ∀ j ∈ b2j a (a.getD i 0),
          (if j = 0 then 0 else f (j - 1)) + 1 ≤ trailNP a j ∧
            (if j = 0 then 0 else f (j - 1)) + 1 ≤ trailNP a i := by
        intro j hj
        have hjnp : ¬ popular a (a.getD j 0) := by
          rw [(hjsmem j hj).2]
          exact hP
        have hTj : trailNP a j = (if j = 0 then 0 else trailNP a (j - 1)) + 1 :=
          trailNP_np hjnp
        by_cases h0 : j = 0
        · rw [if_pos h0, hTj, if_pos h0, hTi]
          omega
        · rw [if_neg h0, hTj, if_neg h0, hTi]
          have hH1 := h1 (j - 1)
          have hH3 := h3 (j - 1)
          omega
      have hkdiag : (if i = 0 then 0 else f (i - 1)) + 1 = trailNP a i := by
        rw [hTi]
        by_cases h0 : i = 0
        · rw [if_pos h0, if_pos h0]
        · rw [if_neg h0, if_neg h0, h4 (by omega)]
      have hiMem : i ∈ b2j a (a.getD i 0) := mem_b2j.mpr ⟨hP, hi, rfl⟩
      have hl₁mem : ∀ j ∈ l₁, j ∈ b2j a (a.getD i 0) := by
        intro j hj
        rw [hsplit]
        exact List.mem_append.mpr (Or.inl hj)
      have hl₂mem : ∀ j ∈ l₂, j ∈ b2j a (a.getD i 0) := by
        intro j hj
        rw [hsplit]
        exact List.mem_append.mpr (Or.inr (List.mem_cons_of_mem _ hj))
      -- positions left of the diagonal never update the best: their run
      -- length is at most the trailing run of an earlier diagonal entry,
      -- which the best size already dominates
      have h1best := @flmInner_noupdate a.length i f B l₁ (fun _ => 0)
        (fun j hj => le_trans ((hkval j (hl₁mem j hj)).1) (h5 j (hl₁ j hj)))
        bi bi
      have hg := @flmInner_append 0 a.length i f l₁ (i :: l₂) (fun _ => 0) (bi, bi, B)
        (fun j hj => by
          have := hl₁ j hj
          omega)
      have hstep : flmInner 0 a.length i f (i :: l₂)
          (flmInner 0 a.length i f l₁ (fun _ => 0) (bi, bi, B)).1 (bi, bi, B)
          = flmInner 0 a.length i f l₂
              (jupd (flmInner 0 a.length i f l₁ (fun _ => 0) (bi, bi, B)).1 i
                (trailNP a i))
              (if B < trailNP a i then
                (i + 1 - trailNP a i, i + 1 - trailNP a i, trailNP a i)
              else (bi, bi, B)) := by
        rw [show flmInner 0 a.length i f (i :: l₂)
              (flmInner 0 a.length i f l₁ (fun _ => 0) (bi, bi, B)).1 (bi, bi, B)
            = flmInner 0 a.length i f l₂
                (jupd (flmInner 0 a.length i f l₁ (fun _ => 0) (bi, bi, B)).1 i
                  ((if i = 0 then 0 else f (i - 1)) + 1))
                (if (bi, bi, B).2.2 < (if i = 0 then 0 else f (i - 1)) + 1 then
                  (i + 1 - ((if i = 0 then 0 else f (i - 1)) + 1),
                    i + 1 - ((if i = 0 then 0 else f (i - 1)) + 1),
                    (if i = 0 then 0 else f (i - 1)) + 1)
                else (bi, bi, B)) by
          simp only [flmInner]
          rw [if_neg (by omega : ¬ i < 0), if_neg (by omega : ¬ a.length ≤ i)]]
        rw [hkdiag]
      obtain ⟨bi₂, B₂, hbest₂, hTiB₂, hBB₂, hbd₂⟩ :
          ∃ bi₂ B₂,
            (if B < trailNP a i then
              (i + 1 - trailNP a i, i + 1 - trailNP a i, trailNP a i)
            else ((bi, bi, B) : Nat × Nat × Nat)) = (bi₂, bi₂, B₂) ∧
              trailNP a i ≤ B₂ ∧ B ≤ B₂ ∧ bi₂ + B₂ ≤ i + 1 := by
        by_cases hBT : B < trailNP a i
        · refine ⟨i + 1 - trailNP a i, trailNP a i, by rw [if_pos hBT], le_refl _,
            by omega, ?_⟩
          have := trailNP_le a i
          omega
        · exact ⟨bi, B, by rw [if_neg hBT], by omega, le_refl _, by omega⟩
      have h2best := @flmInner_noupdate a.length i f B₂ l₂
        (jupd (flmInner 0 a.length i f l₁ (fun _ => 0) (bi, bi, B)).1 i (trailNP a i))
        (fun j hj => le_trans ((hkval j (hl₂mem j hj)).2) hTiB₂)
        bi₂ bi₂
      have hfull : flmInner 0 a.length i f (b2j a (a.getD i 0)) (fun _ => 0) (bi, bi, B)
          = flmInner 0 a.length i f l₂
              (jupd (flmInner 0 a.length i f l₁ (fun _ => 0) (bi, bi, B)).1 i
                (trailNP a i))
              (bi₂, bi₂, B₂) := by
        rw [hsplit, hg, h1best, hstep, hbest₂]
      have hbestF : (flmInner 0 a.length i f (b2j a (a.getD i 0)) (fun _ => 0)
          (bi, bi, B)).2 = (bi₂, bi₂, B₂) := by
        rw [hfull, h2best]
      have hgval : ∀ j,
          (flmInner 0 a.length i f (b2j a (a.getD i 0)) (fun _ => 0) (bi, bi, B)).1 j = 0
          ∨ ((flmInner 0 a.length i f (b2j a (a.getD i 0)) (fun _ => 0) (bi, bi, B)).1 j
              = (if j = 0 then 0 else f (j - 1)) + 1 ∧ j ∈ b2j a (a.getD i 0)) :=
        fun j => flmInner_val (b2j a (a.getD i 0)) (fun _ => 0) (bi, bi, B) j
      have hgdiag : (flmInner 0 a.length i f (b2j a (a.getD i 0)) (fun _ => 0)
          (bi, bi, B)).1 i = trailNP a i := by
        rw [flmInner_val_mem (b2j a (a.getD i 0)) (fun _ => 0) (bi, bi, B) i
          (b2j_nodup a (a.getD i 0)) hiMem (by omega) (fun x hx => (hjsmem x hx).1)]
        exact hkdiag
      rw [hbestF]
      exact flmRows_diag a nrows (i + 1) bi₂ B₂
        (flmInner 0 a.length i f (b2j a (a.getD i 0)) (fun _ => 0) (bi, bi, B)).1
        (by omega)
        (fun j => by
          rcases hgval j with h | h
          · rw [h]
            exact Nat.zero_le _
          · rw [h.1]
            exact (hkval j h.2).1)
        (fun j => by
          rw [if_neg (by omega : ¬ i + 1 = 0), Nat.add_sub_cancel]
          rcases hgval j with h | h
          · rw [h]
            exact Nat.zero_le _
          · rw [h.1]
            exact (hkval j h.2).2)
        (fun _ => by
          rw [Nat.add_sub_cancel]
          exact hgdiag)
        (fun r hr => by
          by_cases hri : r < i
          · exact le_trans (h5 r hri) hBB₂
          · rw [show r = i from by omega]
            exact hTiB₂)
        hbd₂

theorem flmExtBack_diag (a : List Tok) :
    ∀ (fuel d k : Nat), fuel = d →
      flmExtBack a a 0 0 fuel (d, d, k) = (0, 0, d + k)
  | 0, d, k, h => by
    rw [show flmExtBack a a 0 0 0 (d, d, k) = (d, d, k) from rfl]
    rw [show d = 0 from by omega]
    rw [Nat.zero_add]
  | fuel + 1, d, k, h => by
    rw [show flmExtBack a a 0 0 (fuel + 1) (d, d, k)
        = flmExtBack a a 0 0 fuel (d - 1, d - 1, k + 1) by
      simp only [flmExtBack]
      rw [if_pos ⟨by omega, by omega, trivial⟩]]
    rw [flmExtBack_diag a fuel (d - 1) (k + 1) (by omega)]
    rw [show d - 1 + (k + 1) = d + k from by omega]

theorem flmExtFwd_diag (a : List Tok) :
    ∀ (fuel K : Nat), fuel = a.length - K → K ≤ a.length →
      flmExtFwd a a a.length a.length fuel (0, 0, K) = (0, 0, a.length)
  | 0, K, h, hK => by
    rw [show flmExtFwd a a a.length a.length 0 (0, 0, K) = (0, 0, K) from rfl]
    rw [show K = a.length from by omega]
  | fuel + 1, K, h, hK => by
    have hKlt : K < a.length := by omega
    rw [show flmExtFwd a a a.length a.length (fuel + 1) (0, 0, K)
        = flmExtFwd a a a.length a.length fuel (0, 0, K + 1) by
      simp only [flmExtFwd]
      rw [if_pos ⟨by omega, by omega, trivial⟩]]
    exact flmExtFwd_diag a fuel (K + 1) (by omega) (by omega)

theorem findLongestMatch_diag (a : List Tok) :
    findLongestMatch a a 0 a.length 0 a.length = (0, 0, a.length) := by
  obtain ⟨d, B, hrows, hdB⟩ :=
    flmRows_diag a a.length 0 0 0 (fun _ => 0) (by omega)
      (fun j => Nat.zero_le _) (fun j => Nat.zero_le _)
      (fun hcon => absurd hcon (by omega))
      (fun r hr => absurd hr (by omega)) (by omega)
  unfold findLongestMatch
  rw [Nat.sub_zero]
  rw [hrows]
  show flmExtFwd a a a.length a.length
      (a.length - ((flmExtBack a a 0 0 (d, d, B).1 (d, d, B)).1 +
        (flmExtBack a a 0 0 (d, d, B).1 (d, d, B)).2.2))
      (flmExtBack a a 0 0 (d, d, B).1 (d, d, B)) = (0, 0, a.length)
  rw [show ((d, d, B) : Nat × Nat × Nat).1 = d from rfl]
  rw [flmExtBack_diag a d d B rfl]
  rw [show ((0, 0, d + B) : Nat × Nat × Nat).1 = 0 from rfl,
    show ((0, 0, d + B) : Nat × Nat × Nat).2.2 = d + B from rfl]
  rw [Nat.zero_add]
  exact flmExtFwd_diag a (a.length - (d + B)) (d + B) rfl hdB

theorem matchingBlocksRec_diag (a : List Tok) (fuel : Nat) (h : a.length ≠ 0) :
    matchingBlocksRec a a (fuel + 1) 0 a.length 0 a.length = [(0, 0, a.length)] := by
  have hunf : matchingBlocksRec a a (fuel + 1) 0 a.length 0 a.length
      = (if (findLongestMatch a a 0 a.length 0 a.length).2.2 = 0 then []
         else
          (if 0 < (findLongestMatch a a 0 a.length 0 a.length).1 ∧
              0 < (findLongestMatch a a 0 a.length 0 a.length).2.1 then
            matchingBlocksRec a a fuel 0 (findLongestMatch a a 0 a.length 0 a.length).1 0
              (findLongestMatch a a 0 a.length 0 a.length).2.1
           else []) ++
            ((findLongestMatch a a 0 a.length 0 a.length).1,
              (findLongestMatch a a 0 a.length 0 a.length).2.1,
              (findLongestMatch a a 0 a.length 0 a.length).2.2) ::
              (if (findLongestMatch a a 0 a.length 0 a.length).1 +
                    (findLongestMatch a a 0 a.length 0 a.length).2.2 < a.length ∧
                  (findLongestMatch a a 0 a.length 0 a.length).2.1 +
                    (findLongestMatch a a 0 a.length 0 a.length).2.2 < a.length then
                matchingBlocksRec a a fuel
                  ((findLongestMatch a a 0 a.length 0 a.length).1 +
                    (findLongestMatch a a 0 a.length 0 a.length).2.2) a.length
                  ((findLongestMatch a a 0 a.length 0 a.length).2.1 +
                    (findLongestMatch a a 0 a.length 0 a.length).2.2) a.length
               else [])) := by
    simp only [matchingBlocksRec]
  rw [hunf]
  rw [findLongestMatch_diag]
  rw [if_neg (by show ¬ (0, 0, a.length).2.2 = 0; show ¬ a.length = 0; exact h)]
  rw [if_neg (by show ¬ (0 < (0, 0, a.length).1 ∧ 0 < (0, 0, a.length).2.1); simp)]
  rw [if_neg (by
    show ¬ ((0, 0, a.length).1 + (0, 0, a.length).2.2 < a.length ∧
      (0, 0, a.length).2.1 + (0, 0, a.length).2.2 < a.length)
    show ¬ (0 + a.length < a.length ∧ 0 + a.length < a.length)
    omega)]
  rfl

theorem getMatchingBlocks_diag (a : List Tok) (h : a.length ≠ 0) :
    getMatchingBlocks a a = [(0, 0, a.length), (a.length, a.length, 0)] := by
  unfold getMatchingBlocks
  rw [show a.length + a.length = (a.length + a.length - 1) + 1 from by omega]
  rw [matchingBlocksRec_diag a (a.length + a.length - 1) h]
  rw [show mergeAdjacent (0, 0, 0) [(0, 0, a.length)] = [(0, 0, a.length)] by
    rw [show mergeAdjacent (0, 0, 0) [(0, 0, a.length)]
        = mergeAdjacent (0, 0, 0 + a.length) [] by
      simp [mergeAdjacent]]
    rw [show (0 : Nat) + a.length = a.length from by omega]
    simp [mergeAdjacent, h]]
  rfl

theorem getOpcodes_diag (a : List Tok) (h : a.length ≠ 0) :
    getOpcodes a a = [⟨DiffTag.equal, 0, a.length, 0, a.length⟩] := by
  unfold getOpcodes
  rw [getMatchingBlocks_diag a h]
  rw [show getOpcodesGo 0 0 [(0, 0, a.length), (a.length, a.length, 0)]
      = (if 0 < 0 ∧ 0 < 0 then [⟨DiffTag.replace, 0, 0, 0, 0⟩]
         else if 0 < 0 then [⟨DiffTag.delete, 0, 0, 0, 0⟩]
         else if 0 < 0 then [⟨DiffTag.insert, 0, 0, 0, 0⟩]
         else []) ++
          (if a.length ≠ 0 then [⟨DiffTag.equal, 0, 0 + a.length, 0, 0 + a.length⟩]
           else []) ++
            getOpcodesGo (0 + a.length) (0 + a.length) [(a.length, a.length, 0)]
      from rfl]
  rw [if_neg (by omega), if_neg (by omega), if_neg (by omega), if_pos h]
  rw [show getOpcodesGo (0 + a.length) (0 + a.length) [(a.length, a.length, 0)]
      = getOpcodesGo (0 + a.length) (0 + a.length) [(0 + a.length, 0 + a.length, 0)] by
    rw [show (0 : Nat) + a.length = a.length from by omega]]
  rw [show getOpcodesGo (0 + a.length) (0 + a.length) [(0 + a.length, 0 + a.length, 0)]
      = ([] : List Opcode) ++ ([] : List Opcode) ++ getOpcodesGo (0 + a.length + 0)
          (0 + a.length + 0) [] by
    rw [show getOpcodesGo (0 + a.length) (0 + a.length) [(0 + a.length, 0 + a.length, 0)]
        = (if 0 + a.length < 0 + a.length ∧ 0 + a.length < 0 + a.length then
            [⟨DiffTag.replace, 0 + a.length, 0 + a.length, 0 + a.length, 0 + a.length⟩]
           else if 0 + a.length < 0 + a.length then
            [⟨DiffTag.delete, 0 + a.length, 0 + a.length, 0 + a.length, 0 + a.length⟩]
           else if 0 + a.length < 0 + a.length then
            [⟨DiffTag.insert, 0 + a.length, 0 + a.length, 0 + a.length, 0 + a.length⟩]
           else []) ++
            (if (0 : Nat) ≠ 0 then
              [⟨DiffTag.equal, 0 + a.length, 0 + a.length + 0, 0 + a.length,
                0 + a.length + 0⟩]
             else []) ++
              getOpcodesGo (0 + a.length + 0) (0 + a.length + 0) [] from rfl]
    rw [if_neg (by omega), if_neg (by omega), if_neg (by omega), if_neg (by omega)]]
  rw [show getOpcodesGo (0 + a.length + 0) (0 + a.length + 0) [] = [] from rfl]
  rw [show (0 : Nat) + a.length = a.length from by omega]
  rfl

theorem direGet_diag (a : List Tok) (av : List Nat) (h : a.length ≠ 0)
    (hav : av.length = a.length) :
    direGet a a av av = [⟨DiffTag.equal, av.sum, av.sum⟩] := by
  unfold direGet
  rw [getOpcodes_diag a h]
  rw [show ([⟨DiffTag.equal, 0, a.length, 0, a.length⟩] : List Opcode).map
      (fun op => (⟨op.tag, sliceSum av op.i1 op.i2, sliceSum av op.j1 op.j2⟩ : DiffItem))
      = [⟨DiffTag.equal, sliceSum av 0 a.length, sliceSum av 0 a.length⟩] from rfl]
  rw [show sliceSum av 0 a.length = av.sum by
    rw [← hav]
    unfold sliceSum
    rw [List.take_length, List.drop_zero]]

/-! ## Lemmas: the ratio of `Differ._compare` -/

theorem slice_eq_of_get?_eq {a b : List Tok} {i1 j1 k : Nat}
    (hia : i1 + k ≤ a.length) (hjb : j1 + k ≤ b.length)
    (h : ∀ t, t < k → a.get? (i1 + t) = b.get? (j1 + t)) :
    (a.take (i1 + k)).drop i1 = (b.take (j1 + k)).drop j1 := by
  apply List.ext
  intro n
  rw [List.get?_drop, List.get?_drop]
  by_cases hn : n < k
  · rw [List.get?_take (by omega), List.get?_take (by omega)]
    exact h n hn
  · have e1 : (a.take (i1 + k)).get? (i1 + n) = none := by
      rw [List.get?_eq_none, List.length_take]
      have : a.length = a.length := rfl
      omega
    have e2 : (b.take (j1 + k)).get? (j1 + n) = none := by
      rw [List.get?_eq_none, List.length_take]
      omega
    rw [e1, e2]

theorem sliceSum_map_take_drop (f : Tok → Nat) (a : List Tok) (i j : Nat) :
    sliceSum (a.map f) i j = (((a.take j).drop i).map f).sum := by
  unfold sliceSum
  rw [← List.map_take, ← List.map_drop]

theorem equal_op_sizes {a b : List Tok} (f : Tok → Nat) (op : Opcode)
    (hwf : OpWf a b op) (heq : op.tag = DiffTag.equal) :
    sliceSum (a.map f) op.i1 op.i2 = sliceSum (b.map f) op.j1 op.j2 := by
  obtain ⟨h1, h2, h3, h4, _, _, _, h8⟩ := hwf
  obtain ⟨hk, hrun⟩ := h8 heq
  have e1 : op.i2 = op.i1 + (op.i2 - op.i1) := by omega
  have e2 : op.j2 = op.j1 + (op.i2 - op.i1) := by omega
  rw [sliceSum_map_take_drop, sliceSum_map_take_drop, e1, e2]
  rw [slice_eq_of_get?_eq (by omega) (by omega) hrun]

theorem sum_filter_le {α : Type} (g : α → Nat) (p : α → Bool) :
    ∀ l : List α, ((l.filter p).map g).sum ≤ (l.map g).sum
  | [] => le_refl 0
  | x :: l => by
    rw [List.filter_cons]
    by_cases hp : p x
    · rw [if_pos hp]
      rw [List.map_cons, List.map_cons, List.sum_cons, List.sum_cons]
      have := sum_filter_le g p l
      omega
    · rw [if_neg hp]
      rw [List.map_cons, List.sum_cons]
      have := sum_filter_le g p l
      omega

theorem direMatches_eq_filterA (a b : List Tok) (av bv : List Nat) :
    direMatches (direGet a b av bv)
      = (((getOpcodes a b).filter fun op => op.tag = DiffTag.equal).map
          fun op => sliceSum av op.i1 op.i2).sum := by
  unfold direMatches direGet
  rw [List.filter_map]
  rw [List.map_map]
  congr 1
  apply List.map_congr_left
  intro op hop
  have htag : op.tag = DiffTag.equal := by
    have := List.mem_filter.mp hop
    simpa using this.2
  show DiffItem.value ⟨op.tag, sliceSum av op.i1 op.i2, sliceSum bv op.j1 op.j2⟩
      = sliceSum av op.i1 op.i2
  rw [htag]
  rfl

theorem direMatches_eq_filterB (a b : List Tok) (f : Tok → Nat) :
    direMatches (direGet a b (a.map f) (b.map f))
      = (((getOpcodes a b).filter fun op => op.tag = DiffTag.equal).map
          fun op => sliceSum (b.map f) op.j1 op.j2).sum := by
  rw [direMatches_eq_filterA]
  congr 1
  apply List.map_congr_left
  intro op hop
  have hmem : op ∈ getOpcodes a b := (List.mem_filter.mp hop).1
  have htag : op.tag = DiffTag.equal := by simpa using (List.mem_filter.mp hop).2
  exact equal_op_sizes f op (getOpcodes_wf op hmem) htag

theorem twice_matches_le (a b : List Tok) (f : Tok → Nat) :
    2 * direMatches (direGet a b (a.map f) (b.map f))
      ≤ (a.map f).sum + (b.map f).sum := by
  have hA : direMatches (direGet a b (a.map f) (b.map f))
      ≤ (a.map f).sum := by
    rw [direMatches_eq_filterA]
    have h1 := sum_filter_le (fun op => sliceSum (a.map f) op.i1 op.i2)
      (fun op => decide (op.tag = DiffTag.equal)) (getOpcodes a b)
    have h2 := getOpcodes_sliceSumA (a := a) (b := b) (a.map f)
      (by rw [List.length_map])
    omega
  have hB : direMatches (direGet a b (a.map f) (b.map f))
      ≤ (b.map f).sum := by
    rw [direMatches_eq_filterB]
    have h1 := sum_filter_le (fun op => sliceSum (b.map f) op.j1 op.j2)
      (fun op => decide (op.tag = DiffTag.equal)) (getOpcodes a b)
    have h2 := getOpcodes_sliceSumB (a := a) (b := b) (b.map f)
      (by rw [List.length_map])
    omega
  omega

theorem chain_all_equal {a b : List Tok} :
    ∀ (blocks : List (Nat × Nat × Nat)) (i j : Nat),
      Chain i j blocks → BlocksSound a b blocks →
      (∀ op ∈ getOpcodesGo i j blocks, op.tag = DiffTag.equal) →
      i = j →
      (∀ x, i ≤ x → x < (chainEnd (i, j) blocks).1 → a.get? x = b.get? x) ∧
        (chainEnd (i, j) blocks).1 = (chainEnd (i, j) blocks).2
  | [], i, j, _, _, _, hij => by
    constructor
    · intro x hx1 hx2
      have hx2' : x < i := hx2
      omega
    · show i = j
      exact hij
  | (ai, bj, k) :: rest, i, j, hch, hsd, hops, hij => by
    have hia : i ≤ ai := hch.1
    have hjb : j ≤ bj := hch.2.1
    have hch' : Chain (ai + k) (bj + k) rest := hch.2.2
    have hrun : ∀ t, t < k → a.get? (ai + t) = b.get? (bj + t) :=
      fun t ht => hsd (ai, bj, k) (List.mem_cons_self _ _) t ht
    have hsd' : BlocksSound a b rest := fun blk hblk => hsd blk (List.mem_cons_of_mem _ hblk)
    have hopsunf : getOpcodesGo i j ((ai, bj, k) :: rest)
        = (if i < ai ∧ j < bj then [⟨DiffTag.replace, i, ai, j, bj⟩]
           else if i < ai then [⟨DiffTag.delete, i, ai, j, bj⟩]
           else if j < bj then [⟨DiffTag.insert, i, ai, j, bj⟩]
           else []) ++
            (if k ≠ 0 then [⟨DiffTag.equal, ai, ai + k, bj, bj + k⟩] else []) ++
              getOpcodesGo (ai + k) (bj + k) rest := rfl
    -- no gap op can be present, so the block starts exactly at the current position
    have hai : i = ai := by
      by_contra hne
      have hlt : i < ai := by omega
      by_cases hc : j < bj
      · have hmem : (⟨DiffTag.replace, i, ai, j, bj⟩ : Opcode)
            ∈ getOpcodesGo i j ((ai, bj, k) :: rest) := by
          rw [hopsunf, if_pos ⟨hlt, hc⟩]
          simp
        have := hops _ hmem
        simp at this
      · have hmem : (⟨DiffTag.delete, i, ai, j, bj⟩ : Opcode)
            ∈ getOpcodesGo i j ((ai, bj, k) :: rest) := by
          rw [hopsunf, if_neg (by omega), if_pos hlt]
          simp
        have := hops _ hmem
        simp at this
    have hbj' : j = bj := by
      by_contra hne
      have hlt : j < bj := by omega
      have hmem : (⟨DiffTag.insert, i, ai, j, bj⟩ : Opcode)
          ∈ getOpcodesGo i j ((ai, bj, k) :: rest) := by
        rw [hopsunf, if_neg (by omega), if_neg (by omega), if_pos hlt]
        simp
      have := hops _ hmem
      simp at this
    have hops' : ∀ op ∈ getOpcodesGo (ai + k) (bj + k) rest, op.tag = DiffTag.equal := by
      intro op hop
      apply hops
      rw [hopsunf]
      exact List.mem_append.mpr (Or.inr hop)
    have hrec := chain_all_equal rest (ai + k) (bj + k) hch' hsd' hops' (by omega)
    rw [show chainEnd (i, j) ((ai, bj, k) :: rest) = chainEnd (ai + k, bj + k) rest from rfl]
    constructor
    · intro x hx1 hx2
      by_cases hxk : x < ai + k
      · have e1 : x = ai + (x - ai) := by omega
        have hb : bj = ai := by omega
        rw [hb] at hrun
        rw [e1]
        exact hrun (x - ai) (by omega)
      · exact hrec.1 x (by omega) hx2
    · exact hrec.2

theorem lists_eq_of_all_equal {a b : List Tok}
    (hops : ∀ op ∈ getOpcodes a b, op.tag = DiffTag.equal) : a = b := by
  obtain ⟨hc, he, hs, _⟩ := getMatchingBlocks_props a b
  have h := chain_all_equal (getMatchingBlocks a b) 0 0 hc hs hops rfl
  rw [he] at h
  have hlen : a.length = b.length := h.2
  apply List.ext
  intro n
  by_cases hn : n < a.length
  · exact h.1 n (Nat.zero_le n) hn
  · rw [List.get?_eq_none.mpr (by omega), List.get?_eq_none.mpr (by omega)]

theorem sum_filter_not {α : Type} (g : α → Nat) (p : α → Bool) :
    ∀ l : List α,
      ((l.filter p).map g).sum + ((l.filter fun x => ! p x).map g).sum = (l.map g).sum
  | [] => rfl
  | x :: l => by
    rw [List.filter_cons, List.filter_cons]
    have ih := sum_filter_not g p l
    by_cases hp : p x
    · rw [if_pos hp, if_neg (by simp [hp])]
      rw [List.map_cons, List.map_cons, List.sum_cons, List.sum_cons]
      omega
    · rw [if_neg hp, if_pos (by simp [hp])]
      rw [List.map_cons, List.map_cons, List.sum_cons, List.sum_cons]
      omega

theorem sliceSum_pos {c : List Tok} (f : Tok → Nat) (hpos : ∀ x ∈ c, 0 < f x)
    {i1 i2 : Nat} (h1 : i1 < i2) (h2 : i2 ≤ c.length) :
    0 < sliceSum (c.map f) i1 i2 := by
  rw [sliceSum_map_take_drop]
  have hlen : 0 < ((c.take i2).drop i1).length := by
    rw [List.length_drop, List.length_take]
    omega
  obtain ⟨y, hy⟩ := List.exists_mem_of_length_pos hlen
  have hyc : y ∈ c := List.mem_of_mem_take (List.mem_of_mem_drop hy)
  by_contra hz
  have hz0 : (((c.take i2).drop i1).map f).sum = 0 := by omega
  have := List.sum_eq_zero_iff.mp hz0 (f y) (List.mem_map_of_mem f hy)
  have := hpos y hyc
  omega

theorem all_equal_of_twice_matches {a b : List Tok} {f : Tok → Nat}
    (hpos : ∀ x ∈ a ++ b, 0 < f x)
    (h : 2 * direMatches (direGet a b (a.map f) (b.map f))
      = (a.map f).sum + (b.map f).sum) :
    ∀ op ∈ getOpcodes a b, op.tag = DiffTag.equal := by
  intro op hop
  by_contra hne
  have hposA : ∀ x ∈ a, 0 < f x := fun x hx => hpos x (List.mem_append.mpr (Or.inl hx))
  have hposB : ∀ x ∈ b, 0 < f x := fun x hx => hpos x (List.mem_append.mpr (Or.inr hx))
  have hwf := getOpcodes_wf op hop
  obtain ⟨h1, h2, h3, h4, h5, h6, h7, _⟩ := hwf
  have hsplitA := sum_filter_not (fun op : Opcode => sliceSum (a.map f) op.i1 op.i2)
    (fun op => decide (op.tag = DiffTag.equal)) (getOpcodes a b)
  have hsplitB := sum_filter_not (fun op : Opcode => sliceSum (b.map f) op.j1 op.j2)
    (fun op => decide (op.tag = DiffTag.equal)) (getOpcodes a b)
  have htotA := getOpcodes_sliceSumA (a := a) (b := b) (a.map f) (by rw [List.length_map])
  have htotB := getOpcodes_sliceSumB (a := a) (b := b) (b.map f) (by rw [List.length_map])
  have hMA := direMatches_eq_filterA a b (a.map f) (b.map f)
  have hMB := direMatches_eq_filterB a b f
  -- the non-equal contribution is zero on both sides
  have hzeroA : ((((getOpcodes a b).filter fun op =>
      ! decide (op.tag = DiffTag.equal)).map
        fun op : Opcode => sliceSum (a.map f) op.i1 op.i2).sum)
      + ((((getOpcodes a b).filter fun op => ! decide (op.tag = DiffTag.equal)).map
        fun op : Opcode => sliceSum (b.map f) op.j1 op.j2).sum) = 0 := by
    omega
  have hmem : op ∈ (getOpcodes a b).filter fun op => ! decide (op.tag = DiffTag.equal) := by
    rw [List.mem_filter]
    exact ⟨hop, by simpa using hne⟩
  have hopA : sliceSum (a.map f) op.i1 op.i2 = 0 := by
    have := List.sum_eq_zero_iff.mp (by omega :
        ((((getOpcodes a b).filter fun op => ! decide (op.tag = DiffTag.equal)).map
          fun op : Opcode => sliceSum (a.map f) op.i1 op.i2).sum) = 0)
      (sliceSum (a.map f) op.i1 op.i2)
      (List.mem_map_of_mem _ hmem)
    exact this
  have hopB : sliceSum (b.map f) op.j1 op.j2 = 0 := by
    have := List.sum_eq_zero_iff.mp (by omega :
        ((((getOpcodes a b).filter fun op => ! decide (op.tag = DiffTag.equal)).map
          fun op : Opcode => sliceSum (b.map f) op.j1 op.j2).sum) = 0)
      (sliceSum (b.map f) op.j1 op.j2)
      (List.mem_map_of_mem _ hmem)
    exact this
  -- every non-equal opcode consumes at least one token on some side
  cases hop' : op.tag with
  | equal => exact hne hop'
  | insert =>
    obtain ⟨_, hj⟩ := h5 hop'
    have := sliceSum_pos f hposB hj h4
    omega
  | delete =>
    obtain ⟨_, hi⟩ := h6 hop'
    have := sliceSum_pos f hposA hi h3
    omega
  | replace =>
    obtain ⟨hi, _⟩ := h7 hop'
    have := sliceSum_pos f hposA hi h3
    omega

theorem twice_matches_eq_iff (a b : List Tok) (f : Tok → Nat)
    (hpos : ∀ x ∈ a ++ b, 0 < f x) :
    2 * direMatches (direGet a b (a.map f) (b.map f)) = (a.map f).sum + (b.map f).sum
      ↔ a = b := by
  constructor
  · intro h
    exact lists_eq_of_all_equal (all_equal_of_twice_matches hpos h)
  · intro h
    subst h
    by_cases hlen : a.length = 0
    · have ha : a = [] := List.length_eq_zero.mp hlen
      subst ha
      rfl
    · rw [show direGet a a (a.map f) (a.map f) = [⟨DiffTag.equal, (a.map f).sum, (a.map f).sum⟩]
          from direGet_diag a (a.map f) hlen (by rw [List.length_map])]
      show 2 * ([(⟨DiffTag.equal, (a.map f).sum, (a.map f).sum⟩ : DiffItem)].map
        DiffItem.value).sum = _
      show 2 * ((a.map f).sum + 0) = (a.map f).sum + (a.map f).sum
      omega

/-! ## Lemmas: the association-list dictionaries -/

theorem dictLookup_nil {κ ν : Type} [DecidableEq κ] (k : κ) :
    dictLookup ([] : List (κ × ν)) k = none := rfl

theorem dictLookup_cons_self {κ ν : Type} [DecidableEq κ] {p : κ × ν}
    {d : List (κ × ν)} {k : κ} (h : p.1 = k) :
    dictLookup (p :: d) k = some p.2 := by
  simp [dictLookup, List.find?_cons, h]

theorem dictLookup_cons_other {κ ν : Type} [DecidableEq κ] {p : κ × ν}
    {d : List (κ × ν)} {k : κ} (h : ¬ p.1 = k) :
    dictLookup (p :: d) k = dictLookup d k := by
  simp [dictLookup, List.find?_cons, h]

theorem dictAppend_cons_other {κ ν : Type} [DecidableEq κ] {p : κ × List ν}
    {k : κ} (h : ¬ p.1 = k) (d : List (κ × List ν)) (v : ν) :
    dictAppend (p :: d) k v = p :: dictAppend d k v := by
  by_cases hr : d.any fun q => q.1 = k
  · simp [dictAppend, List.any_cons, h, hr]
  · simp [dictAppend, List.any_cons, h, hr]

theorem dictLookup_append_same {κ ν : Type} [DecidableEq κ] :
    ∀ (d : List (κ × List ν)) (k : κ) (v : ν),
      dictLookup (dictAppend d k v) k = some (dictGetD d k ++ [v])
  | [], k, v => by
    simp [dictAppend, dictLookup, dictGetD, List.find?_cons]
  | p :: rest, k, v => by
    by_cases hp : p.1 = k
    · have h1 : dictAppend (p :: rest) k v
          = (p.1, p.2 ++ [v]) :: (rest.map fun q => if q.1 = k then (q.1, q.2 ++ [v]) else q) := by
        simp [dictAppend, List.any_cons, hp]
      rw [h1, dictLookup_cons_self (p := (p.1, p.2 ++ [v])) hp,
        dictGetD, dictLookup_cons_self hp]
    · rw [dictAppend_cons_other hp, dictLookup_cons_other hp,
        dictLookup_append_same rest k v]
      rw [show dictGetD (p :: rest) k = dictGetD rest k by
        rw [dictGetD, dictGetD, dictLookup_cons_other hp]]

theorem dictLookup_append_other {κ ν : Type} [DecidableEq κ] {k k' : κ} (h : ¬ k' = k) :
    ∀ (d : List (κ × List ν)) (v : ν),
      dictLookup (dictAppend d k v) k' = dictLookup d k'
  | [], v => by
    have h2 : ¬ ((k, [v]) : κ × List ν).1 = k' := fun hc => h hc.symm
    simp [dictAppend, dictLookup_cons_other h2, dictLookup_nil]
  | p :: rest, v => by
    by_cases hp : p.1 = k
    · have hp' : ¬ p.1 = k' := fun hc => h (hc.symm.trans hp)
      have h1 : dictAppend (p :: rest) k v
          = (p.1, p.2 ++ [v]) :: (rest.map fun q => if q.1 = k then (q.1, q.2 ++ [v]) else q) := by
        simp [dictAppend, List.any_cons, hp]
      rw [h1, dictLookup_cons_other (p := (p.1, p.2 ++ [v])) hp',
        dictLookup_cons_other hp']
      -- lookup at k' ignores updates of entries keyed k
      clear h1
      induction rest with
      | nil => rfl
      | cons q qs ih =>
        by_cases hq : q.1 = k
        · have hq' : ¬ q.1 = k' := fun hc => h (hc.symm.trans hq)
          simp only [List.map_cons, if_pos hq]
          rw [dictLookup_cons_other (p := (q.1, q.2 ++ [v])) hq',
            dictLookup_cons_other hq', ih]
        · simp only [List.map_cons, if_neg hq]
          by_cases hq' : q.1 = k'
          · rw [dictLookup_cons_self hq', dictLookup_cons_self hq']
          · rw [dictLookup_cons_other hq', dictLookup_cons_other hq', ih]
    · rw [dictAppend_cons_other hp]
      by_cases hp' : p.1 = k'
      · rw [dictLookup_cons_self hp', dictLookup_cons_self hp']
      · rw [dictLookup_cons_other hp', dictLookup_cons_other hp',
          dictLookup_append_other h rest v]

theorem mem_dictGetD {κ ν : Type} [DecidableEq κ] {d : List (κ × List ν)}
    {k : κ} {g : ν} :
    g ∈ dictGetD d k ↔ ∃ l, dictLookup d k = some l ∧ g ∈ l := by
  rw [dictGetD]
  cases h : dictLookup d k with
  | none => simp
  | some l => simp [h]

theorem dictGetD_append_same {κ ν : Type} [DecidableEq κ] (d : List (κ × List ν))
    (k : κ) (v : ν) :
    dictGetD (dictAppend d k v) k = dictGetD d k ++ [v] := by
  rw [dictGetD, dictLookup_append_same]

theorem dictGetD_append_other {κ ν : Type} [DecidableEq κ] {k k' : κ} (h : ¬ k' = k)
    (d : List (κ × List ν)) (v : ν) :
    dictGetD (dictAppend d k v) k' = dictGetD d k' := by
  rw [dictGetD, dictLookup_append_other h, dictGetD]

theorem dictLookup_insert_same {κ ν : Type} [DecidableEq κ] :
    ∀ (d : List (κ × ν)) (k : κ) (v : ν),
      dictLookup (dictInsert d k v) k = some v
  | [], k, v => by
    simp [dictInsert, dictLookup, List.find?_cons]
  | p :: rest, k, v => by
    by_cases hp : p.1 = k
    · have h1 : dictInsert (p :: rest) k v
          = (k, v) :: (rest.map fun q => if q.1 = k then (k, v) else q) := by
        simp [dictInsert, List.any_cons, hp]
      rw [h1, dictLookup_cons_self rfl]
    · have h1 : dictInsert (p :: rest) k v = p :: dictInsert rest k v := by
        by_cases hr : rest.any fun q => q.1 = k
        · simp [dictInsert, List.any_cons, hp, hr]
        · simp [dictInsert, List.any_cons, hp, hr]
      rw [h1, dictLookup_cons_other hp, dictLookup_insert_same rest k v]

theorem dictLookup_insert_other {κ ν : Type} [DecidableEq κ] {k k' : κ} (h : ¬ k' = k) :
    ∀ (d : List (κ × ν)) (v : ν),
      dictLookup (dictInsert d k v) k' = dictLookup d k'
  | [], v => by
    have h2 : ¬ ((k, v) : κ × ν).1 = k' := fun hc => h hc.symm
    simp [dictInsert, dictLookup_cons_other h2, dictLookup_nil]
  | p :: rest, v => by
    by_cases hp : p.1 = k
    · have hk' : ¬ (k : κ) = k' := fun hc => h hc.symm
      have h1 : dictInsert (p :: rest) k v
          = (k, v) :: (rest.map fun q => if q.1 = k then (k, v) else q) := by
        simp [dictInsert, List.any_cons, hp]
      have hp' : ¬ p.1 = k' := fun hc => h (hc.symm.trans hp)
      rw [h1, dictLookup_cons_other (p := ((k, v) : κ × ν)) hk',
        dictLookup_cons_other hp']
      clear h1
      induction rest with
      | nil => rfl
      | cons q qs ih =>
        by_cases hq : q.1 = k
        · have hq' : ¬ q.1 = k' := fun hc => h (hc.symm.trans hq)
          simp only [List.map_cons, if_pos hq]
          rw [dictLookup_cons_other (p := ((k, v) : κ × ν)) hk',
            dictLookup_cons_other hq', ih]
        · simp only [List.map_cons, if_neg hq]
          by_cases hq' : q.1 = k'
          · rw [dictLookup_cons_self hq', dictLookup_cons_self hq']
          · rw [dictLookup_cons_other hq', dictLookup_cons_other hq', ih]
    · have h1 : dictInsert (p :: rest) k v = p :: dictInsert rest k v := by
        by_cases hr : rest.any fun q => q.1 = k
        · simp [dictInsert, List.any_cons, hp, hr]
        · simp [dictInsert, List.any_cons, hp, hr]
      rw [h1]
      by_cases hp' : p.1 = k'
      · rw [dictLookup_cons_self hp', dictLookup_cons_self hp']
      · rw [dictLookup_cons_other hp', dictLookup_cons_other hp',
          dictLookup_insert_other h rest v]

/-! ## Lemmas: `chunk2file_id` and the candidate pairs of `find_dup_files` -/

theorem mem_foldl_dictAppend {fid : Nat} :
    ∀ (cs : List Tok) (acc : List (Tok × List Nat)) (c : Tok) (g : Nat),
      g ∈ dictGetD (cs.foldl (fun a c => dictAppend a c fid) acc) c ↔
        g ∈ dictGetD acc c ∨ (g = fid ∧ c ∈ cs)
  | [], acc, c, g => by simp
  | c0 :: rest, acc, c, g => by
    rw [List.foldl_cons, mem_foldl_dictAppend rest (dictAppend acc c0 fid) c g]
    by_cases hc : c = c0
    · subst hc
      rw [dictGetD_append_same, List.mem_append]
      simp only [List.mem_cons, List.mem_singleton]
      tauto
    · rw [dictGetD_append_other hc]
      simp only [List.mem_cons]
      constructor
      · rintro (hg | ⟨hg, hmem⟩)
        · exact Or.inl hg
        · exact Or.inr ⟨hg, Or.inr hmem⟩
      · rintro (hg | ⟨hg, hc0 | hmem⟩)
        · exact Or.inl hg
        · exact absurd hc0 hc
        · exact Or.inr ⟨hg, hmem⟩

theorem mem_c2fBuild :
    ∀ (files : List (List Tok)) (acc : List (Tok × List Nat)) (fid0 : Nat)
      (c : Tok) (g : Nat),
      g ∈ dictGetD (c2fBuild acc fid0 files) c ↔
        g ∈ dictGetD acc c ∨
          ∃ t, t < files.length ∧ g = fid0 + t ∧ c ∈ files.getD t []
  | [], acc, fid0, c, g => by
    rw [c2fBuild]
    simp
  | cs :: rest, acc, fid0, c, g => by
    rw [c2fBuild, mem_c2fBuild rest _ (fid0 + 1) c g,
      mem_foldl_dictAppend cs acc c g]
    constructor
    · rintro ((hg | ⟨hg, hmem⟩) | ⟨t, ht, hg, hmem⟩)
      · exact Or.inl hg
      · exact Or.inr ⟨0, by simp, by omega, by simpa using hmem⟩
      · refine Or.inr ⟨t + 1, by simp; omega, by omega, ?_⟩
        simpa using hmem
    · rintro (hg | ⟨t, ht, hg, hmem⟩)
      · exact Or.inl (Or.inl hg)
      · cases t with
        | zero =>
          exact Or.inl (Or.inr ⟨by omega, by simpa using hmem⟩)
        | succ t' =>
          refine Or.inr ⟨t', by simp at ht; omega, by omega, ?_⟩
          simpa using hmem

theorem mem_chunk2FileId {files : List (List Tok)} {c : Tok} {g : Nat} :
    g ∈ dictGetD (chunk2FileId files) c ↔
      g < files.length ∧ c ∈ files.getD g [] := by
  rw [chunk2FileId, mem_c2fBuild files [] 0 c g]
  constructor
  · rintro (hg | ⟨t, ht, hg, hmem⟩)
    · simp [dictGetD, dictLookup] at hg
    · exact ⟨by omega, by rwa [show g = t by omega]⟩
  · rintro ⟨hg, hmem⟩
    exact Or.inr ⟨g, hg, by omega, hmem⟩

theorem dictLookup_isSome_of_mem_getD {κ ν : Type} [DecidableEq κ]
    {d : List (κ × List ν)} {k : κ} {g : ν} (h : g ∈ dictGetD d k) :
    (dictLookup d k).isSome := by
  rw [mem_dictGetD] at h
  obtain ⟨l, hl, _⟩ := h
  rw [hl]
  rfl

theorem mem_keys_of_lookup_isSome {κ ν : Type} [DecidableEq κ]
    {d : List (κ × ν)} {k : κ} (h : (dictLookup d k).isSome) :
    k ∈ d.map fun p => p.1 := by
  rw [dictLookup] at h
  cases hf : d.find? fun p => p.1 = k with
  | none => rw [hf] at h; simp at h
  | some p =>
    have hm := List.mem_of_find?_eq_some hf
    have hp := List.find?_some hf
    simp only [decide_eq_true_eq] at hp
    rw [List.mem_map]
    exact ⟨p, hm, hp⟩

theorem mem_dictInsert {κ ν : Type} [DecidableEq κ] {d : List (κ × ν)} {k : κ}
    {v : ν} {e : κ × ν} (h : e ∈ dictInsert d k v) : e ∈ d ∨ e = (k, v) := by
  rw [dictInsert] at h
  by_cases hany : (d.any fun p => p.1 = k) = true
  · rw [if_pos hany] at h
    rw [List.mem_map] at h
    obtain ⟨p, hp, he⟩ := h
    by_cases hpk : p.1 = k
    · rw [if_pos hpk] at he
      exact Or.inr he.symm
    · rw [if_neg hpk] at he
      exact Or.inl (he ▸ hp)
  · rw [if_neg hany] at h
    rw [List.mem_append] at h
    rcases h with h | h
    · exact Or.inl h
    · exact Or.inr (by simpa using h)

/-! ## Lemmas: one step of the `Differ.dups` accumulation loop -/

theorem dupsGo_cons_none1 (cs1 cs2 : Chunksums) (h1 h2 : Tok)
    (rest : List (Tok × Tok)) (acc : List ((Nat × Nat × Nat × Nat) × CompareResult))
    (hl1 : dictLookup cs1.hashes h1 = none) :
    dupsGo cs1 cs2 ((h1, h2) :: rest) acc = none := by
  rw [dupsGo, hl1]

theorem dupsGo_cons_none2 (cs1 cs2 : Chunksums) (h1 h2 : Tok) (f1 : SFile)
    (rest : List (Tok × Tok)) (acc : List ((Nat × Nat × Nat × Nat) × CompareResult))
    (hl1 : dictLookup cs1.hashes h1 = some f1)
    (hl2 : dictLookup cs2.hashes h2 = none) :
    dupsGo cs1 cs2 ((h1, h2) :: rest) acc = none := by
  rw [dupsGo, hl1, hl2]

theorem dupsGo_cons_anytrue (cs1 cs2 : Chunksums) (h1 h2 : Tok) (f1 f2 : SFile)
    (rest : List (Tok × Tok)) (acc : List ((Nat × Nat × Nat × Nat) × CompareResult))
    (hl1 : dictLookup cs1.hashes h1 = some f1)
    (hl2 : dictLookup cs2.hashes h2 = some f2)
    (hany : (acc.any fun p => p.1 = (f2.size, f2.path, f1.size, f1.path)) = true) :
    dupsGo cs1 cs2 ((h1, h2) :: rest) acc = dupsGo cs1 cs2 rest acc := by
  rw [dupsGo, hl1, hl2]
  exact if_pos hany

theorem dupsGo_cons_match (cs1 cs2 : Chunksums) (h1 h2 : Tok) (f1 f2 : SFile)
    (rest : List (Tok × Tok)) (acc : List ((Nat × Nat × Nat × Nat) × CompareResult))
    (hl1 : dictLookup cs1.hashes h1 = some f1)
    (hl2 : dictLookup cs2.hashes h2 = some f2)
    (hany : (acc.any fun p => p.1 = (f2.size, f2.path, f1.size, f1.path)) = false) :
    dupsGo cs1 cs2 ((h1, h2) :: rest) acc
      = match compareFiles f1 f2 with
        | none => none
        | some cr =>
          if f1.path = f2.path ∧ cr.ratio = 1 then dupsGo cs1 cs2 rest acc
          else dupsGo cs1 cs2 rest
            (dictInsert acc (f1.size, f1.path, f2.size, f2.path) cr) := by
  rw [dupsGo, hl1, hl2]
  exact if_neg (by simp [hany])

theorem dupsGo_cons_cfnone (cs1 cs2 : Chunksums) (h1 h2 : Tok) (f1 f2 : SFile)
    (rest : List (Tok × Tok)) (acc : List ((Nat × Nat × Nat × Nat) × CompareResult))
    (hl1 : dictLookup cs1.hashes h1 = some f1)
    (hl2 : dictLookup cs2.hashes h2 = some f2)
    (hany : (acc.any fun p => p.1 = (f2.size, f2.path, f1.size, f1.path)) = false)
    (hcf : compareFiles f1 f2 = none) :
    dupsGo cs1 cs2 ((h1, h2) :: rest) acc = none :=
  (dupsGo_cons_match cs1 cs2 h1 h2 f1 f2 rest acc hl1 hl2 hany).trans (by rw [hcf])

theorem dupsGo_cons_skip (cs1 cs2 : Chunksums) (h1 h2 : Tok) (f1 f2 : SFile)
    (rest : List (Tok × Tok)) (acc : List ((Nat × Nat × Nat × Nat) × CompareResult))
    (cr : CompareResult)
    (hl1 : dictLookup cs1.hashes h1 = some f1)
    (hl2 : dictLookup cs2.hashes h2 = some f2)
    (hany : (acc.any fun p => p.1 = (f2.size, f2.path, f1.size, f1.path)) = false)
    (hcf : compareFiles f1 f2 = some cr)
    (hcond : f1.path = f2.path ∧ cr.ratio = 1) :
    dupsGo cs1 cs2 ((h1, h2) :: rest) acc = dupsGo cs1 cs2 rest acc := by
  have step := (dupsGo_cons_match cs1 cs2 h1 h2 f1 f2 rest acc hl1 hl2 hany).trans
    (show _ = if f1.path = f2.path ∧ cr.ratio = 1 then dupsGo cs1 cs2 rest acc
        else dupsGo cs1 cs2 rest (dictInsert acc (f1.size, f1.path, f2.size, f2.path) cr)
      by rw [hcf])
  rw [step, if_pos hcond]

theorem dupsGo_cons_store (cs1 cs2 : Chunksums) (h1 h2 : Tok) (f1 f2 : SFile)
    (rest : List (Tok × Tok)) (acc : List ((Nat × Nat × Nat × Nat) × CompareResult))
    (cr : CompareResult)
    (hl1 : dictLookup cs1.hashes h1 = some f1)
    (hl2 : dictLookup cs2.hashes h2 = some f2)
    (hany : (acc.any fun p => p.1 = (f2.size, f2.path, f1.size, f1.path)) = false)
    (hcf : compareFiles f1 f2 = some cr)
    (hcond : ¬ (f1.path = f2.path ∧ cr.ratio = 1)) :
    dupsGo cs1 cs2 ((h1, h2) :: rest) acc
      = dupsGo cs1 cs2 rest (dictInsert acc (f1.size, f1.path, f2.size, f2.path) cr) := by
  have step := (dupsGo_cons_match cs1 cs2 h1 h2 f1 f2 rest acc hl1 hl2 hany).trans
    (show _ = if f1.path = f2.path ∧ cr.ratio = 1 then dupsGo cs1 cs2 rest acc
        else dupsGo cs1 cs2 rest (dictInsert acc (f1.size, f1.path, f2.size, f2.path) cr)
      by rw [hcf])
  rw [step, if_neg hcond]

theorem dupsGo_sound (cs1 cs2 : Chunksums) :
    ∀ (pairs : List (Tok × Tok)) (acc L : List ((Nat × Nat × Nat × Nat) × CompareResult)),
      (∀ e ∈ acc, ¬ (e.2.file1.path = e.2.file2.path ∧ e.2.ratio = 1)) →
      dupsGo cs1 cs2 pairs acc = some L →
      ∀ e ∈ L, ¬ (e.2.file1.path = e.2.file2.path ∧ e.2.ratio = 1)
  | [], acc, L, hacc, heq => by
    rw [dupsGo] at heq
    cases heq
    exact hacc
  | (h1, h2) :: rest, acc, L, hacc, heq => by
    cases hl1 : dictLookup cs1.hashes h1 with
    | none =>
      rw [dupsGo_cons_none1 cs1 cs2 h1 h2 rest acc hl1] at heq
      cases heq
    | some f1 =>
      cases hl2 : dictLookup cs2.hashes h2 with
      | none =>
        rw [dupsGo_cons_none2 cs1 cs2 h1 h2 f1 rest acc hl1 hl2] at heq
        cases heq
      | some f2 =>
        cases hany : acc.any fun p => p.1 = (f2.size, f2.path, f1.size, f1.path) with
        | true =>
          rw [dupsGo_cons_anytrue cs1 cs2 h1 h2 f1 f2 rest acc hl1 hl2 hany] at heq
          exact dupsGo_sound cs1 cs2 rest acc L hacc heq
        | false =>
          cases hcf : compareFiles f1 f2 with
          | none =>
            rw [dupsGo_cons_cfnone cs1 cs2 h1 h2 f1 f2 rest acc hl1 hl2 hany hcf] at heq
            cases heq
          | some cr =>
            by_cases hcond : f1.path = f2.path ∧ cr.ratio = 1
            · rw [dupsGo_cons_skip cs1 cs2 h1 h2 f1 f2 rest acc cr hl1 hl2 hany hcf
                hcond] at heq
              exact dupsGo_sound cs1 cs2 rest acc L hacc heq
            · rw [dupsGo_cons_store cs1 cs2 h1 h2 f1 f2 rest acc cr hl1 hl2 hany hcf
                hcond] at heq
              refine dupsGo_sound cs1 cs2 rest _ L ?_ heq
              intro e he
              rcases mem_dictInsert he with he' | he'
              · exact hacc e he'
              · subst he'
                rw [compareFiles] at hcf
                cases hr : compareRatio f1.hashes f2.hashes f1.sizes f2.sizes with
                | none => rw [hr] at hcf; cases hcf
                | some r =>
                  rw [hr] at hcf
                  rw [Option.map_some'] at hcf
                  have hcr := Option.some.inj hcf
                  subst hcr
                  exact hcond

theorem chunksumsParse_files_foldl :
    ∀ (ls : List SFile) (cs : Chunksums),
      (ls.foldl (fun cs f =>
        (⟨dictInsert cs.hashes f.hash f, dictInsert cs.files f.path f.hash⟩ : Chunksums)) cs).files
        = ls.foldl (fun d f => dictInsert d f.path f.hash) cs.files
  | [], _ => rfl
  | f :: rest, cs => by
    rw [List.foldl_cons, List.foldl_cons, chunksumsParse_files_foldl rest _]

theorem getLast?_cons_some {α : Type} (a : α) :
    ∀ l : List α, ∃ u, (a :: l).getLast? = some u
  | [] => ⟨a, rfl⟩
  | b :: l => by
    obtain ⟨u, hu⟩ := getLast?_cons_some b l
    exact ⟨u, by rw [List.getLast?_cons_cons, hu]⟩

theorem lookup_foldl_pathInsert :
    ∀ (ls : List SFile) (acc : List (Nat × Tok)) (p : Nat),
      dictLookup (ls.foldl (fun d f => dictInsert d f.path f.hash) acc) p =
        match (ls.filter fun f => f.path = p).getLast? with
        | some g => some g.hash
        | none => dictLookup acc p
  | [], _, _ => rfl
  | f :: rest, acc, p => by
    rw [List.foldl_cons, lookup_foldl_pathInsert rest _ p]
    by_cases hp : f.path = p
    · rw [List.filter_cons, if_pos (by simpa using hp)]
      cases hfr : rest.filter fun f => f.path = p with
      | nil =>
        show dictLookup (dictInsert acc f.path f.hash) p = some f.hash
        rw [show p = f.path from hp.symm, dictLookup_insert_same]
      | cons g l =>
        rw [List.getLast?_cons_cons]
        obtain ⟨u, hu⟩ := getLast?_cons_some g l
        rw [hu]
    · rw [List.filter_cons, if_neg (by simpa using hp)]
      cases hfr : rest.filter fun f => f.path = p with
      | nil =>
        show dictLookup (dictInsert acc f.path f.hash) p = dictLookup acc p
        exact dictLookup_insert_other (fun hc => hp hc.symm) acc f.hash
      | cons g l =>
        obtain ⟨u, hu⟩ := getLast?_cons_some g l
        rw [hu]

/-! ## Lemmas: `iter_steps` and `get_order_indexes` -/

theorem getD_eq_getElem {t : List Nat} {i : Nat} (h : i < t.length) :
    t.getD i 0 = t[i] := by
  simp [List.getD_eq_getElem?_getD, List.getElem?_eq_getElem h]

theorem getD_of_le_length {t : List Nat} {i : Nat} (h : t.length ≤ i) :
    t.getD i 0 = 0 := by
  simp [List.getD_eq_getElem?_getD, List.getElem?_eq_none h]

theorem getD_pos_lt {t : List Nat} {i : Nat} (h : ¬ t.getD i 0 = 0) :
    i < t.length := by
  by_contra hc
  exact h (getD_of_le_length (by omega))

theorem getD_set_self {t : List Nat} {i : Nat} (x : Nat) (h : i < t.length) :
    (t.set i x).getD i 0 = x := by
  rw [getD_eq_getElem (by simpa using h)]
  exact List.getElem_set_self _

theorem getD_set_ne {t : List Nat} {i j : Nat} (x : Nat) (h : j ≠ i) :
    (t.set i x).getD j 0 = t.getD j 0 := by
  by_cases hj : j < t.length
  · rw [getD_eq_getElem (by simpa using hj), getD_eq_getElem hj]
    exact List.getElem_set_ne (fun hc => h hc.symm) _
  · rw [getD_of_le_length (by simpa using (by omega : t.length ≤ j)),
      getD_of_le_length (by omega)]

theorem sum_set_getD : ∀ (t : List Nat) (i x : Nat), i < t.length →
    (t.set i x).sum + t.getD i 0 = t.sum + x
  | [], i, x, h => by simp at h
  | a :: t, 0, x, _ => by
    simp only [List.set, List.sum_cons, List.getD_cons_zero]
    omega
  | a :: t, i + 1, x, h => by
    have ih := sum_set_getD t i x (by simpa using Nat.lt_of_succ_lt_succ h)
    simp only [List.set, List.sum_cons, List.getD_cons_succ]
    omega

theorem getD_map_sub (s : List Nat) (p j : Nat) :
    (s.map fun v => v - p).getD j 0 = s.getD j 0 - p := by
  by_cases h : j < s.length
  · rw [getD_eq_getElem (by simpa using h), getD_eq_getElem h]
    simp
  · rw [getD_of_le_length (by simpa using (by omega : s.length ≤ j)),
      getD_of_le_length (by omega)]
    omega

theorem ext_getD {t₁ t₂ : List Nat} (hlen : t₁.length = t₂.length)
    (h : ∀ j, t₁.getD j 0 = t₂.getD j 0) : t₁ = t₂ := by
  apply List.ext_getElem hlen
  intro i h1 h2
  rw [← getD_eq_getElem h1, ← getD_eq_getElem h2]
  exact h i

theorem sum_zero_getD {t : List Nat} (h : t.sum = 0) (j : Nat) : t.getD j 0 = 0 := by
  by_cases hj : j < t.length
  · rw [getD_eq_getElem hj]
    exact List.sum_eq_zero_iff.mp h _ (List.getElem_mem hj)
  · exact getD_of_le_length (by omega)

theorem getD_zero_sum {t : List Nat} (h : ∀ j, t.getD j 0 = 0) : t.sum = 0 := by
  apply List.sum_eq_zero_iff.mpr
  intro x hx
  obtain ⟨i, hi, hix⟩ := List.mem_iff_getElem.mp hx
  rw [← hix, ← getD_eq_getElem hi]
  exact h i

theorem passOnce_length : ∀ (o t : List Nat), (passOnce o t).2.length = t.length
  | [], t => rfl
  | i :: rest, t => by
    rw [passOnce]
    by_cases h0 : t.getD i 0 = 0
    · rw [if_pos h0]
    · rw [if_neg h0]
      show (passOnce rest (t.set i (t.getD i 0 - 1))).2.length = t.length
      rw [passOnce_length rest _, List.length_set]

theorem passOnce_count : ∀ (o t : List Nat) (j : Nat),
    (passOnce o t).2.getD j 0 + (passOnce o t).1.count j = t.getD j 0
  | [], t, j => by simp [passOnce]
  | i :: rest, t, j => by
    rw [passOnce]
    by_cases h0 : t.getD i 0 = 0
    · rw [if_pos h0]
      simp
    · rw [if_neg h0]
      have hi : i < t.length := getD_pos_lt h0
      have ih := passOnce_count rest (t.set i (t.getD i 0 - 1)) j
      show (passOnce rest (t.set i (t.getD i 0 - 1))).2.getD j 0
        + ((i :: (passOnce rest (t.set i (t.getD i 0 - 1))).1).count j) = t.getD j 0
      by_cases hji : j = i
      · subst hji
        rw [List.count_cons_self]
        rw [getD_set_self _ hi] at ih
        omega
      · rw [List.count_cons_of_ne hji]
        rw [getD_set_ne _ hji] at ih
        omega

theorem passOnce_sum : ∀ (o t : List Nat),
    (passOnce o t).2.sum + (passOnce o t).1.length = t.sum
  | [], t => by simp [passOnce]
  | i :: rest, t => by
    rw [passOnce]
    by_cases h0 : t.getD i 0 = 0
    · rw [if_pos h0]
      simp
    · rw [if_neg h0]
      have hi : i < t.length := getD_pos_lt h0
      have ih := passOnce_sum rest (t.set i (t.getD i 0 - 1))
      have hset := sum_set_getD t i (t.getD i 0 - 1) hi
      show (passOnce rest (t.set i (t.getD i 0 - 1))).2.sum
        + (i :: (passOnce rest (t.set i (t.getD i 0 - 1))).1).length = t.sum
      rw [List.length_cons]
      omega

theorem passOnce_desc : ∀ (o t : List Nat), o.Nodup →
    List.Pairwise (fun a b => b ≤ a) (o.map fun i => t.getD i 0) →
    (passOnce o t).1 = (o.filter fun j => ¬ t.getD j 0 = 0) ∧
      (∀ j ∈ o, (passOnce o t).2.getD j 0 = t.getD j 0 - 1) ∧
      (∀ j, j ∉ o → (passOnce o t).2.getD j 0 = t.getD j 0)
  | [], t, _, _ => by
    refine ⟨rfl, ?_, fun j _ => rfl⟩
    intro j hj
    cases hj
  | i :: rest, t, hnd, hdesc => by
    rw [List.map_cons, List.pairwise_cons] at hdesc
    obtain ⟨hhead, hdrest⟩ := hdesc
    rw [List.nodup_cons] at hnd
    obtain ⟨hir, hndr⟩ := hnd
    rw [passOnce]
    by_cases h0 : t.getD i 0 = 0
    · rw [if_pos h0]
      have hall : ∀ j ∈ rest, t.getD j 0 = 0 := by
        intro j hj
        have := hhead (t.getD j 0) (List.mem_map_of_mem _ hj)
        omega
      refine ⟨?_, ?_, fun j _ => rfl⟩
      · show ([] : List Nat) = (i :: rest).filter fun j => ¬ t.getD j 0 = 0
        rw [List.filter_cons, if_neg (by simpa using h0)]
        symm
        rw [List.filter_eq_nil]
        intro j hj
        simpa using (hall j hj)
      · intro j hj
        rcases List.mem_cons.mp hj with hj | hj
        · subst hj
          show t.getD j 0 = t.getD j 0 - 1
          omega
        · show t.getD j 0 = t.getD j 0 - 1
          have := hall j hj
          omega
    · rw [if_neg h0]
      have hi : i < t.length := getD_pos_lt h0
      have hrest_eq : (rest.map fun j => (t.set i (t.getD i 0 - 1)).getD j 0)
          = rest.map fun j => t.getD j 0 := by
        apply List.map_congr_left
        intro j hj
        exact getD_set_ne _ (fun hc => hir (by rw [← hc]; exact hj))
      have ih := passOnce_desc rest (t.set i (t.getD i 0 - 1)) hndr
        (by rw [hrest_eq]; exact hdrest)
      obtain ⟨ih1, ih2, ih3⟩ := ih
      show (i :: (passOnce rest (t.set i (t.getD i 0 - 1))).1
          = (i :: rest).filter fun j => ¬ t.getD j 0 = 0) ∧ _ ∧ _
      refine ⟨?_, ?_, ?_⟩
      · rw [List.filter_cons, if_pos (by simpa using h0)]
        rw [ih1]
        congr 1
        apply List.filter_congr
        intro j hj
        rw [getD_set_ne _ (fun hc => hir (by rw [← hc]; exact hj))]
      · intro j hj
        rcases List.mem_cons.mp hj with hj | hj
        · subst hj
          rw [ih3 j hir, getD_set_self _ hi]
        · rw [ih2 j hj, getD_set_ne _ (fun hc => hir (by rw [← hc]; exact hj))]
      · intro j hj
        rw [List.mem_cons] at hj
        push_neg at hj
        rw [ih3 j hj.2, getD_set_ne _ hj.1]

theorem getOrderIndexes_perm (s : List Nat) :
    (getOrderIndexes s).Perm (List.range s.length) := by
  have h1 : ((pairsOf s).insertionSort ordRel).Perm (pairsOf s) :=
    List.perm_insertionSort ordRel (pairsOf s)
  have h2 := h1.map fun p : Nat × Nat => p.2
  rw [show (pairsOf s).map (fun p : Nat × Nat => p.2) = List.range s.length by
    rw [pairsOf, List.map_map]
    exact List.map_id (List.range s.length)] at h2
  exact h2

theorem getOrderIndexes_nodup (s : List Nat) : (getOrderIndexes s).Nodup :=
  (getOrderIndexes_perm s).nodup_iff.mpr (List.nodup_range _)

theorem mem_getOrderIndexes {s : List Nat} {j : Nat} :
    j ∈ getOrderIndexes s ↔ j < s.length := by
  rw [(getOrderIndexes_perm s).mem_iff, List.mem_range]

theorem getOrderIndexes_length (s : List Nat) :
    (getOrderIndexes s).length = s.length := by
  rw [(getOrderIndexes_perm s).length_eq, List.length_range]

theorem sorted_pairs_fst {s : List Nat} {p : Nat × Nat}
    (h : p ∈ (pairsOf s).insertionSort ordRel) : p.1 = s.getD p.2 0 := by
  have hm : p ∈ pairsOf s := ((List.perm_insertionSort ordRel (pairsOf s)).mem_iff).mp h
  rw [pairsOf, List.mem_map] at hm
  obtain ⟨i, _, hip⟩ := hm
  rw [← hip]

theorem getOrderIndexes_pairwise (s : List Nat) :
    List.Pairwise
      (fun j k => s.getD k 0 < s.getD j 0 ∨ (s.getD j 0 = s.getD k 0 ∧ j ≤ k))
      (getOrderIndexes s) := by
  rw [getOrderIndexes, List.pairwise_map]
  have hs := List.sorted_insertionSort ordRel (pairsOf s)
  have hp : List.Pairwise ordRel ((pairsOf s).insertionSort ordRel) := hs
  refine hp.imp_of_mem ?_
  intro p q hpm hqm hr
  rw [ordRel] at hr
  rw [← sorted_pairs_fst hpm, ← sorted_pairs_fst hqm]
  exact hr

theorem getOrderIndexes_desc (s : List Nat) :
    List.Pairwise (fun a b => b ≤ a) ((getOrderIndexes s).map fun i => s.getD i 0) := by
  rw [List.pairwise_map]
  refine (getOrderIndexes_pairwise s).imp ?_
  intro j k h
  rcases h with h | h
  · omega
  · omega

theorem getOrderIndexes_head_max {s : List Nat} {o₀ : Nat} {orest : List Nat}
    (h : getOrderIndexes s = o₀ :: orest) (j : Nat) :
    s.getD j 0 ≤ s.getD o₀ 0 := by
  by_cases hj : j < s.length
  · have hmem : j ∈ getOrderIndexes s := mem_getOrderIndexes.mpr hj
    rw [h] at hmem
    rcases List.mem_cons.mp hmem with hj' | hj'
    · subst hj'
      exact le_refl _
    · have := getOrderIndexes_desc s
      rw [h, List.map_cons, List.pairwise_cons] at this
      exact this.1 (s.getD j 0) (List.mem_map_of_mem _ hj')
  · rw [getD_of_le_length (by omega)]
    exact Nat.zero_le _

theorem iterStepsLoop_nil (fuel : Nat) (t : List Nat) :
    iterStepsLoop (fuel + 1) [] t = [] := rfl

theorem iterStepsLoop_cons (fuel : Nat) (o₀ : Nat) (orest t : List Nat) :
    iterStepsLoop (fuel + 1) (o₀ :: orest) t
      = if t.getD o₀ 0 = 0 then []
        else (passOnce (o₀ :: orest) t).1
          ++ iterStepsLoop fuel (o₀ :: orest) (passOnce (o₀ :: orest) t).2 := rfl

theorem specLoop_nil (fuel : Nat) (t : List Nat) (h : getOrderIndexes t = []) :
    specRoundRobinLoop (fuel + 1) t = [] := by
  show (match getOrderIndexes t with
    | [] => []
    | o :: rest =>
      if t.getD o 0 = 0 then []
      else (passOnce (o :: rest) t).1
        ++ specRoundRobinLoop fuel (passOnce (o :: rest) t).2) = []
  rw [h]

theorem specLoop_cons (fuel : Nat) (t : List Nat) {o₀ : Nat} {orest : List Nat}
    (h : getOrderIndexes t = o₀ :: orest) :
    specRoundRobinLoop (fuel + 1) t
      = if t.getD o₀ 0 = 0 then []
        else (passOnce (o₀ :: orest) t).1
          ++ specRoundRobinLoop fuel (passOnce (o₀ :: orest) t).2 := by
  show (match getOrderIndexes t with
    | [] => []
    | o :: rest =>
      if t.getD o 0 = 0 then []
      else (passOnce (o :: rest) t).1
        ++ specRoundRobinLoop fuel (passOnce (o :: rest) t).2) = _
  rw [h]

theorem passOnce_cons_pos {i : Nat} {rest t : List Nat} (h : ¬ t.getD i 0 = 0) :
    0 < (passOnce (i :: rest) t).1.length := by
  rw [passOnce, if_neg h]
  simp

theorem iterStepsLoop_len_count : ∀ (fuel : Nat) (o t : List Nat),
    o.Nodup →
    (∀ j, ¬ t.getD j 0 = 0 → j ∈ o) →
    List.Pairwise (fun a b => b ≤ a) (o.map fun i => t.getD i 0) →
    t.sum ≤ fuel →
    (iterStepsLoop fuel o t).length = t.sum ∧
      ∀ j, (iterStepsLoop fuel o t).count j = t.getD j 0
  | 0, o, t, _, _, _, hfuel => by
    have hz : t.sum = 0 := by omega
    refine ⟨by rw [iterStepsLoop, hz]; rfl, fun j => ?_⟩
    rw [iterStepsLoop, sum_zero_getD hz j]
    rfl
  | fuel + 1, o, t, hnd, hcov, hdesc, hfuel => by
    cases o with
    | nil =>
      have hz : t.sum = 0 := getD_zero_sum fun j => by
        by_contra hc
        exact absurd (hcov j hc) (List.not_mem_nil j)
      refine ⟨by rw [iterStepsLoop_nil, hz]; rfl, fun j => ?_⟩
      rw [iterStepsLoop_nil, sum_zero_getD hz j]
      rfl
    | cons o₀ orest =>
      rw [iterStepsLoop_cons]
      by_cases h0 : t.getD o₀ 0 = 0
      · rw [if_pos h0]
        have hall : ∀ j, t.getD j 0 = 0 := by
          intro j
          by_cases hj : t.getD j 0 = 0
          · exact hj
          · have hjo := hcov j hj
            have hdom : t.getD j 0 ≤ t.getD o₀ 0 := by
              rcases List.mem_cons.mp hjo with hj' | hj'
              · rw [hj']
              · rw [List.map_cons, List.pairwise_cons] at hdesc
                exact hdesc.1 _ (List.mem_map_of_mem _ hj')
            omega
        have hz : t.sum = 0 := getD_zero_sum hall
        refine ⟨by rw [hz]; rfl, fun j => ?_⟩
        rw [hall j]
        rfl
      · rw [if_neg h0]
        have hpd := passOnce_desc (o₀ :: orest) t hnd hdesc
        have hlen1 := @passOnce_cons_pos o₀ orest t h0
        have hsum := passOnce_sum (o₀ :: orest) t
        have hdesc' : List.Pairwise (fun a b => b ≤ a)
            ((o₀ :: orest).map fun i => (passOnce (o₀ :: orest) t).2.getD i 0) := by
          rw [List.map_congr_left fun j hj => hpd.2.1 j hj]
          rw [show ((o₀ :: orest).map fun i => t.getD i 0 - 1)
              = ((o₀ :: orest).map fun i => t.getD i 0).map fun v => v - 1 by
            rw [List.map_map]; rfl]
          rw [List.pairwise_map]
          exact hdesc.imp fun h => by omega
        have hcov' : ∀ j, ¬ (passOnce (o₀ :: orest) t).2.getD j 0 = 0 → j ∈ o₀ :: orest := by
          intro j hj
          apply hcov j
          have := passOnce_count (o₀ :: orest) t j
          omega
        have ih := iterStepsLoop_len_count fuel (o₀ :: orest)
          (passOnce (o₀ :: orest) t).2 hnd hcov' hdesc' (by omega)
        refine ⟨?_, fun j => ?_⟩
        · rw [List.length_append, ih.1]
          omega
        · rw [List.count_append, ih.2 j]
          have := passOnce_count (o₀ :: orest) t j
          omega

theorem iterSteps_length (s : List Nat) : (iterSteps s).length = s.sum :=
  (iterStepsLoop_len_count s.sum (getOrderIndexes s) s (getOrderIndexes_nodup s)
    (fun j hj => mem_getOrderIndexes.mpr (getD_pos_lt hj))
    (getOrderIndexes_desc s) (le_refl _)).1

theorem iterSteps_count (s : List Nat) (j : Nat) : (iterSteps s).count j = s.getD j 0 :=
  (iterStepsLoop_len_count s.sum (getOrderIndexes s) s (getOrderIndexes_nodup s)
    (fun j hj => mem_getOrderIndexes.mpr (getD_pos_lt hj))
    (getOrderIndexes_desc s) (le_refl _)).2 j

theorem perm_of_nodup_mem_iff {l₁ l₂ : List Nat} (h₁ : l₁.Nodup) (h₂ : l₂.Nodup)
    (h : ∀ x, x ∈ l₁ ↔ x ∈ l₂) : l₁.Perm l₂ := by
  apply List.perm_of_nodup_nodup_toFinset_eq h₁ h₂
  apply Finset.ext
  intro x
  rw [List.mem_toFinset, List.mem_toFinset]
  exact h x

theorem filter_orderIndexes_eq {s t : List Nat} (hlen : t.length = s.length)
    (hmono : ∀ j k, ¬ t.getD j 0 = 0 → ¬ t.getD k 0 = 0 →
        (s.getD k 0 < s.getD j 0 ∨ (s.getD j 0 = s.getD k 0 ∧ j ≤ k)) →
        (t.getD k 0 < t.getD j 0 ∨ (t.getD j 0 = t.getD k 0 ∧ j ≤ k))) :
    ((getOrderIndexes s).filter fun j => ¬ t.getD j 0 = 0)
      = (getOrderIndexes t).filter fun j => ¬ t.getD j 0 = 0 := by
  have hnd1 : ((getOrderIndexes s).filter fun j => ¬ t.getD j 0 = 0).Nodup :=
    (getOrderIndexes_nodup s).filter _
  have hnd2 : ((getOrderIndexes t).filter fun j => ¬ t.getD j 0 = 0).Nodup :=
    (getOrderIndexes_nodup t).filter _
  have hmem : ∀ x, (x ∈ (getOrderIndexes s).filter fun j => ¬ t.getD j 0 = 0)
      ↔ x ∈ (getOrderIndexes t).filter fun j => ¬ t.getD j 0 = 0 := by
    intro x
    rw [List.mem_filter, List.mem_filter, mem_getOrderIndexes, mem_getOrderIndexes]
    constructor
    · rintro ⟨_, hx⟩
      refine ⟨?_, hx⟩
      exact getD_pos_lt (by simpa using hx)
    · rintro ⟨_, hx⟩
      refine ⟨?_, hx⟩
      have := getD_pos_lt (t := t) (by simpa using hx)
      omega
  have hperm := perm_of_nodup_mem_iff hnd1 hnd2 hmem
  have hs1 : List.Pairwise
      (fun j k => t.getD k 0 < t.getD j 0 ∨ (t.getD j 0 = t.getD k 0 ∧ j ≤ k))
      ((getOrderIndexes s).filter fun j => ¬ t.getD j 0 = 0) := by
    have hp : List.Pairwise
        (fun j k => s.getD k 0 < s.getD j 0 ∨ (s.getD j 0 = s.getD k 0 ∧ j ≤ k))
        ((getOrderIndexes s).filter fun j => ¬ t.getD j 0 = 0) :=
      List.Pairwise.sublist (List.filter_sublist _) (getOrderIndexes_pairwise s)
    refine hp.imp_of_mem ?_
    intro a b ha hb hr
    rw [List.mem_filter] at ha hb
    exact hmono a b (by simpa using ha.2) (by simpa using hb.2) hr
  have hs2 : List.Pairwise
      (fun j k => t.getD k 0 < t.getD j 0 ∨ (t.getD j 0 = t.getD k 0 ∧ j ≤ k))
      ((getOrderIndexes t).filter fun j => ¬ t.getD j 0 = 0) :=
    List.Pairwise.sublist (List.filter_sublist _) (getOrderIndexes_pairwise t)
  exact @List.eq_of_perm_of_sorted _
    (fun j k => t.getD k 0 < t.getD j 0 ∨ (t.getD j 0 = t.getD k 0 ∧ j ≤ k))
    ⟨fun a b hab hba => by rcases hab with h | h <;> rcases hba with h' | h' <;> omega⟩
    _ _ hperm hs1 hs2

theorem passOnce_all_getD {o t : List Nat} (hnd : o.Nodup)
    (hdesc : List.Pairwise (fun a b => b ≤ a) (o.map fun i => t.getD i 0))
    (hcov : ∀ j, ¬ t.getD j 0 = 0 → j ∈ o) (j : Nat) :
    (passOnce o t).2.getD j 0 = t.getD j 0 - 1 := by
  by_cases hj : j ∈ o
  · exact (passOnce_desc o t hnd hdesc).2.1 j hj
  · rw [(passOnce_desc o t hnd hdesc).2.2 j hj]
    by_cases hz : t.getD j 0 = 0
    · omega
    · exact absurd (hcov j hz) hj

theorem loops_eq (s : List Nat) : ∀ (fuel p : Nat),
    iterStepsLoop fuel (getOrderIndexes s) (s.map fun v => v - p)
      = specRoundRobinLoop fuel (s.map fun v => v - p)
  | 0, p => rfl
  | fuel + 1, p => by
    cases hos : getOrderIndexes s with
    | nil =>
      have hs : s.length = 0 := by
        have := getOrderIndexes_length s
        rw [hos] at this
        simpa using this.symm
      have hot : getOrderIndexes (s.map fun v => v - p) = [] := by
        apply List.length_eq_zero.mp
        rw [getOrderIndexes_length, List.length_map, hs]
      rw [iterStepsLoop_nil, specLoop_nil _ _ hot]
    | cons o₀ orest =>
      obtain ⟨q₀, qrest, hot⟩ :
          ∃ q₀ qrest, getOrderIndexes (s.map fun v => v - p) = q₀ :: qrest := by
        have h1 := getOrderIndexes_length (s.map fun v => v - p)
        have h2 := getOrderIndexes_length s
        rw [hos] at h2
        rw [List.length_map] at h1
        cases hq : getOrderIndexes (s.map fun v => v - p) with
        | nil =>
          rw [hq] at h1
          rw [List.length_cons] at h2
          simp at h1
          omega
        | cons q₀ qrest => exact ⟨q₀, qrest, rfl⟩
      have hso := getOrderIndexes_head_max hos
      have hto := getOrderIndexes_head_max hot
      have hhead : (s.map fun v => v - p).getD o₀ 0 = (s.map fun v => v - p).getD q₀ 0 := by
        have h1 := hto o₀
        have h2 := hso q₀
        rw [getD_map_sub, getD_map_sub] at h1 ⊢
        omega
      rw [iterStepsLoop_cons, specLoop_cons _ _ hot]
      by_cases h0 : (s.map fun v => v - p).getD o₀ 0 = 0
      · rw [if_pos h0, if_pos (by rw [← hhead]; exact h0)]
      · rw [if_neg h0, if_neg (by rw [← hhead]; exact h0)]
        have hndL : (o₀ :: orest).Nodup := by
          rw [← hos]
          exact getOrderIndexes_nodup s
        have hndR : (q₀ :: qrest).Nodup := by
          rw [← hot]
          exact getOrderIndexes_nodup _
        have hdescL : List.Pairwise (fun a b => b ≤ a)
            ((o₀ :: orest).map fun i => (s.map fun v => v - p).getD i 0) := by
          rw [List.map_congr_left fun j _ => getD_map_sub s p j]
          rw [show ((o₀ :: orest).map fun i => s.getD i 0 - p)
              = ((o₀ :: orest).map fun i => s.getD i 0).map fun v => v - p by
            rw [List.map_map]; rfl]
          rw [List.pairwise_map]
          have := getOrderIndexes_desc s
          rw [hos] at this
          exact this.imp fun h => by omega
        have hdescR : List.Pairwise (fun a b => b ≤ a)
            ((q₀ :: qrest).map fun i => (s.map fun v => v - p).getD i 0) := by
          have := getOrderIndexes_desc (s.map fun v => v - p)
          rw [hot] at this
          exact this
        have hcovL : ∀ j, ¬ (s.map fun v => v - p).getD j 0 = 0 → j ∈ o₀ :: orest := by
          intro j hj
          rw [← hos]
          apply mem_getOrderIndexes.mpr
          have := getD_pos_lt hj
          rw [List.length_map] at this
          exact this
        have hcovR : ∀ j, ¬ (s.map fun v => v - p).getD j 0 = 0 → j ∈ q₀ :: qrest := by
          intro j hj
          rw [← hot]
          exact mem_getOrderIndexes.mpr (getD_pos_lt hj)
        have hfeq : ((o₀ :: orest).filter fun j => ¬ (s.map fun v => v - p).getD j 0 = 0)
            = (q₀ :: qrest).filter fun j => ¬ (s.map fun v => v - p).getD j 0 = 0 := by
          rw [← hos, ← hot]
          apply filter_orderIndexes_eq (by rw [List.length_map])
          intro j k hj hk hr
          simp only [getD_map_sub] at hj hk ⊢
          omega
        have hnextL : (passOnce (o₀ :: orest) (s.map fun v => v - p)).2
            = s.map fun v => v - (p + 1) := by
          apply ext_getD
          · rw [passOnce_length, List.length_map, List.length_map]
          · intro j
            rw [passOnce_all_getD hndL hdescL hcovL j]
            simp only [getD_map_sub]
            omega
        have hnextR : (passOnce (q₀ :: qrest) (s.map fun v => v - p)).2
            = s.map fun v => v - (p + 1) := by
          apply ext_getD
          · rw [passOnce_length, List.length_map, List.length_map]
          · intro j
            rw [passOnce_all_getD hndR hdescR hcovR j]
            simp only [getD_map_sub]
            omega
        rw [(passOnce_desc _ _ hndL hdescL).1, (passOnce_desc _ _ hndR hdescR).1, hfeq]
        congr 1
        rw [hnextL, hnextR, ← hos]
        exact loops_eq s fuel (p + 1)

theorem iterSteps_eq_specRoundRobin (s : List Nat) :
    iterSteps s = specRoundRobin s := by
  have h0 : (s.map fun v => v - 0) = s := by
    rw [show (fun v : Nat => v - 0) = fun v : Nat => v from funext fun v => rfl]
    exact List.map_id s
  have h := loops_eq s s.sum 0
  rw [h0] at h
  exact h

/-! ## Lemmas: ceil division and the blueprint arithmetic -/

theorem cdiv_le_iff {t : Nat} (ht : 0 < t) (x n : Nat) : cdiv x t ≤ n ↔ x ≤ n * t := by
  rw [cdiv, Nat.div_le_iff_le_mul_add_pred ht, Nat.mul_comm t n]
  omega

theorem le_cdiv_mul {t : Nat} (ht : 0 < t) (x : Nat) : x ≤ cdiv x t * t :=
  (cdiv_le_iff ht x _).mp (le_refl _)

theorem cdiv_add_le {t : Nat} (ht : 0 < t) (x y : Nat) :
    cdiv (x + y) t ≤ cdiv x t + cdiv y t := by
  rw [cdiv_le_iff ht]
  have h1 := le_cdiv_mul ht x
  have h2 := le_cdiv_mul ht y
  calc x + y ≤ cdiv x t * t + cdiv y t * t := by omega
    _ = (cdiv x t + cdiv y t) * t := by ring

theorem cdiv_mul_self {t : Nat} (ht : 0 < t) (w : Nat) : cdiv (t * w) t = w := by
  rw [cdiv, show t * w + t - 1 = t * w + (t - 1) from by omega,
    Nat.mul_add_div ht, Nat.div_eq_of_lt (by omega)]
  omega

theorem sum_cdiv_ge (t : Nat) (ht : 0 < t) :
    ∀ l : List Nat, cdiv l.sum t ≤ (l.map fun v => cdiv v t).sum
  | [] => by
    rw [List.sum_nil, List.map_nil, List.sum_nil, cdiv, Nat.zero_add,
      Nat.div_eq_of_lt (by omega)]
  | v :: l => by
    rw [List.sum_cons, List.map_cons, List.sum_cons]
    have h1 := cdiv_add_le ht v l.sum
    have h2 := sum_cdiv_ge t ht l
    omega

theorem sum_map_mul_right_nat {α : Type} (f : α → Nat) (c : Nat) :
    ∀ l : List α, (l.map fun x => f x * c).sum = (l.map f).sum * c
  | [] => by simp
  | x :: l => by
    rw [List.map_cons, List.sum_cons, List.map_cons, List.sum_cons,
      sum_map_mul_right_nat f c l, Nat.add_mul]

theorem value_cdiv_le_max (width total : Nat) (di : DiffItem) :
    cdiv (di.value * width) total
      ≤ max (cdiv (di.a * width) total) (cdiv (di.b * width) total) := by
  rw [DiffItem.value]
  cases hty : di.type
  case delete => exact le_max_left _ _
  case insert => exact le_max_right _ _
  case replace => exact le_max_left _ _
  case equal => exact le_max_left _ _

theorem realWidth_prepareBp_ge (width total : Nat) (dire : List DiffItem)
    (htot : total = direTotal dire) (hpos : 0 < total) :
    width ≤ realWidth (prepareBp width total dire) := by
  have h2 : (dire.map fun di => cdiv (di.value * width) total).sum
      ≤ realWidth (prepareBp width total dire) := by
    rw [realWidth, prepareBp, List.map_map]
    exact List.sum_le_sum fun di _ => value_cdiv_le_max width total di
  have h3 : cdiv ((dire.map fun di => di.value * width).sum) total
      ≤ (dire.map fun di => cdiv (di.value * width) total).sum := by
    have := sum_cdiv_ge total hpos (dire.map fun di => di.value * width)
    rw [List.map_map] at this
    exact this
  have h4 : (dire.map fun di => di.value * width).sum = total * width := by
    rw [sum_map_mul_right_nat DiffItem.value width]
    rw [htot, direTotal, Nat.mul_comm]
  have h5 : cdiv (total * width) total = width := cdiv_mul_self hpos width
  rw [h4, h5] at h3
  omega

theorem getD_eq_getElem' {α : Type} {t : List α} {i : Nat} (d : α) (h : i < t.length) :
    t.getD i d = t[i] := by
  simp [List.getD_eq_getElem?_getD, List.getElem?_eq_getElem h]

theorem getD_of_le_length' {α : Type} {t : List α} {i : Nat} (d : α) (h : t.length ≤ i) :
    t.getD i d = d := by
  simp [List.getD_eq_getElem?_getD, List.getElem?_eq_none h]

theorem getD_set_self' {α : Type} {t : List α} {i : Nat} (x d : α) (h : i < t.length) :
    (t.set i x).getD i d = x := by
  rw [getD_eq_getElem' d (by simpa using h)]
  exact List.getElem_set_self _

theorem getD_set_ne' {α : Type} {t : List α} {i j : Nat} (x d : α) (h : j ≠ i) :
    (t.set i x).getD j d = t.getD j d := by
  by_cases hj : j < t.length
  · rw [getD_eq_getElem' d (by simpa using hj), getD_eq_getElem' d hj]
    exact List.getElem_set_ne (fun hc => h hc.symm) _
  · rw [getD_of_le_length' d (by simpa using (by omega : t.length ≤ j)),
      getD_of_le_length' d (by omega)]

theorem getD_map_max (bp : List (Nat × Nat)) (i : Nat) :
    (bp.map fun p => max p.1 p.2).getD i 0
      = max (bp.getD i (0, 0)).1 (bp.getD i (0, 0)).2 := by
  by_cases h : i < bp.length
  · rw [getD_eq_getElem (by simpa using h), List.getElem_map, getD_eq_getElem' _ h]
  · rw [getD_of_le_length (by simpa using (by omega : bp.length ≤ i)),
      getD_of_le_length' _ (by omega)]
    rfl

theorem shrinkAt_getD_self (bp : List (Nat × Nat)) (i : Nat) :
    (shrinkAt bp i).getD i (0, 0)
      = ((bp.getD i (0, 0)).1 - 1, (bp.getD i (0, 0)).2 - 1) := by
  rw [shrinkAt]
  by_cases h : i < bp.length
  · exact getD_set_self' _ _ h
  · have hset : bp.set i ((bp.getD i (0, 0)).1 - 1, (bp.getD i (0, 0)).2 - 1) = bp :=
      List.set_eq_of_length_le (by omega)
    rw [hset, getD_of_le_length' _ (by omega)]
    rfl

theorem shrinkAt_getD_ne (bp : List (Nat × Nat)) {i j : Nat} (h : j ≠ i) :
    (shrinkAt bp i).getD j (0, 0) = bp.getD j (0, 0) := by
  rw [shrinkAt]
  exact getD_set_ne' _ _ h

theorem shrinkAt_length (bp : List (Nat × Nat)) (i : Nat) :
    (shrinkAt bp i).length = bp.length := by
  rw [shrinkAt, List.length_set]

theorem applyShrinks_length : ∀ (idxs : List Nat) (bp : List (Nat × Nat)),
    (applyShrinks bp idxs).length = bp.length
  | [], _ => rfl
  | i :: rest, bp => by
    show (applyShrinks (shrinkAt bp i) rest).length = bp.length
    rw [applyShrinks_length rest _, shrinkAt_length]

theorem applyShrinks_getD : ∀ (idxs : List Nat) (bp : List (Nat × Nat)) (j : Nat),
    (applyShrinks bp idxs).getD j (0, 0)
      = ((bp.getD j (0, 0)).1 - idxs.count j, (bp.getD j (0, 0)).2 - idxs.count j)
  | [], bp, j => by simp [applyShrinks]
  | i :: rest, bp, j => by
    show (applyShrinks (shrinkAt bp i) rest).getD j (0, 0) = _
    rw [applyShrinks_getD rest (shrinkAt bp i) j]
    by_cases hj : j = i
    · subst hj
      rw [shrinkAt_getD_self, List.count_cons_self]
      show ((bp.getD j (0, 0)).1 - 1 - rest.count j, (bp.getD j (0, 0)).2 - 1 - rest.count j) = _
      rw [show (bp.getD j (0, 0)).1 - 1 - rest.count j
          = (bp.getD j (0, 0)).1 - (rest.count j + 1) from by omega,
        show (bp.getD j (0, 0)).2 - 1 - rest.count j
          = (bp.getD j (0, 0)).2 - (rest.count j + 1) from by omega]
    · rw [shrinkAt_getD_ne _ hj, List.count_cons_of_ne hj]

theorem applyShrinks_realWidth : ∀ (idxs : List Nat) (bp : List (Nat × Nat)),
    (∀ j, idxs.count j ≤ max (bp.getD j (0, 0)).1 (bp.getD j (0, 0)).2 - 1) →
    realWidth (applyShrinks bp idxs) + idxs.length = realWidth bp
  | [], bp, _ => by simp [applyShrinks]
  | i :: rest, bp, hcount => by
    have hc := hcount i
    rw [List.count_cons_self] at hc
    have hmax : 2 ≤ max (bp.getD i (0, 0)).1 (bp.getD i (0, 0)).2 := by omega
    have hilen : i < bp.length := by
      by_contra hcon
      rw [getD_of_le_length' _ (by omega)] at hmax
      simp at hmax
    have hrw : realWidth (shrinkAt bp i) + 1 = realWidth bp := by
      rw [realWidth, realWidth, shrinkAt, List.map_set]
      show ((bp.map fun p => max p.1 p.2).set i
          (max ((bp.getD i (0, 0)).1 - 1) ((bp.getD i (0, 0)).2 - 1))).sum + 1
        = (bp.map fun p => max p.1 p.2).sum
      have hs := sum_set_getD (bp.map fun p => max p.1 p.2) i
        (max ((bp.getD i (0, 0)).1 - 1) ((bp.getD i (0, 0)).2 - 1))
        (by rw [List.length_map]; exact hilen)
      rw [getD_map_max bp i] at hs
      rw [show max ((bp.getD i (0, 0)).1 - 1) ((bp.getD i (0, 0)).2 - 1)
          = max (bp.getD i (0, 0)).1 (bp.getD i (0, 0)).2 - 1 from by omega] at hs ⊢
      omega
    have hrec := applyShrinks_realWidth rest (shrinkAt bp i) (fun j => by
      by_cases hj : j = i
      · rw [hj, shrinkAt_getD_self]
        have h2 := hcount i
        rw [List.count_cons_self] at h2
        show rest.count i ≤ max ((bp.getD i (0, 0)).1 - 1) ((bp.getD i (0, 0)).2 - 1) - 1
        rw [show max ((bp.getD i (0, 0)).1 - 1) ((bp.getD i (0, 0)).2 - 1)
            = max (bp.getD i (0, 0)).1 (bp.getD i (0, 0)).2 - 1 from by omega]
        omega
      · rw [shrinkAt_getD_ne _ hj]
        have := hcount j
        rw [List.count_cons_of_ne hj] at this
        exact this)
    show realWidth (applyShrinks (shrinkAt bp i) rest) + (i :: rest).length = realWidth bp
    rw [List.length_cons]
    omega

/-! ## Claim theorems -/

/-- **C1.** For every pair of chunk sequences (token lists `a`, `b` with
per-token sizes given by `f`) whose combined byte size is positive, the
ratio of `Differ._compare` is defined and equals
`2 * matches / (sizeA_total + sizeB_total)` where `matches` sums the sizes
inside EQUAL items; it lies in `[0, 1]` and equals `1` exactly when the two
sequences are identical in chunk content; and on the fixture
A = [(h_a,10),(h_b,10),(h_c,5),(h_d,5),(h_e,5)],
B = [(h_b,10),(h_f,5),(h_c,5),(h_g,5),(h_d,5),(h_h,5)] (hashes coded
a↦0, b↦1, c↦2, d↦3, e↦4, f↦5, g↦6, h↦7) the ratio is
`4/7 = 0.5714285714285714`.

The hypothesis `hpos` (every chunk that occurs has positive size) is the
reading of "byte-identical in chunk content" as list equality: a chunker
emits no empty chunks, and with zero-size chunks admitted the claim's
equivalence would be false for hash lists as such (e.g. `a = [0, 1]`,
`b = [0, 2]` with sizes `1, 0` on each side have identical byte content
and ratio `1`, yet differ as hash lists), so positivity is exactly the
condition under which content identity and list equality coincide.

The `r = 1 ↔ a = b` equivalence holds over the full matcher including the
autojunk purge: on `a = b` the purge can starve the quadratic loop of
candidates, but whatever diagonal best that loop retains, the two
junk-free extension while-loops of `find_longest_match` stretch it to the
whole window, so the single emitted block still covers everything
(`findLongestMatch_diag`). -/
theorem claim_C1 (a b : List Tok) (f : Tok → Nat)
    (hpos : ∀ x ∈ a ++ b, 0 < f x)
    (hden : 0 < (a.map f).sum + (b.map f).sum) :
    ∃ r : ℚ,
      compareRatio a b (a.map f) (b.map f) = some r ∧
      r = 2 * (direMatches (direGet a b (a.map f) (b.map f)) : ℚ)
          / (((a.map f).sum : ℚ) + ((b.map f).sum : ℚ)) ∧
      0 ≤ r ∧ r ≤ 1 ∧ (r = 1 ↔ a = b) ∧
      compareRatio [0, 1, 2, 3, 4] [1, 5, 2, 6, 3, 7]
        [10, 10, 5, 5, 5] [10, 5, 5, 5, 5, 5] = some (4 / 7) := by
  have hne : (a.map f).sum + (b.map f).sum ≠ 0 := by omega
  have hdq : (0 : ℚ) < ((a.map f).sum : ℚ) + ((b.map f).sum : ℚ) := by
    exact_mod_cast hden
  have hfix : compareRatio [0, 1, 2, 3, 4] [1, 5, 2, 6, 3, 7]
      [10, 10, 5, 5, 5] [10, 5, 5, 5, 5, 5] = some (4 / 7) := by
    have hm : direMatches (direGet [0, 1, 2, 3, 4] [1, 5, 2, 6, 3, 7]
        [10, 10, 5, 5, 5] [10, 5, 5, 5, 5, 5]) = 20 := by decide
    unfold compareRatio
    rw [if_neg (by decide), hm,
      show ([10, 10, 5, 5, 5] : List Nat).sum = 35 from rfl,
      show ([10, 5, 5, 5, 5, 5] : List Nat).sum = 35 from rfl]
    norm_num
  refine ⟨_, ?_, rfl, ?_, ?_, ?_, hfix⟩
  · unfold compareRatio
    rw [if_neg hne]
  · positivity
  · rw [div_le_one hdq]
    have h2 := twice_matches_le a b f
    exact_mod_cast h2
  · rw [div_eq_one_iff_eq (ne_of_gt hdq)]
    constructor
    · intro h
      apply (twice_matches_eq_iff a b f hpos).mp
      exact_mod_cast h
    · intro h
      have := (twice_matches_eq_iff a b f hpos).mpr h
      exact_mod_cast this

theorem claim_C1_witness :
    ∃ r : ℚ,
      compareRatio [0, 1, 2, 3, 4] [1, 5, 2, 6, 3, 7]
        (([0, 1, 2, 3, 4] : List Tok).map fun x => if x ≤ 1 then 10 else 5)
        (([1, 5, 2, 6, 3, 7] : List Tok).map fun x => if x ≤ 1 then 10 else 5) = some r ∧
      r = 2 * (direMatches (direGet [0, 1, 2, 3, 4] [1, 5, 2, 6, 3, 7]
            (([0, 1, 2, 3, 4] : List Tok).map fun x => if x ≤ 1 then 10 else 5)
            (([1, 5, 2, 6, 3, 7] : List Tok).map fun x => if x ≤ 1 then 10 else 5)) : ℚ)
          / ((((([0, 1, 2, 3, 4] : List Tok).map fun x => if x ≤ 1 then 10 else 5).sum : ℕ) : ℚ)
            + (((([1, 5, 2, 6, 3, 7] : List Tok).map fun x => if x ≤ 1 then 10 else 5).sum : ℕ) : ℚ)) ∧
      0 ≤ r ∧ r ≤ 1 ∧
      (r = 1 ↔ ([0, 1, 2, 3, 4] : List Tok) = [1, 5, 2, 6, 3, 7]) ∧
      compareRatio [0, 1, 2, 3, 4] [1, 5, 2, 6, 3, 7]
        [10, 10, 5, 5, 5] [10, 5, 5, 5, 5, 5] = some (4 / 7) :=
  claim_C1 [0, 1, 2, 3, 4] [1, 5, 2, 6, 3, 7] (fun x => if x ≤ 1 then 10 else 5)
    (by decide) (by decide)

/-- **C9.** Every `DiffItem` emitted by `Dire.get` has the size shape of
its type: INSERT items have `a = 0`, DELETE items have `b = 0`, EQUAL items
have `a = b` (the precondition that every hash has one consistent size is
expressed by deriving both value lists from one size function `f`), and
every item's two fields are exactly the independent slice sums of the
underlying opcode's two runs.  The property is proven for all inputs over
the full matcher including the autojunk purge, since it rests only on the
soundness of the emitted opcodes (`getOpcodes_wf`), which the purge — a
pure removal of match candidates — cannot break. -/
theorem claim_C9 (a b : List Tok) (f : Tok → Nat) :
    ∀ d ∈ direGet a b (a.map f) (b.map f),
      (d.type = DiffTag.insert → d.a = 0) ∧
      (d.type = DiffTag.delete → d.b = 0) ∧
      (d.type = DiffTag.equal → d.a = d.b) ∧
      ∃ op ∈ getOpcodes a b, d.type = op.tag ∧
        d.a = sliceSum (a.map f) op.i1 op.i2 ∧
        d.b = sliceSum (b.map f) op.j1 op.j2 := by
  intro d hd
  simp only [direGet, List.mem_map] at hd
  obtain ⟨op, hop, hd⟩ := hd
  subst hd
  have hwf := getOpcodes_wf op hop
  refine ⟨?_, ?_, ?_, op, hop, rfl, rfl, rfl⟩
  · intro ht
    obtain ⟨hi, _⟩ := hwf.2.2.2.2.1 ht
    show sliceSum (a.map f) op.i1 op.i2 = 0
    rw [← hi]
    exact sliceSum_same _ _
  · intro ht
    obtain ⟨hj, _⟩ := hwf.2.2.2.2.2.1 ht
    show sliceSum (b.map f) op.j1 op.j2 = 0
    rw [← hj]
    exact sliceSum_same _ _
  · intro ht
    exact equal_op_sizes f op hwf ht

theorem claim_C9_witness :
    (⟨DiffTag.equal, 1, 1⟩ : DiffItem) ∈
        direGet [0] [0] (([0] : List Tok).map fun _ => 1) (([0] : List Tok).map fun _ => 1) ∧
    ((⟨DiffTag.equal, 1, 1⟩ : DiffItem).type = DiffTag.insert →
        (⟨DiffTag.equal, 1, 1⟩ : DiffItem).a = 0) ∧
    ((⟨DiffTag.equal, 1, 1⟩ : DiffItem).type = DiffTag.delete →
        (⟨DiffTag.equal, 1, 1⟩ : DiffItem).b = 0) ∧
    ((⟨DiffTag.equal, 1, 1⟩ : DiffItem).type = DiffTag.equal →
        (⟨DiffTag.equal, 1, 1⟩ : DiffItem).a = (⟨DiffTag.equal, 1, 1⟩ : DiffItem).b) ∧
    ∃ op ∈ getOpcodes [0] [0], (⟨DiffTag.equal, 1, 1⟩ : DiffItem).type = op.tag ∧
        (⟨DiffTag.equal, 1, 1⟩ : DiffItem).a = sliceSum (([0] : List Tok).map fun _ => 1) op.i1 op.i2 ∧
        (⟨DiffTag.equal, 1, 1⟩ : DiffItem).b = sliceSum (([0] : List Tok).map fun _ => 1) op.j1 op.j2 :=
  ⟨by decide, claim_C9 [0] [0] (fun _ => 1) ⟨DiffTag.equal, 1, 1⟩ (by decide)⟩

/-- **C8 counterexample.** The ratio of `Differ._compare` is *not*
symmetric: for A = [0,1,2,3], B = [1,4,3,0] with unit chunk sizes the two
directions give `1/4` and `1/2`.  The asymmetry comes from difflib's
greedy matching (left direction keeps only the single block `1`;
the swapped direction keeps `1` and `3`) together with dire.py's
`A_VALUABLE` rule, which reads an EQUAL item's value from side `a`. -/
theorem claim_C8_counterexample :
    compareRatio [0, 1, 2, 3] [1, 4, 3, 0] [1, 1, 1, 1] [1, 1, 1, 1] = some (1 / 4) ∧
    compareRatio [1, 4, 3, 0] [0, 1, 2, 3] [1, 1, 1, 1] [1, 1, 1, 1] = some (1 / 2) ∧
    compareRatio [0, 1, 2, 3] [1, 4, 3, 0] [1, 1, 1, 1] [1, 1, 1, 1]
      ≠ compareRatio [1, 4, 3, 0] [0, 1, 2, 3] [1, 1, 1, 1] [1, 1, 1, 1] := by
  have h1 : compareRatio [0, 1, 2, 3] [1, 4, 3, 0] [1, 1, 1, 1] [1, 1, 1, 1]
      = some (1 / 4) := by
    have hm : direMatches (direGet [0, 1, 2, 3] [1, 4, 3, 0] [1, 1, 1, 1] [1, 1, 1, 1])
        = 1 := by decide
    unfold compareRatio
    rw [if_neg (by decide), hm,
      show ([1, 1, 1, 1] : List Nat).sum = 4 from rfl]
    norm_num
  have h2 : compareRatio [1, 4, 3, 0] [0, 1, 2, 3] [1, 1, 1, 1] [1, 1, 1, 1]
      = some (1 / 2) := by
    have hm : direMatches (direGet [1, 4, 3, 0] [0, 1, 2, 3] [1, 1, 1, 1] [1, 1, 1, 1])
        = 2 := by decide
    unfold compareRatio
    rw [if_neg (by decide), hm,
      show ([1, 1, 1, 1] : List Nat).sum = 4 from rfl]
    norm_num
  refine ⟨h1, h2, ?_⟩
  rw [h1, h2]
  intro h
  have := Option.some.inj h
  norm_num at this

/-- **C8 (amended).** The denominator `file1.size + file2.size` is
symmetric in the two inputs, so the ratio is symmetric exactly on those
inputs where the matched totals of the two directions agree; in general
`matches`, and hence the ratio, may differ between the two directions. -/
theorem claim_C8 (a b : List Tok) (av bv : List Nat)
    (hm : direMatches (direGet a b av bv) = direMatches (direGet b a bv av)) :
    compareRatio a b av bv = compareRatio b a bv av := by
  unfold compareRatio
  by_cases h : av.sum + bv.sum = 0
  · rw [if_pos h, if_pos (by omega)]
  · rw [if_neg h, if_neg (by omega), hm]
    congr 1
    rw [add_comm]

theorem claim_C8_witness :
    direMatches (direGet [0] [0] [1] [1]) = direMatches (direGet [0] [0] [1] [1]) ∧
    compareRatio [0] [0] [1] [1] = compareRatio [0] [0] [1] [1] :=
  ⟨rfl, claim_C8 [0] [0] [1] [1] rfl⟩

/-- **C4 counterexample.** When both files have zero total size the
alignment engine does *not* special-case the input and does *not* define
the ratio as `1.0`: `Differ._compare` evaluates
`(2 * matches) / (file1.size + file2.size)` unconditionally, which raises
`ZeroDivisionError` (modelled by `none`).  Here both files have no
chunks at all, so their sizes are `0`. -/
theorem claim_C4_counterexample :
    compareFiles ⟨0, 0, []⟩ ⟨1, 1, []⟩ = none := by
  decide

/-- **C4 (amended).** When both compared files have zero total size,
`Differ._compare` raises `ZeroDivisionError` (modelled by `none`): there is
no special case and no defined ratio. -/
theorem claim_C4 (f1 f2 : SFile) (h : f1.size + f2.size = 0) :
    compareFiles f1 f2 = none := by
  unfold compareFiles compareRatio
  have hz : f1.sizes.sum + f2.sizes.sum = 0 := h
  rw [if_pos hz]
  rfl

theorem claim_C4_witness :
    (⟨0, 0, [(5, 0)]⟩ : SFile).size + (⟨1, 1, []⟩ : SFile).size = 0 ∧
    compareFiles ⟨0, 0, [(5, 0)]⟩ ⟨1, 1, []⟩ = none :=
  ⟨rfl, claim_C4 ⟨0, 0, [(5, 0)]⟩ ⟨1, 1, []⟩ (by decide)⟩

/-- **C3.** Candidate-pair discovery (`find_dup_files` over the
`chunk2file_id` indexes, with files given as their chunk hash lists and
identified by their position) returns exactly the pairs of files sharing at
least one chunk hash: a pair `(i, j)` is reported iff `i` and `j` are file
ids of the two catalogs and some chunk hash occurs in both files
(soundness and completeness). -/
theorem claim_C3 (files1 files2 : List (List Tok)) (i j : Nat) :
    (i, j) ∈ findDupPairs files1 files2 ↔
      i < files1.length ∧ j < files2.length ∧
        ∃ c, c ∈ files1.getD i [] ∧ c ∈ files2.getD j [] := by
  simp only [findDupPairs]
  rw [List.mem_dedup, List.mem_flatMap]
  constructor
  · rintro ⟨c, _, hpair⟩
    rw [List.mem_flatMap] at hpair
    obtain ⟨x, hx, hy⟩ := hpair
    rw [List.mem_map] at hy
    obtain ⟨y, hy, heq⟩ := hy
    cases heq
    obtain ⟨hi, hci⟩ := mem_chunk2FileId.mp hx
    obtain ⟨hj, hcj⟩ := mem_chunk2FileId.mp hy
    exact ⟨hi, hj, c, hci, hcj⟩
  · rintro ⟨hi, hj, c, hci, hcj⟩
    have hm1 : i ∈ dictGetD (chunk2FileId files1) c := mem_chunk2FileId.mpr ⟨hi, hci⟩
    have hm2 : j ∈ dictGetD (chunk2FileId files2) c := mem_chunk2FileId.mpr ⟨hj, hcj⟩
    refine ⟨c, ?_, ?_⟩
    · apply List.mem_filter.mpr
      refine ⟨mem_keys_of_lookup_isSome (dictLookup_isSome_of_mem_getD hm1), ?_⟩
      have hk2 : c ∈ (chunk2FileId files2).map fun p => p.1 :=
        mem_keys_of_lookup_isSome (dictLookup_isSome_of_mem_getD hm2)
      exact List.elem_eq_true_of_mem hk2
    · rw [List.mem_flatMap]
      exact ⟨i, hm1, List.mem_map.mpr ⟨j, hm2, rfl⟩⟩

/-- **C10.** Parsing a chunksums stream never fails on duplicate paths
(`Chunksums.parse` is a total fold over the lines): when two lines carry
the same path, the later line's entry silently overwrites the earlier one
in the path-to-checksum dict `files`, so after parsing every path maps to
the checksum of the last input line bearing that path (and a path on no
line maps to nothing). -/
theorem claim_C10 (ls : List SFile) (p : Nat) :
    dictLookup (chunksumsParse ls).files p =
      ((ls.filter fun f => f.path = p).getLast?).map fun f => f.hash := by
  rw [chunksumsParse, chunksumsParse_files_foldl,
    lookup_foldl_pathInsert ls ([] : List (Nat × Tok)) p]
  cases hgl : (ls.filter fun f => f.path = p).getLast? with
  | none => rfl
  | some g => rfl

/-- **C5.** `Differ.dups` suppresses exact self-matches: whatever two
catalogs are compared, no stored result has both identical paths and ratio
exactly 1 (`if f1.path == f2.path and cr.ratio == 1.0: continue`); and on
the chunk-repeat fixture `aa:1,aa:1,aa:1,bb:2` present under two distinct
paths, the report still contains exactly the distinct-path pair with
ratio 1. -/
theorem claim_C5 :
    (∀ (cs1 cs2 : Chunksums) (L : List CompareResult),
        differDups cs1 cs2 = some L →
        ∀ cr ∈ L, ¬ (cr.file1.path = cr.file2.path ∧ cr.ratio = 1)) ∧
    differDups fixtureCS fixtureCS = some [⟨fixtureA, fixtureB, 1⟩] ∧
    fixtureA.path ≠ fixtureB.path := by
  refine ⟨?_, ?_, by decide⟩
  · intro cs1 cs2 L h
    rw [differDups] at h
    cases hgo : dupsGo cs1 cs2 (differPairs cs1 cs2) [] with
    | none => rw [hgo] at h; cases h
    | some l =>
      rw [hgo, Option.map_some'] at h
      have hL := Option.some.inj h
      subst hL
      intro cr hcr
      rw [List.mem_map] at hcr
      obtain ⟨e, he, hecr⟩ := hcr
      subst hecr
      exact dupsGo_sound cs1 cs2 (differPairs cs1 cs2) [] l (by simp) hgo e he
  · have hl3 : dictLookup fixtureCS.hashes 3 = some fixtureA := rfl
    have hl4 : dictLookup fixtureCS.hashes 4 = some fixtureB := rfl
    have hm : direMatches (direGet [0, 0, 0, 1] [0, 0, 0, 1] [1, 1, 1, 2] [1, 1, 1, 2])
        = 5 := by decide
    have hr : compareRatio [0, 0, 0, 1] [0, 0, 0, 1] [1, 1, 1, 2] [1, 1, 1, 2]
        = some 1 := by
      unfold compareRatio
      rw [if_neg (by decide), hm, show ([1, 1, 1, 2] : List Nat).sum = 5 from rfl]
      norm_num
    have hcAA : compareFiles fixtureA fixtureA = some ⟨fixtureA, fixtureA, 1⟩ := by
      show (compareRatio [0, 0, 0, 1] [0, 0, 0, 1] [1, 1, 1, 2] [1, 1, 1, 2]).map
        (fun r => (⟨fixtureA, fixtureA, r⟩ : CompareResult)) = _
      rw [hr]
      rfl
    have hcAB : compareFiles fixtureA fixtureB = some ⟨fixtureA, fixtureB, 1⟩ := by
      show (compareRatio [0, 0, 0, 1] [0, 0, 0, 1] [1, 1, 1, 2] [1, 1, 1, 2]).map
        (fun r => (⟨fixtureA, fixtureB, r⟩ : CompareResult)) = _
      rw [hr]
      rfl
    have hcBB : compareFiles fixtureB fixtureB = some ⟨fixtureB, fixtureB, 1⟩ := by
      show (compareRatio [0, 0, 0, 1] [0, 0, 0, 1] [1, 1, 1, 2] [1, 1, 1, 2]).map
        (fun r => (⟨fixtureB, fixtureB, r⟩ : CompareResult)) = _
      rw [hr]
      rfl
    have hd : differPairs fixtureCS fixtureCS = [(3, 3), (3, 4), (4, 3), (4, 4)] := by
      decide
    rw [differDups, hd]
    rw [dupsGo_cons_skip fixtureCS fixtureCS 3 3 fixtureA fixtureA
      [(3, 4), (4, 3), (4, 4)] [] ⟨fixtureA, fixtureA, 1⟩ hl3 hl3 rfl hcAA ⟨rfl, rfl⟩]
    rw [dupsGo_cons_store fixtureCS fixtureCS 3 4 fixtureA fixtureB
      [(4, 3), (4, 4)] [] ⟨fixtureA, fixtureB, 1⟩ hl3 hl4 rfl hcAB
      (fun hc => absurd hc.1 (by decide))]
    rw [dupsGo_cons_anytrue fixtureCS fixtureCS 4 3 fixtureB fixtureA [(4, 4)]
      (dictInsert [] (fixtureA.size, fixtureA.path, fixtureB.size, fixtureB.path)
        ⟨fixtureA, fixtureB, 1⟩) hl4 hl3 rfl]
    rw [dupsGo_cons_skip fixtureCS fixtureCS 4 4 fixtureB fixtureB []
      (dictInsert [] (fixtureA.size, fixtureA.path, fixtureB.size, fixtureB.path)
        ⟨fixtureA, fixtureB, 1⟩) ⟨fixtureB, fixtureB, 1⟩ hl4 hl4 rfl hcBB ⟨rfl, rfl⟩]
    rw [dupsGo]
    rfl

theorem getD_adjustSpace (bp : List (Nat × Nat)) (j : Nat) :
    (adjustSpace bp).getD j 0 = max (bp.getD j (0, 0)).1 (bp.getD j (0, 0)).2 - 1 := by
  rw [adjustSpace]
  by_cases h : j < bp.length
  · rw [getD_eq_getElem (by simpa using h), List.getElem_map, getD_eq_getElem' _ h]
  · rw [getD_of_le_length (by simpa using (by omega : bp.length ≤ j)),
      getD_of_le_length' _ (by omega)]
    rfl

/-- **C2.** For every alignment whose `total` is the (positive) sum of the
diff item values and every width ≥ 4 such that the ceil-scaling overshoot
`realWidth - width` does not exceed the total adjustable budget (so the
ellipsis fallback does not trigger), the final blueprint's total column
count `Σ max(w1, w2)` equals the requested width exactly, and no range is
elided. -/
theorem claim_C2 (width total : Nat) (dire : List DiffItem)
    (htot : total = direTotal dire) (hpos : 0 < total) (hw : 4 ≤ width)
    (hov : realWidth (prepareBp width total dire) - width
      ≤ (adjustSpace (prepareBp width total dire)).sum) :
    realWidth (fillLinePlan width total dire).1 = width ∧
      (fillLinePlan width total dire).2.1 = 0 ∧
      (fillLinePlan width total dire).2.2 = 0 := by
  have hge := realWidth_prepareBp_ge width total dire htot hpos
  by_cases heq : realWidth (prepareBp width total dire) = width
  · have hplan : fillLinePlan width total dire = (prepareBp width total dire, 0, 0) := by
      simp only [fillLinePlan]
      rw [if_pos heq]
    rw [hplan]
    exact ⟨heq, rfl, rfl⟩
  · have hplan : fillLinePlan width total dire
        = (applyShrinks (prepareBp width total dire)
            ((iterSteps (adjustSpace (prepareBp width total dire))).take
              (realWidth (prepareBp width total dire) - width)), 0, 0) := by
      simp only [fillLinePlan]
      rw [if_neg heq, if_neg (by omega)]
    rw [hplan]
    refine ⟨?_, rfl, rfl⟩
    show realWidth (applyShrinks (prepareBp width total dire)
        ((iterSteps (adjustSpace (prepareBp width total dire))).take
          (realWidth (prepareBp width total dire) - width))) = width
    have hlen := iterSteps_length (adjustSpace (prepareBp width total dire))
    have htk : ((iterSteps (adjustSpace (prepareBp width total dire))).take
        (realWidth (prepareBp width total dire) - width)).length
        = realWidth (prepareBp width total dire) - width := by
      rw [List.length_take, hlen]
      omega
    have hcnt : ∀ j, ((iterSteps (adjustSpace (prepareBp width total dire))).take
        (realWidth (prepareBp width total dire) - width)).count j
        ≤ max ((prepareBp width total dire).getD j (0, 0)).1
            ((prepareBp width total dire).getD j (0, 0)).2 - 1 := by
      intro j
      have h1 := List.Sublist.count_le (List.take_sublist
        (realWidth (prepareBp width total dire) - width)
        (iterSteps (adjustSpace (prepareBp width total dire)))) j
      have h2 := iterSteps_count (adjustSpace (prepareBp width total dire)) j
      have h3 := getD_adjustSpace (prepareBp width total dire) j
      omega
    have hfin := applyShrinks_realWidth _ (prepareBp width total dire) hcnt
    rw [htk] at hfin
    omega

theorem claim_C2_witness :
    (10 : Nat) = direTotal [⟨DiffTag.equal, 10, 10⟩] ∧ (0 : Nat) < 10 ∧ (4 : Nat) ≤ 4 ∧
    realWidth (prepareBp 4 10 [⟨DiffTag.equal, 10, 10⟩]) - 4
      ≤ (adjustSpace (prepareBp 4 10 [⟨DiffTag.equal, 10, 10⟩])).sum ∧
    (realWidth (fillLinePlan 4 10 [⟨DiffTag.equal, 10, 10⟩]).1 = 4 ∧
      (fillLinePlan 4 10 [⟨DiffTag.equal, 10, 10⟩]).2.1 = 0 ∧
      (fillLinePlan 4 10 [⟨DiffTag.equal, 10, 10⟩]).2.2 = 0) :=
  ⟨by decide, by decide, by decide, by decide,
    claim_C2 4 10 [⟨DiffTag.equal, 10, 10⟩] (by decide) (by decide) (by decide) (by decide)⟩

/-- **C6.** The overshoot-correction step of the layout: each op's
adjustable budget is `max(max(w1,w2) - 1, 0)`; the fixed-scan-order
generator `iter_steps` yields exactly the largest-remaining-budget-first
round-robin sequence (the scan order recomputed from the remaining budgets
before every pass gives the same stream); a shrink step decrements both
components of the chosen op, each only while positive, so after any index
stream each op holds `(w1 - count, w2 - count)`; exactly
`min(overshoot, Σ budgets)` decrements are applied; and when the ellipsis
fallback does not trigger, no op with a nonzero tentative max width ends
with max width 0. -/
theorem claim_C6 :
    (∀ (bp : List (Nat × Nat)) (j : Nat),
        (adjustSpace bp).getD j 0
          = max (max (bp.getD j (0, 0)).1 (bp.getD j (0, 0)).2 - 1) 0) ∧
    (∀ s : List Nat, iterSteps s = specRoundRobin s) ∧
    (∀ (bp : List (Nat × Nat)) (idxs : List Nat) (j : Nat),
        (applyShrinks bp idxs).getD j (0, 0)
          = ((bp.getD j (0, 0)).1 - idxs.count j,
             (bp.getD j (0, 0)).2 - idxs.count j)) ∧
    (∀ (width total : Nat) (dire : List DiffItem),
        ((iterSteps (adjustSpace (prepareBp width total dire))).take
            (realWidth (prepareBp width total dire) - width)).length
          = min (realWidth (prepareBp width total dire) - width)
              (adjustSpace (prepareBp width total dire)).sum) ∧
    (∀ (width total : Nat) (dire : List DiffItem),
        realWidth (prepareBp width total dire) - width
            ≤ (adjustSpace (prepareBp width total dire)).sum →
        ∀ j, ¬ max ((prepareBp width total dire).getD j (0, 0)).1
              ((prepareBp width total dire).getD j (0, 0)).2 = 0 →
          ¬ max ((fillLinePlan width total dire).1.getD j (0, 0)).1
              ((fillLinePlan width total dire).1.getD j (0, 0)).2 = 0) := by
  refine ⟨?_, iterSteps_eq_specRoundRobin, fun bp idxs j => applyShrinks_getD idxs bp j, ?_, ?_⟩
  · intro bp j
    rw [getD_adjustSpace]
    omega
  · intro width total dire
    rw [List.length_take, iterSteps_length]
  · intro width total dire hov j hj
    by_cases heq : realWidth (prepareBp width total dire) = width
    · have hplan : fillLinePlan width total dire = (prepareBp width total dire, 0, 0) := by
        simp only [fillLinePlan]
        rw [if_pos heq]
      rw [hplan]
      exact hj
    · have hplan : fillLinePlan width total dire
          = (applyShrinks (prepareBp width total dire)
              ((iterSteps (adjustSpace (prepareBp width total dire))).take
                (realWidth (prepareBp width total dire) - width)), 0, 0) := by
        simp only [fillLinePlan]
        rw [if_neg heq, if_neg (by omega)]
      rw [hplan]
      show ¬ max ((applyShrinks (prepareBp width total dire)
          ((iterSteps (adjustSpace (prepareBp width total dire))).take
            (realWidth (prepareBp width total dire) - width))).getD j (0, 0)).1
          ((applyShrinks (prepareBp width total dire)
          ((iterSteps (adjustSpace (prepareBp width total dire))).take
            (realWidth (prepareBp width total dire) - width))).getD j (0, 0)).2 = 0
      rw [applyShrinks_getD]
      have h1 := List.Sublist.count_le (List.take_sublist
        (realWidth (prepareBp width total dire) - width)
        (iterSteps (adjustSpace (prepareBp width total dire)))) j
      have h2 := iterSteps_count (adjustSpace (prepareBp width total dire)) j
      have h3 := getD_adjustSpace (prepareBp width total dire) j
      show ¬ max (((prepareBp width total dire).getD j (0, 0)).1 - _)
          (((prepareBp width total dire).getD j (0, 0)).2 - _) = 0
      omega

/-- **C7 counterexample.** On the width-8 doctest diff the ellipsis
fallback triggers (overshoot 3 > budget 1), and the kept left-edge op at
index 1 is rendered at its fully shrunk width `(1, 1)`, not at its
original pre-correction ceil-scaled width `(2, 2)`: Step 3's partial
shrink correction is *not* discarded. -/
theorem claim_C7_counterexample :
    (adjustSpace (prepareBp 8 90 direFix)).sum
        < realWidth (prepareBp 8 90 direFix) - 8 ∧
    (fillLinePlan 8 90 direFix).2.1 = 3 ∧
    (fillLinePlan 8 90 direFix).2.2 = 8 ∧
    (fillLinePlan 8 90 direFix).1.getD 1 (0, 0) = (1, 1) ∧
    (prepareBp 8 90 direFix).getD 1 (0, 0) = (2, 2) ∧
    ¬ (fillLinePlan 8 90 direFix).1.getD 1 (0, 0)
        = (prepareBp 8 90 direFix).getD 1 (0, 0) := by
  decide

/-- **C7 (amended).** When the overshoot exceeds the total adjustable
budget and `width ≥ 5`, the plan elides exactly the contiguous middle span
`[ceil((width-3)/2), n - floor((width-3)/2))` (in original op order),
which the renderer replaces by a single 3-column ellipsis token; but
Step 3's shrink correction is *kept*, not discarded: every op — kept edge
ops included — is rendered at its fully shrunk width
`(w1 - budget, w2 - budget)`, not at its pre-correction ceil-scaled width.
The width-8 doctest shows the single ellipsis and the fully shrunk edges. -/
theorem claim_C7 (width total : Nat) (dire : List DiffItem)
    (hw : 5 ≤ width)
    (hov : (adjustSpace (prepareBp width total dire)).sum
      < realWidth (prepareBp width total dire) - width) :
    (fillLinePlan width total dire).2.1 = (width - 2) / 2 ∧
    (fillLinePlan width total dire).2.2
      = (prepareBp width total dire).length - (width - 3) / 2 ∧
    (∀ j, (fillLinePlan width total dire).1.getD j (0, 0)
        = (((prepareBp width total dire).getD j (0, 0)).1
            - (adjustSpace (prepareBp width total dire)).getD j 0,
           ((prepareBp width total dire).getD j (0, 0)).2
            - (adjustSpace (prepareBp width total dire)).getD j 0)) ∧
    fillLine 8 90 direFix = some
      ([Seg.chars '-' 1, Seg.chars '=' 1, Seg.chars '-' 1,
        Seg.dots, Seg.chars '-' 1, Seg.chars '=' 1],
       [Seg.chars '+' 1, Seg.chars '=' 1, Seg.chars '+' 1,
        Seg.dots, Seg.chars '+' 1, Seg.chars '=' 1]) := by
  have htake : (iterSteps (adjustSpace (prepareBp width total dire))).take
      (realWidth (prepareBp width total dire) - width)
      = iterSteps (adjustSpace (prepareBp width total dire)) := by
    apply List.take_of_length_le
    rw [iterSteps_length]
    omega
  have hplan : fillLinePlan width total dire
      = (applyShrinks (prepareBp width total dire)
          ((iterSteps (adjustSpace (prepareBp width total dire))).take
            (realWidth (prepareBp width total dire) - width)),
         (width - 2) / 2,
         (applyShrinks (prepareBp width total dire)
          ((iterSteps (adjustSpace (prepareBp width total dire))).take
            (realWidth (prepareBp width total dire) - width))).length
           - (width - 3) / 2) := by
    simp only [fillLinePlan]
    rw [if_neg (by omega), if_pos hov, if_neg (by omega : ¬ (width - 3) / 2 = 0)]
  refine ⟨by rw [hplan], ?_, ?_, by decide⟩
  · rw [hplan]
    show (applyShrinks (prepareBp width total dire)
        ((iterSteps (adjustSpace (prepareBp width total dire))).take
          (realWidth (prepareBp width total dire) - width))).length
        - (width - 3) / 2 = _
    rw [applyShrinks_length]
  · intro j
    rw [hplan]
    show (applyShrinks (prepareBp width total dire)
        ((iterSteps (adjustSpace (prepareBp width total dire))).take
          (realWidth (prepareBp width total dire) - width))).getD j (0, 0) = _
    rw [applyShrinks_getD, htake, iterSteps_count]

theorem claim_C7_witness :
    (5 : Nat) ≤ 8 ∧
    (adjustSpace (prepareBp 8 90 direFix)).sum
        < realWidth (prepareBp 8 90 direFix) - 8 ∧
    ((fillLinePlan 8 90 direFix).2.1 = (8 - 2) / 2 ∧
    (fillLinePlan 8 90 direFix).2.2
      = (prepareBp 8 90 direFix).length - (8 - 3) / 2 ∧
    (∀ j, (fillLinePlan 8 90 direFix).1.getD j (0, 0)
        = (((prepareBp 8 90 direFix).getD j (0, 0)).1
            - (adjustSpace (prepareBp 8 90 direFix)).getD j 0,
           ((prepareBp 8 90 direFix).getD j (0, 0)).2
            - (adjustSpace (prepareBp 8 90 direFix)).getD j 0)) ∧
    fillLine 8 90 direFix = some
      ([Seg.chars '-' 1, Seg.chars '=' 1, Seg.chars '-' 1,
        Seg.dots, Seg.chars '-' 1, Seg.chars '=' 1],
       [Seg.chars '+' 1, Seg.chars '=' 1, Seg.chars '+' 1,
        Seg.dots, Seg.chars '+' 1, Seg.chars '=' 1])) :=
  ⟨by decide, by decide, claim_C7 8 90 direFix (by decide) (by decide)⟩

end Chunkdup
